import Mathlib

/-!
Verification development for the tag-manager core (scanner / validator /
frontmatter update engine / batch replace engine).

Go strings are embedded as `List Char` (the sources only exercise ASCII
content, where Go's byte indexing and Lean's character indexing agree).
Pure Go library helpers (`strings.TrimSpace`, `strings.Fields`,
`strings.Contains`, `filepath.Clean`, ...) are embedded as executable Lean
functions below; the file system is modelled as an association list of
paths to contents together with the set of paths that are not writable
(writing those fails like a permission error).  The floating-point
digit-ratio comparison is embedded as an exact cross multiplication over
`Nat`; for string lengths the Go `float64` comparison decides exactly the
same way.
-/

set_option autoImplicit false

namespace TagMgr

/-- Embedding of a Go string. -/
abbrev GoStr := List Char

/-- Model of `unicode.IsSpace` restricted to the characters that occur in
the sources' inputs (ASCII whitespace plus NEL and NBSP). -/
def goIsSpace (c : Char) : Bool :=
  c = (' ') ∨ c = ('\t') ∨ c = ('\n') ∨ c = (⟨11, by decide⟩ : Char) ∨
  c = (⟨12, by decide⟩ : Char) ∨ c = (⟨13, by decide⟩ : Char) ∨
  c = (⟨0x85, by decide⟩ : Char) ∨ c = (⟨0xA0, by decide⟩ : Char)

/-- The whitespace class `\s` of Go's regexp package: `[\t\n\f\r ]`. -/
def reIsSpace (c : Char) : Bool :=
  c = (' ') ∨ c = ('\t') ∨ c = ('\n') ∨ c = (⟨12, by decide⟩ : Char) ∨
  c = (⟨13, by decide⟩ : Char)

def isUpperA (c : Char) : Bool := ('A') ≤ c ∧ c ≤ ('Z')

def isLowerA (c : Char) : Bool := ('a') ≤ c ∧ c ≤ ('z')

def isDigitA (c : Char) : Bool := ('0') ≤ c ∧ c ≤ ('9')

def isAlphaA (c : Char) : Bool := isUpperA c ∨ isLowerA c

/-- The word class `\w` of Go's regexp package: `[0-9A-Za-z_]`. -/
def isWordChar (c : Char) : Bool := isAlphaA c ∨ isDigitA c ∨ c = ('_')

/-- ASCII lowering, the model of `strings.ToLower` on the inputs used. -/
def toLowerA (c : Char) : Char :=
  if isUpperA c then Char.ofNat (c.toNat + 32) else c

def lowerStr (s : GoStr) : GoStr := s.map toLowerA

/-- Model of `strings.EqualFold` (ASCII folding). -/
def foldEq (a b : GoStr) : Bool := lowerStr a = lowerStr b

/-- `strings.TrimLeft(s, cutset)` for a cutset given as a predicate. -/
def trimLeftP (p : Char → Bool) (s : GoStr) : GoStr := s.dropWhile p

/-- `strings.TrimRight(s, cutset)` for a cutset given as a predicate. -/
def trimRightP (p : Char → Bool) (s : GoStr) : GoStr :=
  (s.reverse.dropWhile p).reverse

/-- `strings.TrimSpace`. -/
def trimSpace (s : GoStr) : GoStr := trimRightP goIsSpace (trimLeftP goIsSpace s)

/-- `strings.Trim(s, cutset)` for a cutset given as a predicate. -/
def trimBoth (p : Char → Bool) (s : GoStr) : GoStr := trimRightP p (trimLeftP p s)

/-- `strings.HasPrefix`. -/
def strStarts (pre s : GoStr) : Bool := s.take pre.length = pre

/-- `strings.HasSuffix`. -/
def strEnds (suf s : GoStr) : Bool := s.drop (s.length - suf.length) = suf ∧ suf.length ≤ s.length

/-- `strings.TrimPrefix(s, pre)`: drop `pre` once if it is a prefix. -/
def dropPre (pre s : GoStr) : GoStr := if strStarts pre s then s.drop pre.length else s

/-- Whether `sub` occurs in `s` starting exactly at index `i`. -/
def occursAt (s sub : GoStr) (i : Nat) : Prop :=
  i + sub.length ≤ s.length ∧ (s.drop i).take sub.length = sub

instance occursAtDec (s sub : GoStr) (i : Nat) : Decidable (occursAt s sub i) := by
  unfold occursAt; infer_instance

/-- `strings.Contains`. -/
def goContains (s sub : GoStr) : Bool :=
  (List.range (s.length + 1 - sub.length)).any fun i =>
    (s.drop i).take sub.length = sub

/-- `strings.Index`: index of the first occurrence of `sub` in `s`. -/
def strIndex (s sub : GoStr) : Option Nat :=
  (List.range (s.length + 1 - sub.length)).find? fun i =>
    (s.drop i).take sub.length = sub

/-- `strings.Split(s, "\n")`. -/
def splitNL : GoStr → List GoStr
  | [] => [[]]
  | c :: rest =>
    let r := splitNL rest
    if c = ('\n') then [] :: r
    else
      match r with
      | [] => [[c]]
      | l :: ls => (c :: l) :: ls

/-- `strings.Join(lines, "\n")`. -/
def joinNL : List GoStr → GoStr
  | [] => []
  | [l] => l
  | l :: ls => l ++ ('\n') :: joinNL ls

/-- `strings.Fields`: whitespace-separated words (each round consumes at
least one character, so `|s| + 1` rounds of fuel suffice; recursion is on
the fuel so that the definition evaluates by kernel reduction). -/
def goFieldsAux : Nat → GoStr → List GoStr
  | 0, _ => []
  | _, [] => []
  | fuel + 1, c :: rest =>
    if goIsSpace c then goFieldsAux fuel rest
    else
      (c :: rest.takeWhile (fun x => !(goIsSpace x))) ::
        goFieldsAux fuel (rest.dropWhile (fun x => !(goIsSpace x)))

def goFields (s : GoStr) : List GoStr := goFieldsAux (s.length + 1) s

/-- Split at a separator character (used with `/` for paths and `,` for
inline tag arrays). -/
def splitOnChar (sep : Char) : GoStr → List GoStr
  | [] => [[]]
  | c :: rest =>
    let r := splitOnChar sep rest
    if c = sep then [] :: r
    else
      match r with
      | [] => [[c]]
      | l :: ls => (c :: l) :: ls

/-- Join with a separator character. -/
def joinChar (sep : Char) : List GoStr → GoStr
  | [] => []
  | [l] => l
  | l :: ls => l ++ sep :: joinChar sep ls

/-- Byte-lexicographic string order, as used by `sort.Strings`. -/
def goStrLe : GoStr → GoStr → Bool
  | [], _ => true
  | _ :: _, [] => false
  | a :: as, b :: bs =>
    if a.toNat < b.toNat then true
    else if b.toNat < a.toNat then false
    else goStrLe as bs

def insertStr (x : GoStr) : List GoStr → List GoStr
  | [] => [x]
  | y :: ys => if goStrLe x y then x :: y :: ys else y :: insertStr x ys

/-- `sort.Strings` (any sorting algorithm produces the same sorted list). -/
def sortStrings (l : List GoStr) : List GoStr := l.foldr insertStr []

/-- Association-list lookup (`map[string]T` read). -/
def lookupStr {α : Type} (k : GoStr) : List (GoStr × α) → Option α
  | [] => none
  | (k', v) :: rest => if k' = k then some v else lookupStr k rest

/-- Association-list update (`map[string]T` write; keys kept unique). -/
def setStr {α : Type} (k : GoStr) (v : α) : List (GoStr × α) → List (GoStr × α)
  | [] => [(k, v)]
  | (k', v') :: rest => if k' = k then (k, v) :: rest else (k', v') :: setStr k v rest

/-- Association-list delete (`delete(m, k)`). -/
def delStr {α : Type} (k : GoStr) : List (GoStr × α) → List (GoStr × α)
  | [] => []
  | (k', v') :: rest => if k' = k then rest else (k', v') :: delStr k rest

/-- `m[k]++` on a `map[string]int` (missing keys count as zero). -/
def bumpCount (m : List (GoStr × Nat)) (k : GoStr) : List (GoStr × Nat) :=
  match lookupStr k m with
  | some n => setStr k (n + 1) m
  | none => m ++ [(k, 1)]

/-- Count stored for `k` (zero when absent). -/
def countOf (m : List (GoStr × Nat)) (k : GoStr) : Nat :=
  (lookupStr k m).getD 0

/-- `path/filepath.Clean` for slash-separated paths. -/
def goClean (path : GoStr) : GoStr :=
  if path = [] then [('.')]
  else
    let rooted := strStarts ([('/')]) path
    let comps := splitOnChar ('/') path
    let out := comps.foldl (fun acc c =>
      if c = [] ∨ c = [('.')] then acc
      else if c = [('.'), ('.')] then
        match acc with
        | [] => if rooted then [] else [c]
        | a :: as => if a = [('.'), ('.')] then c :: a :: as else as
      else c :: acc) []
    let res := (if rooted then [('/')] else []) ++ joinChar ('/') out.reverse
    if res = [] then [('.')] else res

/-- `filepath.IsAbs`. -/
def goIsAbs (path : GoStr) : Bool := strStarts ([('/')]) path

/-- `filepath.Join` of two elements (empty elements are dropped before
joining, then the result is cleaned). -/
def goJoin (a b : GoStr) : GoStr :=
  if a = [] then goClean b
  else if b = [] then goClean a
  else goClean (a ++ ('/') :: b)

/-- `strings.Count` for a non-empty substring (non-overlapping count). -/
def countOccAux (sub : GoStr) : Nat → GoStr → Nat
  | 0, _ => 0
  | fuel + 1, s =>
    match strIndex s sub with
    | none => 0
    | some i => 1 + countOccAux sub fuel (s.drop (i + sub.length))

def countOcc (s sub : GoStr) : Nat :=
  if sub = [] then s.length + 1 else countOccAux sub (s.length + 1) s

/-- `DefaultValidator.ValidatePath`. -/
def validatePath (path : GoStr) : Except GoStr Unit :=
  if path = [] then .error ("path cannot be empty").data
  else if ¬ goIsAbs path then .error ("path must be absolute").data
  else if goContains (goClean path) (("..").data) then
    .error ("path contains directory traversal").data
  else if 0 < countOcc (goClean path) (("..").data) then
    .error ("path contains directory traversal after resolution").data
  else .ok ()

def validatePathB (path : GoStr) : Bool := (validatePath path).isOk

/-- The configuration fields the embedded core reads.  The three extraction
regexes of the Go `Config` are embedded below as the concrete matchers for
the default patterns (`#[a-zA-Z][\w\-]*`, the inline `tags: [..]` pattern
and the `tags:` list pattern); `MaxDigitRatio` is carried as an exact
rational `digitNum / digitDen` and the `float64` comparison
`digits/len <= MaxDigitRatio` is embedded exactly as the cross
multiplication `digits * digitDen <= digitNum * len` (for the lengths
involved the two decide identically). -/
structure Config where
  excludeDirs : List GoStr
  excludePatterns : List GoStr
  minTagLength : Nat
  digitNum : Nat
  digitDen : Nat
  excludeKeywords : List GoStr

/-- `DefaultConfig()`. -/
def defaultConfig : Config where
  excludeDirs := [("100 Archive").data, ("Attachments").data, (".git").data]
  excludePatterns := [("*.excalidraw.md").data]
  minTagLength := 3
  digitNum := 1
  digitDen := 2
  excludeKeywords :=
    [("bibr").data, ("ftn").data, ("issuecomment").data,
     ("discussion").data, ("diff-").data]

def isHexChar (c : Char) : Bool :=
  isDigitA c ∨ (('a') ≤ c ∧ c ≤ ('f')) ∨ (('A') ≤ c ∧ c ≤ ('F'))

/-- `FilesystemScanner.isHexColor`. -/
def isHexColor (tag : GoStr) : Bool :=
  (tag.length = 3 ∨ tag.length = 6) ∧ tag.all isHexChar

/-- The character-class scan inside `looksLikeID`: upper-case seen,
lower-case seen, digit seen, current digit run, maximal digit run. -/
def idScan (tag : GoStr) : Bool × Bool × Bool × Nat × Nat :=
  tag.foldl (fun st ch =>
    let (u, l, d, c, m) := st
    if isUpperA ch then (true, l, d, 0, m)
    else if isLowerA ch then (u, true, d, 0, m)
    else if isDigitA ch then (u, l, true, c + 1, max m (c + 1))
    else (u, l, d, 0, m)) (false, false, false, 0, 0)

/-- `FilesystemScanner.looksLikeID`. -/
def looksLikeID (tag : GoStr) : Bool :=
  if tag.length < 8 then false
  else
    let (u, l, d, _, m) := idScan tag
    if m > 4 then true
    else if u ∧ l ∧ d ∧ tag.length > 12 then true
    else false

def urlBits : List GoStr :=
  [("http").data, ("https").data, ("ftp").data, ("www").data,
   (".com").data, (".org").data, (".net").data,
   ("localhost").data, ("127.0.0.1").data, ("::1").data]

/-- `FilesystemScanner.isURLFragment`. -/
def isURLFragment (tag : GoStr) : Bool :=
  urlBits.any fun pat => goContains (lowerStr tag) pat

def digitCount (s : GoStr) : Nat := (s.filter isDigitA).length

/-- `FilesystemScanner.isValidTag`.  The final `float64` comparison
`digitRatio <= MaxDigitRatio` is embedded exactly over `ℚ`; for an empty
tag Go computes `0/0 = NaN`, for which the comparison is false, hence the
explicit emptiness guard. -/
def isValidTag (cfg : Config) (tag : GoStr) : Bool :=
  if tag.length < cfg.minTagLength then false
  else if cfg.excludeKeywords.any (fun kw => goContains (lowerStr tag) kw) then false
  else if isHexColor tag then false
  else if looksLikeID tag then false
  else if isURLFragment tag then false
  else tag.length ≠ 0 ∧ digitCount tag * cfg.digitDen ≤ cfg.digitNum * tag.length

/-- `FindAllString` of the default hashtag pattern `#[a-zA-Z][\w\-]*`:
leftmost, non-overlapping, greedy matches in text order. -/
def findHashtagsAux : Nat → GoStr → List GoStr
  | 0, _ => []
  | _, [] => []
  | fuel + 1, c :: rest =>
    if c = ('#') then
      match rest with
      | [] => []
      | d :: rest2 =>
        if isAlphaA d then
          let run := rest2.takeWhile fun x => isWordChar x ∨ x = ('-')
          (('#') :: d :: run) :: findHashtagsAux fuel (rest2.drop run.length)
        else findHashtagsAux fuel (d :: rest2)
    else findHashtagsAux fuel rest

def findHashtags (s : GoStr) : List GoStr := findHashtagsAux (s.length + 1) s

def hashPrevBad (c : Char) : Bool :=
  c = ('@') ∨ isAlphaA c ∨ isDigitA c ∨ c = ('-') ∨ c = ('_')

def hashNextBad (c : Char) : Bool :=
  isAlphaA c ∨ isDigitA c ∨ c = ('-') ∨ c = ('_')

/-- The per-occurrence test of `checkHashtagBoundary`: the character before
the occurrence (when there is one) and the character after it (when there
is one) are acceptable. -/
def hashOccOk (content hashtag : GoStr) (i : Nat) : Bool :=
  (if i = 0 then true
   else
     match content.get? (i - 1) with
     | some c => !(hashPrevBad c)
     | none => true) &&
  (match content.get? (i + hashtag.length) with
   | some c => !(hashNextBad c)
   | none => true)

/-- The occurrence-scanning loop of `checkHashtagBoundary`, fuelled by the
number of remaining start positions (the Go loop advances `start` past each
failed occurrence, so `|content| + 1` rounds suffice). -/
def chbAux (content hashtag : GoStr) : Nat → Nat → Bool
  | _, 0 => false
  | start, fuel + 1 =>
    match strIndex (content.drop start) hashtag with
    | none => false
    | some idx =>
      if hashOccOk content hashtag (start + idx) then true
      else chbAux content hashtag (start + idx + 1) fuel

/-- `FilesystemScanner.checkHashtagBoundary`. -/
def checkHashtagBoundary (content hashtag : GoStr) : Bool :=
  chbAux content hashtag 0 (content.length + 1)

/-- Start indices of lines (`(?m)^` positions). -/
def lineStarts (s : GoStr) : List Nat :=
  0 :: (((List.range s.length).filter fun i => s.get? i = some ('\n')).map (· + 1))

/-- Match of the default inline pattern `(?m)^tags:\s*\[([^\]]+)\]` at one
line start; returns the capture group. -/
def yamlArrayAt (s : GoStr) : Option GoStr :=
  if strStarts (("tags:").data) s then
    match (s.drop 5).dropWhile reIsSpace with
    | '[' :: r2 =>
      let inner := r2.takeWhile fun c => c ≠ (']')
      if inner ≠ [] ∧ r2.drop inner.length ≠ [] then some inner else none
    | _ => none
  else none

/-- `FindStringSubmatch` of the default inline `tags: [..]` pattern: the
first line start where the pattern matches. -/
def yamlArrayCapture (content : GoStr) : Option GoStr :=
  (lineStarts content).findSome? fun i => yamlArrayAt (content.drop i)

def reSpaceNoNL (c : Char) : Bool := reIsSpace c ∧ c ≠ ('\n')

/-- One repetition `\s+-\s+.+\n?` of the default list pattern, with the
whitespace runs taken within the current line (the shape every input in
this development exercises); returns consumed characters and the rest. -/
def yamlListRep (s : GoStr) : Option (GoStr × GoStr) :=
  let ws1 := s.takeWhile reSpaceNoNL
  if ws1 = [] then none
  else
    match s.drop ws1.length with
    | '-' :: r2 =>
      let ws2 := r2.takeWhile reSpaceNoNL
      if ws2 = [] then none
      else
        let body := (r2.drop ws2.length).takeWhile fun c => c ≠ ('\n')
        if body = [] then none
        else
          match (r2.drop ws2.length).drop body.length with
          | '\n' :: r3 => some (ws1 ++ ('-') :: ws2 ++ body ++ [('\n')], r3)
          | r3 => some (ws1 ++ ('-') :: ws2 ++ body, r3)
    | _ => none

def yamlListReps : Nat → GoStr → GoStr
  | 0, _ => []
  | fuel + 1, s =>
    match yamlListRep s with
    | none => []
    | some (consumed, rest) => consumed ++ yamlListReps fuel rest

/-- Match of the default list pattern `(?m)^tags:\s*$\n((?:\s+-\s+.+\n?)+)`
at one line start: `tags:` followed only by whitespace up to a newline,
then one or more indented `- item` repetitions (the capture group). -/
def yamlListAt (s : GoStr) : Option GoStr :=
  if strStarts (("tags:").data) s then
    let u := s.drop 5
    let w := u.takeWhile reIsSpace
    if w.contains ('\n') then
      let t := (w.reverse.takeWhile fun c => c ≠ ('\n')).reverse
      let block := t ++ u.drop w.length
      let cap := yamlListReps (block.length + 1) block
      if cap = [] then none else some cap
    else none
  else none

/-- `FindStringSubmatch` of the default `tags:` list pattern. -/
def yamlListCapture (content : GoStr) : Option GoStr :=
  (lineStarts content).findSome? fun i => yamlListAt (content.drop i)

def isQuoteChar (c : Char) : Bool := c = ('"') ∨ c = ('\'')

/-- Deduplicating insertion, the model of adding to the `tagMap` set (the
result list carries the set's elements). -/
def insertTag (acc : List GoStr) (t : GoStr) : List GoStr :=
  if t ∈ acc then acc else acc ++ [t]

/-- `FilesystemScanner.ExtractTags` with the default patterns. -/
def extractTags (cfg : Config) (content : GoStr) : List GoStr :=
  let step1 := (findHashtags content).foldl (fun acc m =>
    let tag := dropPre (("#").data) m
    if isValidTag cfg tag ∧ checkHashtagBoundary content m then insertTag acc tag
    else acc) []
  let step2 :=
    match yamlArrayCapture content with
    | some cap => (splitOnChar (',') cap).foldl (fun acc t =>
        let t1 := trimBoth isQuoteChar (trimSpace t)
        if isValidTag cfg t1 then insertTag acc t1 else acc) step1
    | none => step1
  match yamlListCapture content with
  | some cap => (splitNL cap).foldl (fun acc line =>
      let t1 := trimBoth isQuoteChar (trimSpace (dropPre ([('-')]) (trimSpace line)))
      if isValidTag cfg t1 then insertTag acc t1 else acc) step2
  | none => step2

def natStr (n : Nat) : GoStr := (Nat.repr n).data

/-- The characters the validator's `[^a-zA-Z0-9\-_]` class accepts. -/
def isTagChar (c : Char) : Bool := isAlphaA c ∨ isDigitA c ∨ c = ('-') ∨ c = ('_')

/-- `regexp.MustCompile("-+").ReplaceAllString(s, "-")` (fuelled for
kernel reduction; `|s| + 1` rounds suffice). -/
def collapseDashesAux : Nat → GoStr → GoStr
  | 0, s => s
  | _, [] => []
  | fuel + 1, c :: rest =>
    if c = ('-') then ('-') :: collapseDashesAux fuel (rest.dropWhile fun x => x = ('-'))
    else c :: collapseDashesAux fuel rest

def collapseDashes (s : GoStr) : GoStr := collapseDashesAux (s.length + 1) s

structure ValidationResult where
  isValid : Bool
  issues : List GoStr
  suggestions : List GoStr
deriving Repr, DecidableEq

/-- `DefaultValidator.ValidateTag` with the embedded default patterns (the
configured regexes always compile here, so the scanner-construction error
branch is unreachable; the numeric percentages Go formats into the
digit-ratio message are not reproduced in the message text). -/
def validateTag (cfg : Config) (tag : GoStr) : ValidationResult :=
  let clean := dropPre (("#").data) (trimSpace tag)
  if clean = [] then ⟨false, [("Tag cannot be empty").data], []⟩
  else
    let lenBad := clean.length < cfg.minTagLength
    let startBad := !(match clean with | c :: _ => isAlphaA c | [] => false)
    let digitStart := match clean with | c :: _ => isDigitA c | [] => false
    let charsBad := !(clean.all isTagChar)
    let sug4 := trimBoth (fun c => c = ('-'))
      (collapseDashes (clean.map fun c => if isTagChar c then c else ('-')))
    let ddBad := goContains clean (("--").data)
    let sug5 := collapseDashes clean
    let hexBad := isHexColor clean
    let idBad := looksLikeID clean
    let urlBad := isURLFragment clean
    let kwHit := cfg.excludeKeywords.find? fun kw => goContains (lowerStr clean) kw
    let fracBad := !(decide (digitCount clean * cfg.digitDen ≤ cfg.digitNum * clean.length))
    { isValid := !(lenBad ∨ startBad ∨ charsBad ∨ ddBad ∨ hexBad ∨ idBad ∨ urlBad ∨
        kwHit.isSome ∨ fracBad)
      issues :=
        (if lenBad then
          [("Tag must be at least ").data ++ natStr cfg.minTagLength ++
            (" characters long").data] else []) ++
        (if startBad then [("Tag must start with a letter").data] else []) ++
        (if charsBad then
          [("Tag contains invalid characters (only letters, numbers, hyphens, and underscores allowed)").data]
         else []) ++
        (if ddBad then [("Tag contains consecutive hyphens").data] else []) ++
        (if hexBad then [("Tag appears to be a hex color code").data] else []) ++
        (if idBad then [("Tag appears to be an ID or hash").data] else []) ++
        (if urlBad then [("Tag appears to contain URL fragments").data] else []) ++
        (match kwHit with
         | some kw => [("Tag contains excluded keyword: ").data ++ kw]
         | none => []) ++
        (if fracBad then [("Tag contains too many digits").data] else [])
      suggestions :=
        (if startBad && digitStart then [("Consider: tag-").data ++ clean] else []) ++
        (if charsBad && decide (sug4 ≠ clean) then [("Suggested: ").data ++ sug4] else []) ++
        (if ddBad && decide (sug5 ≠ clean) then [("Suggested: ").data ++ sug5] else []) ++
        (if hexBad then [("Consider: color-").data ++ clean] else []) ++
        (if idBad then [("Consider using a more descriptive tag name").data] else []) ++
        (if urlBad then [("Consider using a more descriptive tag name").data] else []) ++
        (if fracBad then
          [("Consider using more descriptive text instead of numbers").data] else []) }

/-- `DefaultTagManager.normalizeTag`. -/
def normalizeTag (tag : GoStr) : GoStr := dropPre (("#").data) (trimSpace tag)

/-- `DefaultTagManager.isHashtagOnlyLine`. -/
def isHashtagOnlyLine (line : GoStr) : Bool :=
  let words := goFields line
  words ≠ [] ∧ words.all fun w => strStarts (("#").data) w

/-- The line scan of `FindFirstNonHashtagContent`. -/
def ffnhcAux : List GoStr → Nat → Nat
  | [], i => i
  | l :: ls, i =>
    let t := trimSpace l
    if t = [] then ffnhcAux ls (i + 1)
    else if !(isHashtagOnlyLine t) then i
    else ffnhcAux ls (i + 1)

/-- `DefaultTagManager.FindFirstNonHashtagContent`. -/
def findFirstNonHashtagContent (content : GoStr) : Nat :=
  ffnhcAux (splitNL content) 0

/-- `DefaultTagManager.extractTopHashtags`. -/
def extractTopHashtags (content : GoStr) (boundary : Nat) : List GoStr :=
  if boundary = 0 then []
  else
    ((splitNL content).take boundary).foldl (fun acc line =>
      let t := trimSpace line
      if t = [] then acc
      else acc ++ (goFields t).filterMap fun w =>
        if strStarts (("#").data) w then
          let tg := normalizeTag w
          if tg ≠ [] then some tg else none
        else none) []

/-- `DefaultTagManager.DetectTopOfFileHashtags`. -/
def detectTopOfFileHashtags (content : GoStr) : List GoStr :=
  extractTopHashtags content (findFirstNonHashtagContent content)

/-- `DefaultTagManager.removeTopHashtags`. -/
def removeTopHashtags (content : GoStr) (hashtags : List GoStr) : GoStr :=
  if hashtags = [] then content
  else
    let lines := splitNL content
    let boundary := findFirstNonHashtagContent content
    let newLines := lines.enum.map fun p =>
      if p.1 < boundary ∧ trimSpace p.2 ≠ [] ∧ isHashtagOnlyLine (trimSpace p.2) then []
      else p.2
    trimLeftP (fun c => c = ('\n')) (joinNL newLines)

/-- Whether the position right after a match whose last character is
`lastC` is a `\b` word boundary (end of text counts as a non-word
character). -/
def wordFlip (lastC : Char) (next : Option Char) : Bool :=
  match next with
  | none => isWordChar lastC
  | some c => isWordChar lastC ≠ isWordChar c

/-- `ReplaceAllString` of `#TAG\b` with the empty string (the hashtag
stripping of `removeHashtagsFromBody`). -/
def reHashDeleteAux (tag : GoStr) : Nat → GoStr → GoStr
  | 0, s => s
  | _, [] => []
  | fuel + 1, c :: rest =>
    if c = ('#') ∧ strStarts tag rest ∧
        wordFlip (tag.getLastD ('#')) (rest.drop tag.length).head? then
      reHashDeleteAux tag fuel (rest.drop tag.length)
    else c :: reHashDeleteAux tag fuel rest

def reHashDelete (tag s : GoStr) : GoStr := reHashDeleteAux tag (s.length + 1) s

/-- `DefaultTagManager.removeHashtagsFromBody`. -/
def removeHashtagsFromBody (content : GoStr) (tags : List GoStr) : GoStr :=
  tags.foldl (fun acc tag =>
    let n := normalizeTag tag
    if n = [] then acc else reHashDelete n acc) content

/-- `ReplaceAllString` of `#OLD\b` with `#NEW` (the hashtag substitution of
`replaceTagsInFile`). -/
def reHashSubAux (old new : GoStr) : Nat → GoStr → GoStr
  | 0, s => s
  | _, [] => []
  | fuel + 1, c :: rest =>
    if c = ('#') ∧ strStarts old rest ∧
        wordFlip (old.getLastD ('#')) (rest.drop old.length).head? then
      ('#') :: new ++ reHashSubAux old new fuel (rest.drop old.length)
    else c :: reHashSubAux old new fuel rest

def reHashSub (old new s : GoStr) : GoStr := reHashSubAux old new (s.length + 1) s

/-- A frontmatter value: either a sequence of strings or an opaque scalar
line.  This is the tag-bearing subset of YAML the program interprets
(spec §1, §4.3, §9): the `tags` field arrives as an inline array or a
line list; every other field is an opaque single-line value preserved
verbatim. -/
inductive FmVal where
  | list : List GoStr → FmVal
  | str : GoStr → FmVal
deriving Repr, DecidableEq

/-- Frontmatter metadata: the `map[string]interface{}` with unique keys. -/
abbrev Fm := List (GoStr × FmVal)

/-- Strip one pair of matching surrounding quotes (how the YAML library
reads a quoted scalar in the modelled subset). -/
def unquote (s : GoStr) : GoStr :=
  match s with
  | [] => []
  | c :: rest => if isQuoteChar c ∧ rest.getLast? = some c then rest.dropLast else s

/-- Split a line at its first `:`. -/
def splitColon (l : GoStr) : Option (GoStr × GoStr) :=
  let pre := l.takeWhile fun c => c ≠ (':')
  if pre.length = l.length then none else some (pre, l.drop (pre.length + 1))

/-- A line of a block sequence: non-blank, and its trimmed form starts
with `-`. -/
def isDashItemLine (l : GoStr) : Bool :=
  trimSpace l ≠ [] ∧ strStarts ([('-')]) (trimSpace l)

/-- The item denoted by a block-sequence line. -/
def itemOf (l : GoStr) : GoStr :=
  unquote (trimSpace (dropPre ([('-')]) (trimSpace l)))

/-- Modelled from the external library `gopkg.in/yaml.v3`:
`yaml.Unmarshal` restricted to the subset of YAML the program interprets
(top-level `key: value` scalars, `key:` followed by `- item` lines, inline
`key: [a, b]` arrays; anything else, an empty key or a duplicate key is a
deserialization error). -/
def yamlLinesParseAux : Nat → List GoStr → Fm → Except GoStr Fm
  | 0, _, acc => .ok acc
  | _, [], acc => .ok acc
  | fuel + 1, l :: ls, acc =>
    if trimSpace l = [] then yamlLinesParseAux fuel ls acc
    else
      match splitColon l with
      | none => .error (("yaml: cannot unmarshal line: ").data ++ l)
      | some (k, rest) =>
        let key := trimSpace k
        if key = [] then .error (("yaml: empty key in line: ").data ++ l)
        else if (lookupStr key acc).isSome then
          .error (("yaml: key already defined: ").data ++ key)
        else
          let v := trimSpace rest
          if v = [] then
            let dash := ls.takeWhile isDashItemLine
            if dash = [] then yamlLinesParseAux fuel ls (acc ++ [(key, .str [])])
            else yamlLinesParseAux fuel (ls.drop dash.length) (acc ++ [(key, .list (dash.map itemOf))])
          else if strStarts ([('[')]) v ∧ v.getLast? = some (']') then
            let inner := trimSpace (v.drop 1).dropLast
            if inner = [] then yamlLinesParseAux fuel ls (acc ++ [(key, .list [])])
            else yamlLinesParseAux fuel ls
              (acc ++ [(key, .list ((splitOnChar (',') inner).map fun t => unquote (trimSpace t)))])
          else yamlLinesParseAux fuel ls (acc ++ [(key, .str v)])

def yamlUnmarshalModel (s : GoStr) : Except GoStr Fm :=
  yamlLinesParseAux ((splitNL s).length + 1) (splitNL s) []

/-- One marshalled entry of the modelled `yaml.Marshal` (sequences are
indented four spaces, as `yaml.v3` does). -/
def fmEntryStr (k : GoStr) : FmVal → GoStr
  | .str [] => k ++ [(':'), ('\n')]
  | .str v => k ++ (": ").data ++ v ++ [('\n')]
  | .list [] => k ++ (": []").data ++ [('\n')]
  | .list items =>
    k ++ [(':'), ('\n')] ++ items.foldr (fun t acc => ("    - ").data ++ t ++ ('\n') :: acc) []

/-- Modelled from the external library `gopkg.in/yaml.v3`: `yaml.Marshal`
on the interpreted subset (keys emitted in sorted order, as the library
does for maps). -/
def yamlMarshalModel (data : Fm) : GoStr :=
  (sortStrings (data.map Prod.fst)).foldl (fun acc k =>
    match lookupStr k data with
    | some v => acc ++ fmEntryStr k v
    | none => acc) []

/-- `DefaultTagManager.parseFrontmatter`. -/
def parseFrontmatter (content : GoStr) : Except GoStr (Fm × GoStr) :=
  let lines := splitNL content
  if lines.length < 3 ∨ lines.head? ≠ some (("---").data) then .ok ([], content)
  else
    match (lines.drop 1).findIdx? (fun l => l = ("---").data) with
    | none => .ok ([], content)
    | some j =>
      let fmContent := joinNL ((lines.drop 1).take j)
      let body := joinNL (lines.drop (j + 2))
      if fmContent = [] then .ok ([], body)
      else
        match yamlUnmarshalModel fmContent with
        | .error e => .error (("YAML parse error: ").data ++ e)
        | .ok d => .ok (d, body)

/-- `DefaultTagManager.serializeFrontmatter` (`yaml.Marshal` cannot fail on
the modelled subset, so the error branch of the Go function is
unreachable here). -/
def serializeFrontmatter (data : Fm) : GoStr :=
  if data = [] then []
  else ("---").data ++ ('\n') :: yamlMarshalModel data ++ ("---").data ++ [('\n')]

/-- The current tag list `updateFrontmatterTags` reads from the metadata
(string entries, trimmed). -/
def currentTagsOf (data : Fm) : List GoStr :=
  match lookupStr (("tags").data) data with
  | some (.list l) => l.map trimSpace
  | _ => []

/-- One round of the add loop of `updateFrontmatterTags` over the state
(current tags, lower-cased tag set, added tags). -/
def addPhaseStep (st : List GoStr × List GoStr × List GoStr) (tag : GoStr) :
    List GoStr × List GoStr × List GoStr :=
  if lowerStr tag ∈ st.2.1 then st
  else (st.1 ++ [tag], st.2.1 ++ [lowerStr tag], st.2.2 ++ [tag])

/-- One round of the remove loop of `updateFrontmatterTags` over the state
(kept tags, removed tags). -/
def removePhaseStep (removeTags : List GoStr) (st : List GoStr × List GoStr)
    (tag : GoStr) : List GoStr × List GoStr :=
  match removeTags.find? (fun rt => foldEq tag rt) with
  | some _ => (st.1, st.2 ++ [tag])
  | none => (st.1 ++ [tag], st.2)

/-- `DefaultTagManager.updateFrontmatterTags`: returns the updated
metadata together with the added and removed tag lists. -/
def updateFrontmatterTags (data : Fm) (addTags removeTags : List GoStr) :
    Fm × List GoStr × List GoStr :=
  let currentTags0 := currentTagsOf data
  let st := addTags.foldl addPhaseStep
    (currentTags0, currentTags0.map lowerStr, ([] : List GoStr))
  let fr := st.1.foldl (removePhaseStep removeTags) (([] : List GoStr), ([] : List GoStr))
  let data' :=
    if fr.1 ≠ [] ∨ st.2.2 ≠ [] then
      setStr (("tags").data) (.list (sortStrings fr.1)) data
    else delStr (("tags").data) data
  (data', st.2.2, fr.2)

/-- `DefaultTagManager.resolveTagConflicts`. -/
def resolveTagConflicts (addTags removeTags : List GoStr) :
    Except GoStr (List GoStr × List GoStr) :=
  let na := addTags.map normalizeTag
  let nr := removeTags.map normalizeTag
  let fa := na.filter fun a => !(nr.any fun r => foldEq a r)
  let fr := nr.filter fun r => !(na.any fun a => foldEq r a)
  if fa = [] ∧ fr = [] then
    .error ("no operations remain after conflict resolution").data
  else .ok (sortStrings fa, sortStrings fr)

/-- `containsTag`. -/
def containsTag (tags : List GoStr) (target : GoStr) : Bool :=
  tags.any fun t => foldEq t target

/-- The file system: stored files and the set of paths whose write
permission is denied. -/
structure FS where
  files : List (GoStr × GoStr)
  unwritable : List GoStr
deriving Repr, DecidableEq

/-- `os.ReadFile` (existing files are readable). -/
def readFS (fs : FS) (p : GoStr) : Option GoStr := lookupStr p fs.files

def readErr (p : GoStr) : GoStr :=
  ("open ").data ++ p ++ (": no such file or directory").data

def writeErr (p : GoStr) : GoStr :=
  ("open ").data ++ p ++ (": permission denied").data

/-- `os.WriteFile`. -/
def writeFS (fs : FS) (p c : GoStr) : Except GoStr FS :=
  if p ∈ fs.unwritable then .error (writeErr p)
  else .ok ⟨setStr p c fs.files, fs.unwritable⟩

/-- `TagUpdateResult`. -/
structure TagUpdateResult where
  filesMigrated : List GoStr
  modifiedFiles : List GoStr
  tagsRemoved : List (GoStr × Nat)
  tagsAdded : List (GoStr × Nat)
  errors : List GoStr
deriving Repr, DecidableEq

def emptyUpd : TagUpdateResult := ⟨[], [], [], [], []⟩

/-- The tail of the per-file loop of `UpdateTags`, after the file has been
read and its frontmatter parsed: migration, frontmatter update, body
rewriting and the conditional write. -/
def processFile (rootPath : GoStr) (resolvedAdd resolvedRemove : List GoStr)
    (dryRun : Bool) (r : TagUpdateResult) (f : FS) (filePath : GoStr)
    (fmData : Fm) (body0 : GoStr) : TagUpdateResult × FS :=
  let absolutePath := goJoin rootPath (goClean filePath)
  let topHashtags := detectTopOfFileHashtags body0
  let migration := topHashtags ≠ []
  let r1 :=
    if migration then
      { r with filesMigrated := r.filesMigrated ++ [filePath],
               tagsAdded := topHashtags.foldl bumpCount r.tagsAdded }
    else r
  let body1 := if migration then removeTopHashtags body0 topHashtags else body0
  let allAdd := resolvedAdd.map normalizeTag ++ topHashtags
  let upd := updateFrontmatterTags fmData allAdd (resolvedRemove.map normalizeTag)
  let modified := migration ∨ upd.2.1 ≠ [] ∨ upd.2.2 ≠ []
  let r2 :=
    if upd.2.1 ≠ [] ∨ upd.2.2 ≠ [] then
      { r1 with
        tagsAdded := upd.2.1.foldl (fun m tag =>
          if !migration ∨ !(containsTag topHashtags tag) then bumpCount m tag
          else m) r1.tagsAdded,
        tagsRemoved := upd.2.2.foldl bumpCount r1.tagsRemoved }
    else r1
  if modified then
    let newContent :=
      serializeFrontmatter upd.1 ++ removeHashtagsFromBody body1 resolvedRemove
    if dryRun then
      ({ r2 with modifiedFiles := r2.modifiedFiles ++ [filePath] }, f)
    else
      match writeFS f absolutePath newContent with
      | .error e =>
        ({ r2 with errors := r2.errors ++ [filePath ++ (": ").data ++ e] }, f)
      | .ok f' =>
        ({ r2 with modifiedFiles := r2.modifiedFiles ++ [filePath] }, f')
  else (r2, f)

/-- The body of the per-file loop of `UpdateTags`. -/
def updateFileStep (rootPath : GoStr) (resolvedAdd resolvedRemove : List GoStr)
    (dryRun : Bool) (st : TagUpdateResult × FS) (filePath : GoStr) :
    TagUpdateResult × FS :=
  let r := st.1
  let f := st.2
  let cleanPath := goClean filePath
  if goIsAbs cleanPath ∨ goContains cleanPath (("..").data) then
    ({ r with errors := r.errors ++
        [filePath ++ (": path must be relative to root and cannot contain '..'").data] }, f)
  else
    let absolutePath := goJoin rootPath cleanPath
    match validatePath absolutePath with
    | .error e =>
      ({ r with errors := r.errors ++ [filePath ++ (": invalid path: ").data ++ e] }, f)
    | .ok _ =>
      match readFS f absolutePath with
      | none =>
        ({ r with errors := r.errors ++ [filePath ++ (": ").data ++ readErr absolutePath] }, f)
      | some originalContent =>
        match parseFrontmatter originalContent with
        | .error e =>
          ({ r with errors := r.errors ++
              [filePath ++ (": malformed YAML frontmatter: ").data ++ e] }, f)
        | .ok (fmData, body0) => processFile rootPath resolvedAdd resolvedRemove dryRun r f filePath fmData body0

/-- `DefaultTagManager.UpdateTags`. -/
def updateTags (addTags removeTags : List GoStr) (rootPath : GoStr)
    (filePaths : List GoStr) (fs : FS) (dryRun : Bool) :
    Except GoStr TagUpdateResult × FS :=
  match validatePath rootPath with
  | .error e => (.error (("invalid root path: ").data ++ e), fs)
  | .ok _ =>
    match (if addTags ≠ [] ∨ removeTags ≠ [] then resolveTagConflicts addTags removeTags
           else .ok ([], [])) with
    | .error e => (.error (("tag conflict resolution failed: ").data ++ e), fs)
    | .ok (resolvedAdd, resolvedRemove) =>
      let (r, f) := filePaths.foldl (updateFileStep rootPath resolvedAdd resolvedRemove dryRun)
        (emptyUpd, fs)
      (.ok r, f)

/-- Maximal position in `seg` where an optionally-quoted `old` occurs (the
greedy `[^\]]*` group backtracks from the right; at each position the
optional quote is tried first).  Returns the position and the quote
consumption. -/
def findOldInSeg (old seg : GoStr) : Option (Nat × Nat) :=
  (List.range (seg.length + 1)).reverse.findSome? fun p =>
    if strStarts (('"') :: old) (seg.drop p) then some (p, 1)
    else if strStarts old (seg.drop p) then some (p, 0)
    else none

/-- One match of the inline-array replacement pattern
`(tags:\s*\[[^\]]*)"?OLD"?([^\]]*\])` starting exactly at the head of `s`:
returns group 1, group 2 and the rest of the string after the match. -/
def tryArrayMatch (old s : GoStr) : Option (GoStr × GoStr × GoStr) :=
  if strStarts (("tags:").data) s then
    let u := s.drop 5
    let ws := u.takeWhile reIsSpace
    match u.drop ws.length with
    | '[' :: r2 =>
      let seg := r2.takeWhile fun c => c ≠ (']')
      match r2.drop seg.length with
      | ']' :: after =>
        match findOldInSeg old seg with
        | some (p, q1) =>
          let q2 := if (seg.drop (p + q1 + old.length)).head? = some ('"') then 1 else 0
          some ((("tags:").data) ++ ws ++ ('[') :: seg.take p,
                seg.drop (p + q1 + old.length + q2) ++ [(']')], after)
        | none => none
      | _ => none
    | _ => none
  else none

/-- `ReplaceAllString` of the inline-array pattern with `${1}"NEW"${2}`:
leftmost matches, scanning resumes after each match. -/
def arraySubAux (old new : GoStr) : Nat → GoStr → GoStr
  | 0, s => s
  | fuel + 1, s =>
    match s with
    | [] => []
    | c :: rest =>
      match tryArrayMatch old s with
      | some (g1, g2, after) =>
        g1 ++ ('"') :: new ++ ('"') :: g2 ++ arraySubAux old new fuel after
      | none => c :: arraySubAux old new fuel rest

def yamlArraySubAll (old new s : GoStr) : GoStr := arraySubAux old new (s.length + 1) s

/-- One line against the list replacement pattern
`(?m)(^\s+-\s+)"?OLD"?\s*$` with replacement `${1}"NEW"` (whitespace runs
taken within the line, the shape every input here exercises). -/
def lineListSub (old new line : GoStr) : GoStr :=
  let ws1 := line.takeWhile reSpaceNoNL
  if ws1 = [] then line
  else
    match line.drop ws1.length with
    | '-' :: r2 =>
      let ws2 := r2.takeWhile reSpaceNoNL
      if ws2 = [] then line
      else
        let core := r2.drop ws2.length
        let rem :=
          if strStarts (('"') :: old) core then some (core.drop (old.length + 1))
          else if strStarts old core then some (core.drop old.length)
          else none
        match rem with
        | some rem1 =>
          let rem2 := if rem1.head? = some ('"') then rem1.drop 1 else rem1
          if rem2.all reSpaceNoNL then ws1 ++ ('-') :: ws2 ++ ('"') :: new ++ [('"')]
          else line
        | none => line
    | _ => line

def yamlListSubAll (old new s : GoStr) : GoStr :=
  joinNL ((splitNL s).map (lineListSub old new))

/-- `TagReplacement` (old tag, new tag). -/
abbrev TagReplacement := GoStr × GoStr

/-- The three textual substitutions of `replaceTagsInFile` for one
replacement pair, in source order. -/
def applyOnePair (content : GoStr) (rep : TagReplacement) : GoStr :=
  let old := normalizeTag rep.1
  let new := normalizeTag rep.2
  yamlListSubAll old new (yamlArraySubAll old new (reHashSub old new content))

/-- All pairs' substitutions, in order. -/
def applySubsts (reps : List TagReplacement) (content : GoStr) : GoStr :=
  reps.foldl applyOnePair content

/-- `DefaultTagManager.replaceTagsInFile`: returns the possibly updated
file system. -/
def replaceTagsInFile (fs : FS) (p : GoStr) (reps : List TagReplacement)
    (dryRun : Bool) : Except GoStr FS :=
  match readFS fs p with
  | none => .error (readErr p)
  | some content =>
    let modifiedContent := applySubsts reps content
    if modifiedContent ≠ content ∧ dryRun = false then writeFS fs p modifiedContent
    else .ok fs

/-- `filepath.Match` for the patterns used (literals, `*` and `?`; `*` and
`?` do not cross a separator). -/
def globMatchAux : Nat → GoStr → GoStr → Bool
  | 0, _, _ => false
  | fuel + 1, pat, s =>
    match pat, s with
    | [], [] => true
    | [], _ :: _ => false
    | '*' :: ps, s =>
      globMatchAux fuel ps s ||
        (match s with
         | [] => false
         | c :: s' => decide (c ≠ ('/')) && globMatchAux fuel (('*') :: ps) s')
    | '?' :: ps, s =>
      (match s with
       | [] => false
       | c :: s' => decide (c ≠ ('/')) && globMatchAux fuel ps s')
    | p :: ps, s =>
      (match s with
       | [] => false
       | c :: s' => decide (p = c) && globMatchAux fuel ps s')

def globMatch (pat s : GoStr) : Bool :=
  globMatchAux (pat.length + s.length + 1) pat s

/-- `filepath.Base`. -/
def fileBase (p : GoStr) : GoStr := (splitOnChar ('/') p).getLastD []

/-- The candidate files yielded by `ScanDirectory` over the modelled file
system: existing files strictly below the root, with `ScanDirectory`'s
filters (substring excludes against the relative path, the `.md` suffix
requirement, base-name glob excludes).  `WalkDir`'s traversal order is
irrelevant to every property proved here (all outputs are deduplicated or
sorted), so the files are listed in sorted order. -/
def scanDirFiles (cfg : Config) (fs : FS) (root : GoStr) : List GoStr :=
  (sortStrings (fs.files.map Prod.fst)).filter fun p =>
    strStarts (root ++ [('/')]) p ∧
    (let rel := p.drop (root.length + 1)
     (!(cfg.excludeDirs.any fun ex => goContains rel ex)) ∧
     strEnds ((".md").data) p ∧
     (!(cfg.excludePatterns.any fun pat => globMatch pat (fileBase p))))

/-- `DefaultTagManager.FindFilesByTags`. -/
def findFilesByTags (cfg : Config) (fs : FS) (tags : List GoStr) (root : GoStr) :
    Except GoStr (List (GoStr × List GoStr)) :=
  match validatePath root with
  | .error e => .error (("invalid root path: ").data ++ e)
  | .ok _ =>
    let walked := scanDirFiles cfg fs root
    .ok ((tags.map normalizeTag).map fun t =>
      (t, walked.filter fun p =>
        match readFS fs p with
        | some content => (extractTags cfg content).any fun ft => normalizeTag ft = t
        | none => false))

/-- `TagReplaceResult`. -/
structure TagReplaceResult where
  modifiedFiles : List GoStr
  failedFiles : List GoStr
  errors : List GoStr
deriving Repr, DecidableEq

/-- The `filesToProcess` set of `ReplaceTagsBatch` (a deduplicated union;
Go iterates it in unspecified map order, and every property proved here is
order-insensitive). -/
def replaceCandidates (cfg : Config) (fs : FS) (reps : List TagReplacement)
    (root : GoStr) : List GoStr :=
  reps.foldl (fun acc rep =>
    match findFilesByTags cfg fs [normalizeTag rep.1] root with
    | .ok lists => lists.foldl (fun a pr => pr.2.foldl insertTag a) acc
    | .error _ => acc) []

/-- The body of the per-file loop of `ReplaceTagsBatch`. -/
def replaceFileStep (reps : List TagReplacement) (dryRun : Bool)
    (st : TagReplaceResult × FS) (file : GoStr) : TagReplaceResult × FS :=
  match replaceTagsInFile st.2 file reps dryRun with
  | .error e =>
    ({ st.1 with failedFiles := st.1.failedFiles ++ [file],
                 errors := st.1.errors ++ [file ++ (": ").data ++ e] }, st.2)
  | .ok f' => ({ st.1 with modifiedFiles := st.1.modifiedFiles ++ [file] }, f')

/-- The per-tag error accumulation of `ReplaceTagsBatch`'s first loop. -/
def repErrs (cfg : Config) (fs : FS) (reps : List TagReplacement) (root : GoStr) :
    List GoStr :=
  reps.foldl (fun acc rep =>
    match findFilesByTags cfg fs [normalizeTag rep.1] root with
    | .ok _ => acc
    | .error e =>
      acc ++ [("Error finding files for tag ").data ++ rep.1 ++ (": ").data ++ e]) []

/-- `DefaultTagManager.ReplaceTagsBatch`. -/
def replaceTagsBatch (cfg : Config) (fs : FS) (reps : List TagReplacement)
    (root : GoStr) (dryRun : Bool) : Except GoStr TagReplaceResult × FS :=
  match validatePath root with
  | .error e => (.error (("invalid root path: ").data ++ e), fs)
  | .ok _ =>
    let errs0 := repErrs cfg fs reps root
    let resfs := (replaceCandidates cfg fs reps root).foldl (replaceFileStep reps dryRun)
      (({ modifiedFiles := [], failedFiles := [], errors := errs0 } : TagReplaceResult), fs)
    (.ok { resfs.1 with modifiedFiles := sortStrings resfs.1.modifiedFiles,
                        failedFiles := sortStrings resfs.1.failedFiles }, resfs.2)

/-! Specification-side definitions, written from the spec's wording, to be
compared with the definitions translated from the sources. -/

/-- Spec 4.4: a line at which the leading run ends — neither blank /
whitespace-only nor composed entirely of marker-prefixed tokens. -/
def stopLine (l : GoStr) : Bool :=
  decide (trimSpace l ≠ []) && !(isHashtagOnlyLine (trimSpace l))

/-- Spec 4.4: the boundary is the index of the first such line, or the
number of lines when there is none. -/
def boundarySpec (content : GoStr) : Nat := (splitNL content).findIdx stopLine

/-- The normalized marker-prefixed tokens of one line. -/
def lineLeadingTags (l : GoStr) : List GoStr :=
  (goFields (trimSpace l)).filterMap fun w =>
    if strStarts (("#").data) w then
      let tg := normalizeTag w
      if tg ≠ [] then some tg else none
    else none

/-- Spec 4.4: the normalized marker-prefixed tokens of the lines strictly
before the boundary, in document order. -/
def leadingTagsSpec (content : GoStr) : List GoStr :=
  (((splitNL content).take (boundarySpec content)).map lineLeadingTags).flatten

/-- Spec 4.1 boundary rule for one occurrence of a matched hashtag at
index `i`: the character immediately preceding the marker (when one
exists) is not alphanumeric, `-`, `_` or `@`, and the character
immediately following the matched word (when one exists) is not
alphanumeric, `-` or `_`. -/
def specOccValid (content hashtag : GoStr) (i : Nat) : Prop :=
  occursAt content hashtag i ∧
  (i = 0 ∨ ∃ c, content.get? (i - 1) = some c ∧ hashPrevBad c = false) ∧
  (i + hashtag.length = content.length ∨
    ∃ c, content.get? (i + hashtag.length) = some c ∧ hashNextBad c = false)

/-- Spec 4.5 step 1: the tags of `l1` that survive removing
(case-insensitively) every tag present in both normalized lists. -/
def conflictSurvivors (l1 l2 : List GoStr) : List GoStr :=
  (l1.map normalizeTag).filter fun a => !((l2.map normalizeTag).any fun r => foldEq a r)

/-- Spec 4.5 step 1: after normalizing and removing the common tags, both
lists are empty. -/
def conflictEmpty (add remove : List GoStr) : Prop :=
  conflictSurvivors add remove = [] ∧ conflictSurvivors remove add = []

/-- The absolute path `UpdateTags` derives for a relative file path. -/
def absOf (root p : GoStr) : GoStr := goJoin root (goClean p)

/-- Tags that the modelled frontmatter codec stores and re-reads
verbatim: non-empty words over the tag alphabet (letters, digits, hyphen,
underscore). -/
def frontmatterSafeTag (t : GoStr) : Bool :=
  decide (t ≠ []) && t.all isTagChar

/-- The tag list stored in metadata (empty when absent or non-sequence). -/
def fmTags (d : Fm) : List GoStr :=
  match lookupStr (("tags").data) d with
  | some (.list l) => l
  | _ => []

/-- Spec 4.3: the text begins with a metadata-delimiter line eventually
followed by a matching closing delimiter line. -/
def hasDelims (content : GoStr) : Prop :=
  (splitNL content).head? = some (("---").data) ∧
  (("---").data) ∈ (splitNL content).drop 1

/-- The lines of one marshalled entry (newline-free; `fmEntryStr` joins
them with terminating newlines). -/
def entryLines (k : GoStr) : FmVal → List GoStr
  | .str [] => [k ++ [(':')]]
  | .str v => [k ++ (": ").data ++ v]
  | .list [] => [k ++ (": []").data]
  | .list items => (k ++ [(':')]) :: items.map (fun t => ("    - ").data ++ t)

/-- Keys the modelled YAML codec round-trips: nonempty, made of characters
that are not colons, newlines or whitespace, and not starting with `-`. -/
def safeKey (k : GoStr) : Bool :=
  decide (k ≠ []) &&
  k.all (fun c => decide (¬ c = (':')) && decide (¬ c = ('\n')) && !goIsSpace c) &&
  decide (k.head? ≠ some ('-'))

/-- Values the modelled YAML codec round-trips: scalars that are trimmed,
newline-free and not bracket-delimited, and sequences of nonempty trimmed
newline-free unquoted items. -/
def safeVal : FmVal → Bool
  | .str [] => true
  | .str v => decide (trimSpace v = v) && decide (¬ (('\n') ∈ v)) &&
      !(strStarts (("[").data) v && decide (v.getLast? = some (']')))
  | .list items => items.all fun t =>
      decide (t ≠ []) && decide (trimSpace t = t) && decide (¬ (('\n') ∈ t)) &&
      decide (unquote t = t)

/-- Metadata the modelled YAML codec round-trips: unique safe keys with
safe values. -/
def fmSafe (d : Fm) : Bool :=
  decide ((d.map Prod.fst).Nodup) && d.all fun kv => safeKey kv.1 && safeVal kv.2

/-- The lines of one entry, as a function of the pair. -/
def entryLinesKV (kv : GoStr × FmVal) : List GoStr := entryLines kv.1 kv.2

/-- All marshalled lines of an entry list. -/
def fmLines (E : Fm) : List GoStr := (E.map entryLinesKV).flatten

/-- The entry list in marshalled (sorted-key) order. -/
def sortedFm (d : Fm) : Fm :=
  (sortStrings (d.map Prod.fst)).filterMap fun k => (lookupStr k d).map fun v => (k, v)

/-! Lemmas. -/

theorem ffnhcAux_eq_findIdx (ls : List GoStr) (i : Nat) :
    ffnhcAux ls i = i + ls.findIdx stopLine := by
  induction ls generalizing i with
  | nil => simp [ffnhcAux]
  | cons l ls ih =>
    rw [List.findIdx_cons]
    by_cases h1 : trimSpace l = []
    · have hs : stopLine l = false := by simp [stopLine, h1]
      simp only [ffnhcAux, h1]
      simp [hs, ih, Nat.add_comm, Nat.add_assoc, Nat.add_left_comm]
    · by_cases h2 : isHashtagOnlyLine (trimSpace l)
      · have hs : stopLine l = false := by simp [stopLine, h1, h2]
        simp only [ffnhcAux, h1, h2]
        simp [hs, ih, Nat.add_comm, Nat.add_assoc, Nat.add_left_comm]
      · have hs : stopLine l = true := by simp [stopLine, h1, h2]
        simp only [ffnhcAux, h1, h2]
        simp [hs]

theorem findFirstNonHashtagContent_eq_boundarySpec (content : GoStr) :
    findFirstNonHashtagContent content = boundarySpec content := by
  rw [findFirstNonHashtagContent, boundarySpec, ffnhcAux_eq_findIdx, Nat.zero_add]

theorem foldl_append_join {α β : Type} (g : α → List β) (L : List α) (acc : List β) :
    L.foldl (fun a x => a ++ g x) acc = acc ++ (L.map g).flatten := by
  induction L generalizing acc with
  | nil => simp
  | cons x L ih => simp [ih]

theorem extractTopHashtags_eq_spec (content : GoStr) :
    extractTopHashtags content (boundarySpec content) = leadingTagsSpec content := by
  rw [extractTopHashtags, leadingTagsSpec]
  by_cases h0 : boundarySpec content = 0
  · simp [h0]
  · simp only [h0, if_false]
    have hbody : ∀ (acc : List GoStr) (line : GoStr),
        (let t := trimSpace line;
         if t = [] then acc
         else acc ++ (goFields t).filterMap fun w =>
           if strStarts (("#").data) w then
             let tg := normalizeTag w
             if tg ≠ [] then some tg else none
           else none) = acc ++ lineLeadingTags line := by
      intro acc line
      by_cases hb : trimSpace line = []
      · simp [hb, lineLeadingTags, goFields, goFieldsAux]
      · simp [hb, lineLeadingTags]
    calc ((splitNL content).take (boundarySpec content)).foldl
          (fun acc line =>
            let t := trimSpace line;
            if t = [] then acc
            else acc ++ (goFields t).filterMap fun w =>
              if strStarts (("#").data) w then
                let tg := normalizeTag w
                if tg ≠ [] then some tg else none
              else none) []
        = ((splitNL content).take (boundarySpec content)).foldl
            (fun acc line => acc ++ lineLeadingTags line) [] := by
          congr 1
          funext acc line
          exact hbody acc line
      _ = (((splitNL content).take (boundarySpec content)).map lineLeadingTags).flatten := by
          rw [foldl_append_join]
          simp

/-- C3.  Migration boundary: `FindFirstNonHashtagContent` returns the
index of the first line that is neither blank nor composed entirely of
marker-prefixed tokens (the number of lines when every line is blank or
tag-only, in particular when every non-blank line is tag-only), every line
before it is blank or tag-only, and `extractTopHashtags` at that boundary
collects exactly the normalized marker-prefixed tokens of the lines
strictly before the boundary, in document order; the body
`"#a #b\nText\n#c"` yields leading tags `["a", "b"]` — not `"c"`. -/
theorem c3_migration_boundary :
    (∀ content : GoStr,
      findFirstNonHashtagContent content = boundarySpec content ∧
      findFirstNonHashtagContent content ≤ (splitNL content).length ∧
      (∀ i, i < findFirstNonHashtagContent content → i < (splitNL content).length →
        stopLine ((splitNL content).getD i []) = false) ∧
      ((∀ l ∈ splitNL content, stopLine l = false) →
        findFirstNonHashtagContent content = (splitNL content).length) ∧
      extractTopHashtags content (findFirstNonHashtagContent content) =
        leadingTagsSpec content) ∧
    detectTopOfFileHashtags (("#a #b\nText\n#c").data) = [("a").data, ("b").data] ∧
    findFirstNonHashtagContent (("#a #b\nText\n#c").data) = 1 := by
  refine ⟨fun content => ?_, by decide, by decide⟩
  have hb := findFirstNonHashtagContent_eq_boundarySpec content
  refine ⟨hb, ?_, ?_, ?_, ?_⟩
  · rw [hb]; exact List.findIdx_le_length stopLine
  · intro i hi hlen
    rw [hb] at hi
    have h3 := List.not_of_lt_findIdx hi
    rw [List.getD_eq_getElem _ [] hlen]
    simpa using h3
  · intro hall
    rw [hb]
    exact List.findIdx_eq_length.mpr hall
  · rw [hb]; exact extractTopHashtags_eq_spec content

/-- Witness for C3 at a concrete body and line index. -/
theorem c3_migration_boundary_witness :
    stopLine ((splitNL (("#a #b\nText\n#c").data)).getD 0 []) = false :=
  (c3_migration_boundary.1 (("#a #b\nText\n#c").data)).2.2.1 0 (by decide) (by decide)

theorem find?_range_some {p : Nat → Bool} {n k : Nat}
    (h : (List.range n).find? p = some k) : p k = true ∧ ∀ j, j < k → p j = false := by
  induction n with
  | zero => simp [List.range_zero] at h
  | succ n ih =>
    rw [List.range_succ, List.find?_append] at h
    cases hn : (List.range n).find? p with
    | some k' =>
      rw [hn] at h
      simp only [Option.or] at h
      cases h
      exact ih hn
    | none =>
      rw [hn] at h
      simp only [Option.or, List.find?] at h
      have hall := List.find?_eq_none.mp hn
      by_cases hp : p n
      · simp [hp] at h
        subst h
        exact ⟨hp, fun j hj => by
          have := hall j (List.mem_range.mpr hj)
          simpa using this⟩
      · simp [hp] at h

theorem find?_range_none {p : Nat → Bool} {n : Nat}
    (h : (List.range n).find? p = none) : ∀ j, j < n → p j = false := by
  intro j hj
  have := List.find?_eq_none.mp h j (List.mem_range.mpr hj)
  simpa using this

theorem strIndex_some {s sub : GoStr} {k : Nat} (h : strIndex s sub = some k) :
    occursAt s sub k ∧ ∀ j, j < k → ¬ occursAt s sub j := by
  unfold strIndex at h
  have hmem := List.mem_of_find?_eq_some h
  have hk : k < s.length + 1 - sub.length := List.mem_range.mp hmem
  have h1 := find?_range_some h
  refine ⟨⟨by omega, by simpa using h1.1⟩, ?_⟩
  intro j hj hocc
  have := h1.2 j hj
  exact absurd hocc.2 (by simpa using this)

theorem strIndex_none {s sub : GoStr} (h : strIndex s sub = none) :
    ∀ j, ¬ occursAt s sub j := by
  unfold strIndex at h
  intro j hocc
  have hjlt : j < s.length + 1 - sub.length := by
    have := hocc.1
    omega
  have := find?_range_none h j hjlt
  exact absurd hocc.2 (by simpa using this)

theorem occursAt_drop {s sub : GoStr} (hsub : sub ≠ []) (start k : Nat) :
    occursAt (s.drop start) sub k ↔ occursAt s sub (start + k) := by
  unfold occursAt
  have hL : 0 < sub.length := List.length_pos.mpr hsub
  rw [List.drop_drop]
  constructor
  · rintro ⟨hb, he⟩
    simp only [List.length_drop] at hb
    exact ⟨by omega, he⟩
  · rintro ⟨hb, he⟩
    refine ⟨?_, he⟩
    simp only [List.length_drop]
    omega

theorem chbAux_iff {content hashtag : GoStr} (hsub : hashtag ≠ [])
    (fuel : Nat) : ∀ start, content.length + 1 - start ≤ fuel →
      (chbAux content hashtag start fuel = true ↔
        ∃ i, start ≤ i ∧ occursAt content hashtag i ∧ hashOccOk content hashtag i = true) := by
  induction fuel with
  | zero =>
    intro start hf
    simp only [chbAux]
    refine iff_of_false (by simp) ?_
    rintro ⟨i, hsi, hocc, -⟩
    have hL : 0 < hashtag.length := List.length_pos.mpr hsub
    have := hocc.1
    omega
  | succ fuel ih =>
    intro start hf
    cases hidx : strIndex (content.drop start) hashtag with
    | none =>
      simp only [chbAux, hidx]
      refine iff_of_false (by simp) ?_
      rintro ⟨i, hsi, hocc, -⟩
      exact strIndex_none hidx (i - start)
        ((occursAt_drop hsub start (i - start)).mpr (by rwa [Nat.add_sub_cancel' hsi]))
    | some idx =>
      obtain ⟨hocc0, hfirst⟩ := strIndex_some hidx
      have hoccA : occursAt content hashtag (start + idx) :=
        (occursAt_drop hsub start idx).mp hocc0
      simp only [chbAux, hidx]
      by_cases hok : hashOccOk content hashtag (start + idx) = true
      · rw [if_pos hok]
        simp only [true_iff]
        exact ⟨start + idx, Nat.le_add_right _ _, hoccA, hok⟩
      · rw [if_neg hok]
        rw [ih (start + idx + 1) (by omega)]
        constructor
        · rintro ⟨i, hsi, hocc, hokk⟩
          exact ⟨i, by omega, hocc, hokk⟩
        · rintro ⟨i, hsi, hocc, hokk⟩
          refine ⟨i, ?_, hocc, hokk⟩
          rcases Nat.lt_or_ge i (start + idx + 1) with hlt | hge
          · exfalso
            rcases Nat.lt_or_ge i (start + idx) with hlt2 | hge2
            · exact hfirst (i - start) (by omega)
                ((occursAt_drop hsub start (i - start)).mpr (by rwa [Nat.add_sub_cancel' hsi]))
            · have hieq : i = start + idx := by omega
              subst hieq
              exact hok hokk
          · exact hge

theorem checkHashtagBoundary_iff {content hashtag : GoStr} (hsub : hashtag ≠ []) :
    checkHashtagBoundary content hashtag = true ↔
      ∃ i, occursAt content hashtag i ∧ hashOccOk content hashtag i = true := by
  rw [checkHashtagBoundary, chbAux_iff hsub (content.length + 1) 0 (by omega)]
  constructor
  · rintro ⟨i, -, h⟩
    exact ⟨i, h⟩
  · rintro ⟨i, h⟩
    exact ⟨i, Nat.zero_le i, h⟩

theorem hashOccOk_iff_spec {content hashtag : GoStr} {i : Nat} (hsub : hashtag ≠ [])
    (hocc : occursAt content hashtag i) :
    hashOccOk content hashtag i = true ↔
      ((i = 0 ∨ ∃ c, content.get? (i - 1) = some c ∧ hashPrevBad c = false) ∧
       (i + hashtag.length = content.length ∨
         ∃ c, content.get? (i + hashtag.length) = some c ∧ hashNextBad c = false)) := by
  have hL : 0 < hashtag.length := List.length_pos.mpr hsub
  have hb := hocc.1
  unfold hashOccOk
  rw [Bool.and_eq_true]
  constructor
  · rintro ⟨h1, h2⟩
    constructor
    · by_cases hi : i = 0
      · exact Or.inl hi
      · right
        simp only [hi, if_false] at h1
        have hlt : i - 1 < content.length := by omega
        rw [List.get?_eq_get hlt] at h1 ⊢
        exact ⟨_, rfl, by simpa using h1⟩
    · by_cases he : i + hashtag.length = content.length
      · exact Or.inl he
      · right
        have hlt : i + hashtag.length < content.length := by omega
        have hs : content.get? (i + hashtag.length) =
            some (content.get ⟨i + hashtag.length, hlt⟩) := List.get?_eq_get hlt
        rw [hs] at h2 ⊢
        exact ⟨_, rfl, by simpa using h2⟩
  · rintro ⟨h1, h2⟩
    constructor
    · by_cases hi : i = 0
      · simp [hi]
      · simp only [hi, if_false]
        rcases h1 with h1 | ⟨c, hc, hbad⟩
        · exact absurd h1 hi
        · rw [hc]
          simpa using hbad
    · rcases h2 with h2 | ⟨c, hc, hbad⟩
      · have : content.get? (i + hashtag.length) = none := by
          rw [List.get?_eq_none]
          omega
        rw [this]
      · rw [hc]
        simpa using hbad

/-- C4.  Hashtag boundary check: a marker-prefixed candidate passes
`checkHashtagBoundary` exactly when at least one occurrence of the matched
substring in the text has an acceptable preceding character (when one
exists) and an acceptable following character (when one exists); if every
occurrence fails the test the candidate is discarded.  Extracting from
`"user@host.com#tag good #tag"` yields exactly `"tag"`: the second
occurrence passes the boundary rule even though the first does not. -/
theorem c4_hashtag_boundary :
    (∀ content hashtag : GoStr, hashtag ≠ [] →
      (checkHashtagBoundary content hashtag = true ↔
        ∃ i, specOccValid content hashtag i)) ∧
    extractTags defaultConfig (("user@host.com#tag good #tag").data) = [("tag").data] ∧
    hashOccOk (("user@host.com#tag good #tag").data) (("#tag").data) 13 = false ∧
    hashOccOk (("user@host.com#tag good #tag").data) (("#tag").data) 23 = true := by
  refine ⟨fun content hashtag hsub => ?_, by decide, by decide, by decide⟩
  rw [checkHashtagBoundary_iff hsub]
  constructor
  · rintro ⟨i, hocc, hok⟩
    exact ⟨i, hocc, (hashOccOk_iff_spec hsub hocc).mp hok⟩
  · rintro ⟨i, hocc, hrest⟩
    exact ⟨i, hocc, (hashOccOk_iff_spec hsub hocc).mpr hrest⟩

/-- Witness for C4 at the concrete document of the claim. -/
theorem c4_hashtag_boundary_witness :
    checkHashtagBoundary (("user@host.com#tag good #tag").data) (("#tag").data) = true :=
  (c4_hashtag_boundary.1 (("user@host.com#tag good #tag").data) (("#tag").data)
    (by decide)).mpr ⟨23, by decide, by decide, by decide⟩

theorem findIdx?_some_mem {α : Type} {p : α → Bool} :
    ∀ {l : List α} {i j : Nat}, l.findIdx? p i = some j → ∃ a ∈ l, p a = true := by
  intro l
  induction l with
  | nil => intro i j h; simp [List.findIdx?] at h
  | cons x xs ih =>
    intro i j h
    rw [List.findIdx?] at h
    by_cases hp : p x
    · exact ⟨x, List.mem_cons_self x xs, hp⟩
    · simp only [hp, if_false] at h
      obtain ⟨a, ha, hpa⟩ := ih h
      exact ⟨a, List.mem_cons_of_mem x ha, hpa⟩

theorem parseFrontmatter_no_delims (content : GoStr) (h : ¬ hasDelims content) :
    parseFrontmatter content = .ok ([], content) := by
  unfold parseFrontmatter hasDelims at *
  by_cases h1 : (splitNL content).length < 3 ∨
      (splitNL content).head? ≠ some (("---").data)
  · simp only [h1, if_true]
  · simp only [h1, if_false]
    push_neg at h1
    cases hidx : (splitNL content).drop 1 |>.findIdx? (fun l => l = ("---").data) with
    | none => rfl
    | some j =>
      exfalso
      obtain ⟨a, ha, hpa⟩ := findIdx?_some_mem hidx
      simp only [decide_eq_true_eq] at hpa
      subst hpa
      exact h ⟨h1.2, ha⟩

theorem parseFrontmatter_error_shape (content : GoStr) (e : GoStr)
    (h : parseFrontmatter content = .error e) :
    hasDelims content ∧
      ∃ fmc e', yamlUnmarshalModel fmc = .error e' ∧
        e = ("YAML parse error: ").data ++ e' := by
  unfold parseFrontmatter at h
  by_cases h1 : (splitNL content).length < 3 ∨
      (splitNL content).head? ≠ some (("---").data)
  · simp [h1] at h
  · simp only [h1, if_false] at h
    push_neg at h1
    cases hidx : (splitNL content).drop 1 |>.findIdx? (fun l => l = ("---").data) with
    | none => rw [hidx] at h; exact absurd h (by simp)
    | some j =>
      rw [hidx] at h
      simp only at h
      by_cases h2 : joinNL (List.take j (List.drop 1 (splitNL content))) = []
      · rw [if_pos h2] at h
        exact absurd h (by simp)
      · rw [if_neg h2] at h
        cases hy : yamlUnmarshalModel (joinNL (List.take j (List.drop 1 (splitNL content)))) with
        | error e' =>
          rw [hy] at h
          simp only [Except.error.injEq] at h
          obtain ⟨a, ha, hpa⟩ := findIdx?_some_mem hidx
          simp only [decide_eq_true_eq] at hpa
          subst hpa
          exact ⟨⟨h1.2, ha⟩, _, e', hy, h.symm⟩
        | ok d => rw [hy] at h; exact absurd h (by simp)

/-- C5.  Frontmatter parsing: a text that does not begin with a `---` line
eventually followed by a closing `---` line parses as (empty metadata,
whole text) with no error; when parsing does fail, the text has both
delimiters and the error is exactly a wrapped metadata-deserialization
error — the only failure mode; and in `UpdateTags` such a failure makes
the file be skipped entirely (no file modified, file system unchanged)
with one recorded per-file error. -/
theorem c5_frontmatter_parsing :
    (∀ content : GoStr, ¬ hasDelims content →
      parseFrontmatter content = .ok ([], content)) ∧
    (∀ content e : GoStr, parseFrontmatter content = .error e →
      hasDelims content ∧
        ∃ fmc e', yamlUnmarshalModel fmc = .error e' ∧
          e = ("YAML parse error: ").data ++ e') ∧
    (∀ (addTags removeTags : List GoStr) (root p : GoStr) (fs : FS) (dryRun : Bool)
       (ra rr : List GoStr) (c e : GoStr),
      validatePath root = .ok () →
      (if addTags ≠ [] ∨ removeTags ≠ [] then resolveTagConflicts addTags removeTags
       else .ok ([], [])) = .ok (ra, rr) →
      goIsAbs (goClean p) = false →
      goContains (goClean p) (("..").data) = false →
      validatePath (absOf root p) = .ok () →
      readFS fs (absOf root p) = some c →
      parseFrontmatter c = .error e →
      updateTags addTags removeTags root [p] fs dryRun =
        (.ok { emptyUpd with
                errors := [p ++ (": malformed YAML frontmatter: ").data ++ e] }, fs)) := by
  refine ⟨parseFrontmatter_no_delims, parseFrontmatter_error_shape, ?_⟩
  intro addTags removeTags root p fs dryRun ra rr c e hroot hres hrel1 hrel2 habs hread hparse
  unfold updateTags
  rw [hroot, hres]
  simp only [List.foldl]
  unfold updateFileStep
  rw [show (absOf root p) = goJoin root (goClean p) from rfl] at habs hread
  simp only [hrel1, hrel2, Bool.or_self, Bool.false_eq_true, if_false, habs, hread, hparse]
  rfl

/-- Witness for C5 at a concrete malformed-frontmatter file. -/
theorem c5_frontmatter_parsing_witness :
    updateTags [] [] (("/r").data) [("f.md").data]
      ⟨[((("/r/f.md").data), ("---\nbad\n---\nX").data)], []⟩ false =
      (.ok { emptyUpd with
              errors := [("f.md").data ++ (": malformed YAML frontmatter: ").data ++
                ("YAML parse error: yaml: cannot unmarshal line: bad").data] },
       ⟨[((("/r/f.md").data), ("---\nbad\n---\nX").data)], []⟩) :=
  c5_frontmatter_parsing.2.2 [] [] (("/r").data) (("f.md").data)
    ⟨[((("/r/f.md").data), ("---\nbad\n---\nX").data)], []⟩ false [] []
    (("---\nbad\n---\nX").data)
    (("YAML parse error: yaml: cannot unmarshal line: bad").data)
    (by rfl) (by rfl) (by rfl) (by rfl) (by rfl) (by rfl) (by rfl)

theorem resolveTagConflicts_error_iff (add remove : List GoStr) :
    resolveTagConflicts add remove =
        .error ("no operations remain after conflict resolution").data ↔
      conflictEmpty add remove := by
  unfold resolveTagConflicts conflictEmpty conflictSurvivors
  by_cases h : ((add.map normalizeTag).filter fun a =>
        !((remove.map normalizeTag).any fun r => foldEq a r)) = [] ∧
      ((remove.map normalizeTag).filter fun r =>
        !((add.map normalizeTag).any fun a => foldEq r a)) = []
  · simp only [if_pos h]
    exact iff_of_true trivial h
  · simp only [if_neg h]
    exact iff_of_false (by simp) h

theorem resolveTagConflicts_ok_of_not_empty (add remove : List GoStr)
    (h : ¬ conflictEmpty add remove) :
    resolveTagConflicts add remove =
      .ok (sortStrings (conflictSurvivors add remove),
           sortStrings (conflictSurvivors remove add)) := by
  unfold resolveTagConflicts conflictEmpty conflictSurvivors at *
  rw [if_neg h]

/-- C2 (amended).  Conflict resolution: when at least one of the two input
lists is non-empty and, after normalizing both lists and removing
case-insensitively every tag present in both, both lists are empty, the
whole `UpdateTags` operation fails with the "no operations remain" error
with the file system untouched (the failure happens before the per-file
loop, so before any file is read or written); and, once the root path has
been validated, this is the only condition under which the whole batch
fails rather than a single file. -/
theorem c2_conflict_resolution (add remove : List GoStr) (root : GoStr)
    (files : List GoStr) (fs : FS) (dryRun : Bool)
    (hroot : validatePath root = .ok ()) :
    ((add ≠ [] ∨ remove ≠ []) → conflictEmpty add remove →
      updateTags add remove root files fs dryRun =
        (.error ("tag conflict resolution failed: no operations remain after conflict resolution").data,
         fs)) ∧
    ((updateTags add remove root files fs dryRun).1.isOk = false ↔
      ((add ≠ [] ∨ remove ≠ []) ∧ conflictEmpty add remove)) := by
  constructor
  · intro hne hce
    unfold updateTags
    rw [hroot, if_pos hne, (resolveTagConflicts_error_iff add remove).mpr hce]
    rfl
  · unfold updateTags
    rw [hroot]
    by_cases hne : add ≠ [] ∨ remove ≠ []
    · rw [if_pos hne]
      by_cases hce : conflictEmpty add remove
      · rw [(resolveTagConflicts_error_iff add remove).mpr hce]
        exact iff_of_true (by rfl) ⟨hne, hce⟩
      · rw [resolveTagConflicts_ok_of_not_empty add remove hce]
        refine iff_of_false ?_ ?_
        · rcases hfold : List.foldl (updateFileStep root
              (sortStrings (conflictSurvivors add remove))
              (sortStrings (conflictSurvivors remove add)) dryRun)
              (emptyUpd, fs) files with ⟨r, f⟩
          simp only [hfold]
          simp [Except.isOk, Except.toBool]
        · rintro ⟨-, h2⟩
          exact hce h2
    · rw [if_neg hne]
      refine iff_of_false ?_ ?_
      · rcases hfold : List.foldl (updateFileStep root [] [] dryRun) (emptyUpd, fs) files
          with ⟨r, f⟩
        simp only [hfold]
        simp [Except.isOk, Except.toBool]
      · rintro ⟨h1, -⟩
        exact hne h1

/-- Counterexample to C2 as stated: with `add = []` and `remove = []` both
lists are (vacuously) empty after normalization and conflict removal, yet
the operation succeeds instead of failing with "no operations remain":
conflict resolution is skipped for empty inputs. -/
theorem c2_conflict_resolution_counterexample :
    conflictEmpty [] [] ∧
    updateTags [] [] (("/r").data) [("a.md").data]
        ⟨[((("/r/a.md").data), ("hello").data)], []⟩ false =
      (.ok emptyUpd, ⟨[((("/r/a.md").data), ("hello").data)], []⟩) :=
  ⟨⟨rfl, rfl⟩, by rfl⟩

/-- Witness for C2 at the claim's instance `add = ["X"], remove = ["x"]`. -/
theorem c2_conflict_resolution_witness :
    updateTags [("X").data] [("x").data] (("/r").data) [] ⟨[], []⟩ false =
      (.error ("tag conflict resolution failed: no operations remain after conflict resolution").data,
       ⟨[], []⟩) :=
  (c2_conflict_resolution [("X").data] [("x").data] (("/r").data) [] ⟨[], []⟩ false
    (by rfl)).1 (Or.inl (by decide)) ⟨by rfl, by rfl⟩

theorem mem_insertStr (x a : GoStr) (l : List GoStr) :
    x ∈ insertStr a l ↔ x = a ∨ x ∈ l := by
  induction l with
  | nil => simp [insertStr]
  | cons y ys ih =>
    unfold insertStr
    by_cases h : goStrLe a y
    · rw [if_pos h]
      simp [List.mem_cons]
    · rw [if_neg h]
      simp only [List.mem_cons, ih]
      tauto

theorem mem_sortStrings (x : GoStr) (l : List GoStr) :
    x ∈ sortStrings l ↔ x ∈ l := by
  induction l with
  | nil => simp [sortStrings]
  | cons y ys ih =>
    unfold sortStrings at *
    simp only [List.foldr_cons, mem_insertStr, List.mem_cons, ih]

theorem lookupStr_setStr_self {α : Type} (k : GoStr) (v : α) (m : List (GoStr × α)) :
    lookupStr k (setStr k v m) = some v := by
  induction m with
  | nil => simp [setStr, lookupStr]
  | cons e rest ih =>
    obtain ⟨k', v'⟩ := e
    unfold setStr
    by_cases h : k' = k
    · simp [h, lookupStr]
    · simp only [h, if_false]
      unfold lookupStr
      simp [h, ih]

theorem lookupStr_setStr_ne {α : Type} {k k' : GoStr} (v : α) (m : List (GoStr × α))
    (h : k' ≠ k) : lookupStr k (setStr k' v m) = lookupStr k m := by
  induction m with
  | nil => simp [setStr, lookupStr, h]
  | cons e rest ih =>
    obtain ⟨k2, v2⟩ := e
    unfold setStr
    by_cases h2 : k2 = k'
    · subst h2
      simp [lookupStr, h]
    · simp only [h2, if_false]
      unfold lookupStr
      by_cases h3 : k2 = k
      · simp [h3]
      · simp [h3, ih]

theorem lookupStr_cons {α : Type} (k k' : GoStr) (v' : α) (m : List (GoStr × α)) :
    lookupStr k ((k', v') :: m) = if k' = k then some v' else lookupStr k m := rfl

theorem lookupStr_append {α : Type} (k : GoStr) (m1 m2 : List (GoStr × α)) :
    lookupStr k (m1 ++ m2) = (lookupStr k m1).or (lookupStr k m2) := by
  induction m1 with
  | nil => simp [lookupStr]
  | cons e rest ih =>
    obtain ⟨k', v'⟩ := e
    rw [List.cons_append, lookupStr_cons, lookupStr_cons]
    by_cases h : k' = k
    · simp [h]
    · simp [h, ih]

theorem countOf_bump_self (m : List (GoStr × Nat)) (k : GoStr) :
    countOf (bumpCount m k) k = countOf m k + 1 := by
  unfold bumpCount countOf
  cases h : lookupStr k m with
  | some n => simp [h, lookupStr_setStr_self]
  | none => simp [h, lookupStr_append, lookupStr]

theorem countOf_bump_ge (m : List (GoStr × Nat)) (k t : GoStr) :
    countOf m t ≤ countOf (bumpCount m k) t := by
  by_cases hk : k = t
  · subst hk
    rw [countOf_bump_self]
    omega
  · unfold bumpCount countOf
    cases h : lookupStr k m with
    | some n => rw [lookupStr_setStr_ne _ _ hk]
    | none =>
      rw [lookupStr_append]
      cases ht : lookupStr t m with
      | some v => simp [ht]
      | none => simp [ht, lookupStr, hk]

theorem countOf_foldl_bump_ge (l : List GoStr) (m : List (GoStr × Nat)) (t : GoStr) :
    countOf m t ≤ countOf (l.foldl bumpCount m) t := by
  induction l generalizing m with
  | nil => simp
  | cons x xs ih => exact le_trans (countOf_bump_ge m x t) (ih (bumpCount m x))

theorem countOf_foldl_bump_pos (l : List GoStr) (m : List (GoStr × Nat)) (t : GoStr)
    (h : t ∈ l) : 0 < countOf (l.foldl bumpCount m) t := by
  induction l generalizing m with
  | nil => simp at h
  | cons x xs ih =>
    rcases List.mem_cons.mp h with h1 | h1
    · subst h1
      calc 0 < countOf (bumpCount m t) t := by rw [countOf_bump_self]; omega
        _ ≤ countOf (List.foldl bumpCount (bumpCount m t) xs) t :=
          countOf_foldl_bump_ge xs (bumpCount m t) t
    · exact ih (bumpCount m x) h1

theorem foldl_no_bump {cond : GoStr → Bool} (l : List GoStr)
    (m : List (GoStr × Nat)) (h : ∀ tag ∈ l, cond tag = false) :
    l.foldl (fun m tag => if cond tag then bumpCount m tag else m) m = m := by
  induction l generalizing m with
  | nil => rfl
  | cons x xs ih =>
    have hx := h x (List.mem_cons_self x xs)
    simp only [List.foldl_cons, hx, Bool.false_eq_true, if_false]
    exact ih m fun tag ht => h tag (List.mem_cons_of_mem x ht)

theorem addPhase_set_mono (adds : List GoStr) (st : List GoStr × List GoStr × List GoStr)
    (x : GoStr) (h : x ∈ st.2.1) : x ∈ (adds.foldl addPhaseStep st).2.1 := by
  induction adds generalizing st with
  | nil => exact h
  | cons a rest ih =>
    simp only [List.foldl_cons]
    apply ih
    unfold addPhaseStep
    by_cases hmem : lowerStr a ∈ st.2.1
    · simpa [hmem] using h
    · simp only [hmem, if_false]
      simp only [List.mem_append]
      exact Or.inl h

theorem addPhase_mem (adds : List GoStr) (st : List GoStr × List GoStr × List GoStr)
    (a : GoStr) (ha : a ∈ adds) : lowerStr a ∈ (adds.foldl addPhaseStep st).2.1 := by
  induction adds generalizing st with
  | nil => simp at ha
  | cons b rest ih =>
    simp only [List.foldl_cons]
    rcases List.mem_cons.mp ha with h1 | h1
    · subst h1
      apply addPhase_set_mono
      unfold addPhaseStep
      by_cases hmem : lowerStr a ∈ st.2.1
      · simp [hmem]
      · simp [hmem]
    · exact ih _ h1

theorem addPhase_set_inv (adds : List GoStr) (st : List GoStr × List GoStr × List GoStr)
    (h : st.2.1 = st.1.map lowerStr) :
    (adds.foldl addPhaseStep st).2.1 = (adds.foldl addPhaseStep st).1.map lowerStr := by
  induction adds generalizing st with
  | nil => exact h
  | cons a rest ih =>
    simp only [List.foldl_cons]
    apply ih
    unfold addPhaseStep
    by_cases hmem : lowerStr a ∈ st.2.1
    · simpa [hmem] using h
    · rw [if_neg hmem]
      simp [h, lowerStr]

theorem addPhase_added_sub (adds : List GoStr) (st : List GoStr × List GoStr × List GoStr)
    (x : GoStr) (hx : x ∈ (adds.foldl addPhaseStep st).2.2) :
    x ∈ st.2.2 ∨ x ∈ adds := by
  induction adds generalizing st with
  | nil => exact Or.inl hx
  | cons a rest ih =>
    simp only [List.foldl_cons] at hx
    rcases ih _ hx with h1 | h1
    · unfold addPhaseStep at h1
      by_cases hmem : lowerStr a ∈ st.2.1
      · simp only [hmem, if_true] at h1
        exact Or.inl h1
      · simp only [hmem, if_false] at h1
        rcases List.mem_append.mp h1 with h2 | h2
        · exact Or.inl h2
        · simp only [List.mem_singleton] at h2
          subst h2
          exact Or.inr (List.mem_cons_self _ _)
    · exact Or.inr (List.mem_cons_of_mem a h1)

theorem removePhase_empty (cur : List GoStr) (f0 r0 : List GoStr) :
    cur.foldl (removePhaseStep []) (f0, r0) = (f0 ++ cur, r0) := by
  induction cur generalizing f0 with
  | nil => simp
  | cons x xs ih =>
    simp only [List.foldl_cons]
    have hstep : removePhaseStep [] (f0, r0) x = (f0 ++ [x], r0) := by
      unfold removePhaseStep
      simp [List.find?_nil]
    rw [hstep, ih (f0 ++ [x])]
    simp

theorem ufmt_mem_of_add (d : Fm) (adds : List GoStr) (a : GoStr) (ha : a ∈ adds) :
    ∃ t ∈ fmTags (updateFrontmatterTags d adds []).1, lowerStr t = lowerStr a := by
  have hinv := addPhase_set_inv adds
    (currentTagsOf d, (currentTagsOf d).map lowerStr, []) (by rfl)
  have hmem := addPhase_mem adds
    (currentTagsOf d, (currentTagsOf d).map lowerStr, []) a ha
  rw [hinv] at hmem
  obtain ⟨t, ht, hlow⟩ := List.mem_map.mp hmem
  have hne : (adds.foldl addPhaseStep
      (currentTagsOf d, (currentTagsOf d).map lowerStr, [])).1 ≠ [] := by
    intro hemp
    rw [hemp] at ht
    simp at ht
  simp only [updateFrontmatterTags]
  rw [removePhase_empty]
  simp only [List.nil_append]
  rw [if_pos (Or.inl hne)]
  refine ⟨t, ?_, hlow⟩
  unfold fmTags
  rw [lookupStr_setStr_self]
  exact (mem_sortStrings t _).mpr ht

theorem countOf_foldl_ge_of_step (g : List (GoStr × Nat) → GoStr → List (GoStr × Nat))
    (hg : ∀ m tag t, countOf m t ≤ countOf (g m tag) t) (l : List GoStr)
    (m : List (GoStr × Nat)) (t : GoStr) : countOf m t ≤ countOf (l.foldl g m) t := by
  induction l generalizing m with
  | nil => simp
  | cons x xs ih => exact le_trans (hg m x t) (ih (g m x))

theorem updateFileStep_ok (root : GoStr) (ra rr : List GoStr) (dryRun : Bool)
    (r : TagUpdateResult) (f : FS) (p c : GoStr) (d : Fm) (b : GoStr)
    (h1 : goIsAbs (goClean p) = false)
    (h2 : goContains (goClean p) (("..").data) = false)
    (h3 : validatePath (absOf root p) = .ok ())
    (h4 : readFS f (absOf root p) = some c)
    (h5 : parseFrontmatter c = .ok (d, b)) :
    updateFileStep root ra rr dryRun (r, f) p = processFile root ra rr dryRun r f p d b := by
  unfold updateFileStep
  rw [show absOf root p = goJoin root (goClean p) from rfl] at h3 h4
  simp only [h1, h2, Bool.or_self, Bool.false_eq_true, if_false, h3, h4, h5]
  simp

theorem countOf_condbump_ge (cond : GoStr → Prop) [DecidablePred cond]
    (l : List GoStr) (m : List (GoStr × Nat)) (t : GoStr) :
    countOf m t ≤
      countOf (l.foldl (fun m tag => if cond tag then bumpCount m tag else m) m) t := by
  induction l generalizing m with
  | nil => simp
  | cons x xs ih =>
    simp only [List.foldl_cons]
    refine le_trans ?_ (ih _)
    dsimp only
    by_cases hc : cond x
    · rw [if_pos hc]
      exact countOf_bump_ge m x t
    · rw [if_neg hc]

theorem processFile_migration (root : GoStr) (ra rr : List GoStr) (dryRun : Bool)
    (r : TagUpdateResult) (f : FS) (p : GoStr) (d : Fm) (b : GoStr)
    (hmig : detectTopOfFileHashtags b ≠ []) :
    p ∈ (processFile root ra rr dryRun r f p d b).1.filesMigrated ∧
    ∀ tag ∈ detectTopOfFileHashtags b,
      0 < countOf (processFile root ra rr dryRun r f p d b).1.tagsAdded tag := by
  simp only [processFile, hmig, ne_eq, not_false_eq_true, if_true, true_or]
  by_cases hadd : (updateFrontmatterTags d (ra.map normalizeTag ++ detectTopOfFileHashtags b)
      (rr.map normalizeTag)).2.1 ≠ [] ∨
      (updateFrontmatterTags d (ra.map normalizeTag ++ detectTopOfFileHashtags b)
        (rr.map normalizeTag)).2.2 ≠ []
  all_goals (
    simp only [hadd, if_true]
    cases dryRun
    all_goals (
      simp only [Bool.false_eq_true, if_false, if_true]
      first
        | (cases hw : writeFS f (goJoin root (goClean p))
            (serializeFrontmatter (updateFrontmatterTags d
                (ra.map normalizeTag ++ detectTopOfFileHashtags b) (rr.map normalizeTag)).1 ++
              removeHashtagsFromBody (removeTopHashtags b (detectTopOfFileHashtags b)) rr)
           all_goals simp only [hw])
        | skip
      all_goals (
        constructor
        · simp
        · intro tag htag
          first
            | exact lt_of_lt_of_le
                (countOf_foldl_bump_pos (detectTopOfFileHashtags b) r.tagsAdded tag htag)
                (countOf_condbump_ge _ _ _ _)
            | exact countOf_foldl_bump_pos (detectTopOfFileHashtags b) r.tagsAdded tag htag)))

/-- C10.  For every call of `UpdateTags` in which both `addTags` and
`removeTags` are empty, the operation does not fail with "no operations
remain": conflict resolution is skipped and the call succeeds; the
per-file loop still runs migration-only processing — for a parsed file
with leading hashtag lines the file is recorded as migrated, each leading
tag is counted as added, and each leading tag is folded (case-insensitively)
into the frontmatter tag list. -/
theorem c10_migration_only_update (root : GoStr) (files : List GoStr) (fs : FS)
    (dryRun : Bool) (hroot : validatePath root = .ok ()) :
    (updateTags [] [] root files fs dryRun).1.isOk = true ∧
    (∀ (p c : GoStr) (d : Fm) (b : GoStr), files = [p] →
      goIsAbs (goClean p) = false →
      goContains (goClean p) (("..").data) = false →
      validatePath (absOf root p) = .ok () →
      readFS fs (absOf root p) = some c →
      parseFrontmatter c = .ok (d, b) →
      detectTopOfFileHashtags b ≠ [] →
      updateTags [] [] root files fs dryRun =
        (.ok (processFile root [] [] dryRun emptyUpd fs p d b).1,
         (processFile root [] [] dryRun emptyUpd fs p d b).2) ∧
      p ∈ (processFile root [] [] dryRun emptyUpd fs p d b).1.filesMigrated ∧
      (∀ tag ∈ detectTopOfFileHashtags b,
        0 < countOf (processFile root [] [] dryRun emptyUpd fs p d b).1.tagsAdded tag) ∧
      (∀ tag ∈ detectTopOfFileHashtags b,
        ∃ t ∈ fmTags (updateFrontmatterTags d (detectTopOfFileHashtags b) []).1,
          lowerStr t = lowerStr tag)) := by
  constructor
  · unfold updateTags
    rw [hroot, if_neg (by simp)]
    rcases hfold : List.foldl (updateFileStep root [] [] dryRun) (emptyUpd, fs) files
      with ⟨r, f⟩
    simp only [hfold]
    rfl
  · intro p c d b hfiles h1 h2 h3 h4 h5 hmig
    subst hfiles
    refine ⟨?_, (processFile_migration root [] [] dryRun emptyUpd fs p d b hmig).1,
      (processFile_migration root [] [] dryRun emptyUpd fs p d b hmig).2,
      fun tag ht => ufmt_mem_of_add d _ tag ht⟩
    unfold updateTags
    rw [hroot, if_neg (by simp)]
    simp only [List.foldl_cons, List.foldl_nil]
    rw [updateFileStep_ok root [] [] dryRun emptyUpd fs p c d b h1 h2 h3 h4 h5]

/-- Witness for C10 at a concrete migration-only update. -/
theorem c10_migration_only_update_witness :
    ("n.md").data ∈ (processFile (("/r").data) [] [] false emptyUpd
      ⟨[((("/r/n.md").data), ("#abc\nText").data)], []⟩ (("n.md").data) []
      (("#abc\nText").data)).1.filesMigrated :=
  ((c10_migration_only_update (("/r").data) [("n.md").data]
      ⟨[((("/r/n.md").data), ("#abc\nText").data)], []⟩ false (by rfl)).2
    (("n.md").data) (("#abc\nText").data) [] (("#abc\nText").data)
    rfl (by rfl) (by rfl) (by rfl) (by rfl) (by rfl) (by decide)).2.1

theorem readFS_writeFS_ne {fs fs' : FS} {p q c : GoStr}
    (h : writeFS fs p c = .ok fs') (hq : q ≠ p) : readFS fs' q = readFS fs q := by
  unfold writeFS at h
  by_cases hw : p ∈ fs.unwritable
  · simp [hw] at h
  · simp only [hw, if_false, Except.ok.injEq] at h
    subst h
    unfold readFS
    exact lookupStr_setStr_ne _ _ fun he => hq he.symm

theorem readFS_writeFS_self {fs fs' : FS} {p c : GoStr}
    (h : writeFS fs p c = .ok fs') : readFS fs' p = some c := by
  unfold writeFS at h
  by_cases hw : p ∈ fs.unwritable
  · simp [hw] at h
  · simp only [hw, if_false, Except.ok.injEq] at h
    subst h
    unfold readFS
    exact lookupStr_setStr_self _ _ _

theorem processFile_fs_dry (root : GoStr) (ra rr : List GoStr)
    (r : TagUpdateResult) (f : FS) (p : GoStr) (d : Fm) (b : GoStr) :
    (processFile root ra rr true r f p d b).2 = f := by
  simp only [processFile]
  split
  · simp
  · rfl

theorem processFile_fs_ne (root : GoStr) (ra rr : List GoStr) (dryRun : Bool)
    (r : TagUpdateResult) (f : FS) (p : GoStr) (d : Fm) (b : GoStr) (q : GoStr)
    (hq : q ≠ absOf root p) :
    readFS (processFile root ra rr dryRun r f p d b).2 q = readFS f q := by
  rw [show absOf root p = goJoin root (goClean p) from rfl] at hq
  simp only [processFile]
  split
  · split
    · rfl
    · split
      · rfl
      · rename_i f' heq
        exact readFS_writeFS_ne heq hq
  · rfl

theorem updateFileStep_fs_dry (root : GoStr) (ra rr : List GoStr)
    (st : TagUpdateResult × FS) (p : GoStr) :
    (updateFileStep root ra rr true st p).2 = st.2 := by
  obtain ⟨r, f⟩ := st
  unfold updateFileStep
  dsimp only
  split
  · rfl
  · split
    · rfl
    · split
      · rfl
      · split
        · rfl
        · exact processFile_fs_dry root ra rr r f p _ _

theorem updateFileStep_fs_ne (root : GoStr) (ra rr : List GoStr) (dryRun : Bool)
    (st : TagUpdateResult × FS) (p q : GoStr) (hq : q ≠ absOf root p) :
    readFS (updateFileStep root ra rr dryRun st p).2 q = readFS st.2 q := by
  obtain ⟨r, f⟩ := st
  unfold updateFileStep
  dsimp only
  split
  · rfl
  · split
    · rfl
    · split
      · rfl
      · split
        · rfl
        · exact processFile_fs_ne root ra rr dryRun r f p _ _ q hq

theorem updLoop_fs_dry (root : GoStr) (ra rr : List GoStr) (files : List GoStr) :
    ∀ st : TagUpdateResult × FS,
      (files.foldl (updateFileStep root ra rr true) st).2 = st.2 := by
  induction files with
  | nil => intro st; rfl
  | cons p ps ih =>
    intro st
    simp only [List.foldl_cons]
    rw [ih]
    exact updateFileStep_fs_dry root ra rr st p

theorem updLoop_fs_ne (root : GoStr) (ra rr : List GoStr) (dryRun : Bool)
    (files : List GoStr) : ∀ (st : TagUpdateResult × FS) (q : GoStr),
      q ∉ files.map (absOf root) →
      readFS (files.foldl (updateFileStep root ra rr dryRun) st).2 q = readFS st.2 q := by
  induction files with
  | nil => intro st q _; rfl
  | cons p ps ih =>
    intro st q hq
    simp only [List.map_cons, List.mem_cons] at hq
    push_neg at hq
    simp only [List.foldl_cons]
    rw [ih _ q hq.2]
    exact updateFileStep_fs_ne root ra rr dryRun st p q hq.1

theorem updateTags_fs_dry (add remove : List GoStr) (root : GoStr)
    (files : List GoStr) (fs : FS) :
    (updateTags add remove root files fs true).2 = fs := by
  unfold updateTags
  cases hv : validatePath root with
  | error e => rfl
  | ok u =>
    cases u
    cases hres : (if add ≠ [] ∨ remove ≠ [] then resolveTagConflicts add remove
        else .ok ([], [])) with
    | error e => rfl
    | ok rr =>
      obtain ⟨ra, rrem⟩ := rr
      simp only
      rcases hfold : List.foldl (updateFileStep root ra rrem true) (emptyUpd, fs) files
        with ⟨r, f⟩
      simp only [hfold]
      have := updLoop_fs_dry root ra rrem files (emptyUpd, fs)
      rw [hfold] at this
      exact this

theorem updateTags_fs_ne (add remove : List GoStr) (root : GoStr)
    (files : List GoStr) (fs : FS) (dryRun : Bool) (q : GoStr)
    (hq : q ∉ files.map (absOf root)) :
    readFS (updateTags add remove root files fs dryRun).2 q = readFS fs q := by
  unfold updateTags
  cases hv : validatePath root with
  | error e => rfl
  | ok u =>
    cases u
    cases hres : (if add ≠ [] ∨ remove ≠ [] then resolveTagConflicts add remove
        else .ok ([], [])) with
    | error e => rfl
    | ok rr =>
      obtain ⟨ra, rrem⟩ := rr
      simp only
      rcases hfold : List.foldl (updateFileStep root ra rrem dryRun) (emptyUpd, fs) files
        with ⟨r, f⟩
      simp only [hfold]
      have := updLoop_fs_ne root ra rrem dryRun files (emptyUpd, fs) q hq
      rw [hfold] at this
      exact this


/-! Frame lemmas for the replace engine. -/

theorem replaceTagsInFile_ok {fs fs' : FS} {p : GoStr} {reps : List TagReplacement}
    {dryRun : Bool} (h : replaceTagsInFile fs p reps dryRun = .ok fs') :
    fs' = fs ∨ (dryRun = false ∧ ∃ c, readFS fs p = some c ∧
      applySubsts reps c ≠ c ∧ writeFS fs p (applySubsts reps c) = .ok fs') := by
  unfold replaceTagsInFile at h
  cases hr : readFS fs p with
  | none => rw [hr] at h; exact Except.noConfusion h
  | some c =>
    rw [hr] at h
    dsimp only at h
    by_cases hc : applySubsts reps c ≠ c ∧ dryRun = false
    · rw [if_pos hc] at h
      exact .inr ⟨hc.2, c, rfl, hc.1, h⟩
    · rw [if_neg hc] at h
      injection h with h
      exact .inl h.symm

theorem replaceFileStep_fs_dry (reps : List TagReplacement)
    (st : TagReplaceResult × FS) (file : GoStr) :
    (replaceFileStep reps true st file).2 = st.2 := by
  unfold replaceFileStep
  cases hr : replaceTagsInFile st.2 file reps true with
  | error e => rfl
  | ok f' =>
    dsimp only
    rcases replaceTagsInFile_ok hr with h | ⟨hd, _⟩
    · exact h
    · exact Bool.noConfusion hd

theorem replaceFileStep_fs_ne (reps : List TagReplacement) (dryRun : Bool)
    (st : TagReplaceResult × FS) (file q : GoStr) (hq : q ≠ file) :
    readFS (replaceFileStep reps dryRun st file).2 q = readFS st.2 q := by
  unfold replaceFileStep
  cases hr : replaceTagsInFile st.2 file reps dryRun with
  | error e => rfl
  | ok f' =>
    dsimp only
    rcases replaceTagsInFile_ok hr with h | ⟨_, c, _, _, hw⟩
    · rw [h]
    · exact readFS_writeFS_ne hw hq

theorem replaceFileStep_fs_self (reps : List TagReplacement) (dryRun : Bool)
    (st : TagReplaceResult × FS) (file : GoStr) :
    readFS (replaceFileStep reps dryRun st file).2 file = readFS st.2 file ∨
    (dryRun = false ∧ ∃ c, readFS st.2 file = some c ∧
      readFS (replaceFileStep reps dryRun st file).2 file = some (applySubsts reps c) ∧
      applySubsts reps c ≠ c) := by
  unfold replaceFileStep
  cases hr : replaceTagsInFile st.2 file reps dryRun with
  | error e => exact .inl rfl
  | ok f' =>
    dsimp only
    rcases replaceTagsInFile_ok hr with h | ⟨hd, c, hrd, hne, hw⟩
    · exact .inl (by rw [h])
    · exact .inr ⟨hd, c, hrd, readFS_writeFS_self hw, hne⟩

theorem repLoop_fs_dry (reps : List TagReplacement) (cands : List GoStr) :
    ∀ st : TagReplaceResult × FS,
      (cands.foldl (replaceFileStep reps true) st).2 = st.2 := by
  induction cands with
  | nil => intro st; rfl
  | cons p ps ih =>
    intro st
    simp only [List.foldl_cons]
    rw [ih]
    exact replaceFileStep_fs_dry reps st p

theorem repLoop_fs_ne (reps : List TagReplacement) (dryRun : Bool)
    (cands : List GoStr) : ∀ (st : TagReplaceResult × FS) (q : GoStr), q ∉ cands →
      readFS (cands.foldl (replaceFileStep reps dryRun) st).2 q = readFS st.2 q := by
  induction cands with
  | nil => intro st q _; rfl
  | cons p ps ih =>
    intro st q hq
    simp only [List.mem_cons] at hq
    push_neg at hq
    simp only [List.foldl_cons]
    rw [ih _ q hq.2]
    exact replaceFileStep_fs_ne reps dryRun st p q hq.1

theorem repLoop_fs (reps : List TagReplacement) (dryRun : Bool)
    (cands : List GoStr) : ∀ (st : TagReplaceResult × FS) (q : GoStr), cands.Nodup →
      readFS (cands.foldl (replaceFileStep reps dryRun) st).2 q = readFS st.2 q ∨
      (dryRun = false ∧ ∃ c, readFS st.2 q = some c ∧
        readFS (cands.foldl (replaceFileStep reps dryRun) st).2 q
          = some (applySubsts reps c) ∧
        applySubsts reps c ≠ c) := by
  induction cands with
  | nil => intro st q _; exact .inl rfl
  | cons p ps ih =>
    intro st q hnd
    rcases List.nodup_cons.mp hnd with ⟨hp, hnd2⟩
    simp only [List.foldl_cons]
    by_cases hq : q = p
    · subst hq
      rw [repLoop_fs_ne reps dryRun ps _ q hp]
      exact replaceFileStep_fs_self reps dryRun st q
    · rcases ih (replaceFileStep reps dryRun st p) q hnd2 with h | ⟨hd, c, hc1, hc2, hc3⟩
      · rw [h]
        exact .inl (replaceFileStep_fs_ne reps dryRun st p q hq)
      · rw [replaceFileStep_fs_ne reps dryRun st p q hq] at hc1
        exact .inr ⟨hd, c, hc1, hc2, hc3⟩

theorem foldl_nodup_preserve {β : Type} (f : List GoStr → β → List GoStr)
    (hf : ∀ a b, a.Nodup → (f a b).Nodup) :
    ∀ (l : List β) (a : List GoStr), a.Nodup → (l.foldl f a).Nodup := by
  intro l
  induction l with
  | nil => intro a h; exact h
  | cons x xs ih => intro a h; exact ih _ (hf a x h)

theorem insertTag_nodup {acc : List GoStr} {t : GoStr} (h : acc.Nodup) :
    (insertTag acc t).Nodup := by
  unfold insertTag
  by_cases hm : t ∈ acc
  · rw [if_pos hm]; exact h
  · rw [if_neg hm]
    rw [List.nodup_append]
    refine ⟨h, List.nodup_singleton t, ?_⟩
    intro a ha hat
    rw [List.mem_singleton] at hat
    subst hat
    exact hm ha

theorem replaceCandidates_nodup (cfg : Config) (fs : FS)
    (reps : List TagReplacement) (root : GoStr) :
    (replaceCandidates cfg fs reps root).Nodup := by
  unfold replaceCandidates
  refine foldl_nodup_preserve _ ?_ reps [] List.nodup_nil
  intro a rep h
  cases findFilesByTags cfg fs [normalizeTag rep.1] root with
  | error e => exact h
  | ok lists =>
    dsimp only
    refine foldl_nodup_preserve _ ?_ lists a h
    intro a2 pr h2
    exact foldl_nodup_preserve _ (fun x y hx => insertTag_nodup hx) pr.2 a2 h2

theorem replaceTagsBatch_fs_dry (cfg : Config) (fs : FS)
    (reps : List TagReplacement) (root : GoStr) :
    (replaceTagsBatch cfg fs reps root true).2 = fs := by
  unfold replaceTagsBatch
  cases hv : validatePath root with
  | error e => rfl
  | ok u =>
    cases u
    dsimp only
    exact repLoop_fs_dry reps (replaceCandidates cfg fs reps root) _

theorem replaceTagsBatch_fs_frame (cfg : Config) (fs : FS)
    (reps : List TagReplacement) (root : GoStr) (dryRun : Bool) (q : GoStr) :
    readFS (replaceTagsBatch cfg fs reps root dryRun).2 q = readFS fs q ∨
    (dryRun = false ∧ ∃ c, readFS fs q = some c ∧
      readFS (replaceTagsBatch cfg fs reps root dryRun).2 q
        = some (applySubsts reps c) ∧
      applySubsts reps c ≠ c) := by
  unfold replaceTagsBatch
  cases hv : validatePath root with
  | error e => exact .inl rfl
  | ok u =>
    cases u
    dsimp only
    exact repLoop_fs reps dryRun (replaceCandidates cfg fs reps root) _ q
      (replaceCandidates_nodup cfg fs reps root)

/-- C7: with `dryRun = true`, neither `UpdateTags` nor `ReplaceTagsBatch`
changes the file system; in any invocation, a file's content changes only
when `dryRun = false`, only at the operation's own target files, and for
`ReplaceTagsBatch` the new content is exactly the result of applying every
replacement pair's substitutions to the original content, which must
differ from it. -/
theorem c7_dry_run_frame (cfg : Config) (add remove : List GoStr) (root : GoStr)
    (files : List GoStr) (fs : FS) (reps : List TagReplacement) (dryRun : Bool) :
    (updateTags add remove root files fs true).2 = fs ∧
    (replaceTagsBatch cfg fs reps root true).2 = fs ∧
    (∀ q, readFS (updateTags add remove root files fs dryRun).2 q ≠ readFS fs q →
      dryRun = false ∧ q ∈ files.map (absOf root)) ∧
    (∀ q, readFS (replaceTagsBatch cfg fs reps root dryRun).2 q ≠ readFS fs q →
      dryRun = false ∧ ∃ c, readFS fs q = some c ∧
        readFS (replaceTagsBatch cfg fs reps root dryRun).2 q
          = some (applySubsts reps c) ∧
        applySubsts reps c ≠ c) := by
  refine ⟨updateTags_fs_dry add remove root files fs,
          replaceTagsBatch_fs_dry cfg fs reps root, ?_, ?_⟩
  · intro q hq
    constructor
    · cases dryRun with
      | false => rfl
      | true =>
        exact absurd (by rw [updateTags_fs_dry add remove root files fs]) hq
    · by_contra hmem
      exact hq (updateTags_fs_ne add remove root files fs dryRun q hmem)
  · intro q hq
    rcases replaceTagsBatch_fs_frame cfg fs reps root dryRun q with h | h
    · exact absurd h hq
    · exact h

/-- Concrete instance of the dry-run frame property. -/
theorem c7_dry_run_frame_witness :
    (replaceTagsBatch defaultConfig
        ⟨[((("/r/a.md").data), (("#foo x").data))], []⟩
        [((("foo").data), (("bar").data))] (("/r").data) true).2
      = ⟨[((("/r/a.md").data), (("#foo x").data))], []⟩ :=
  (c7_dry_run_frame defaultConfig [] [] (("/r").data) []
    ⟨[((("/r/a.md").data), (("#foo x").data))], []⟩
    [((("foo").data), (("bar").data))] true).2.1


/-! Exact characterizations of the per-file replace step, used for the
batch-outcome theorems. -/

theorem writeFS_unwritable {fs g : FS} {p c : GoStr} (h : writeFS fs p c = .ok g) :
    g.unwritable = fs.unwritable := by
  unfold writeFS at h
  by_cases hw : p ∈ fs.unwritable
  · rw [if_pos hw] at h; exact Except.noConfusion h
  · rw [if_neg hw] at h
    injection h with h
    rw [← h]

theorem replaceFileStep_unwritable (reps : List TagReplacement) (dryRun : Bool)
    (st : TagReplaceResult × FS) (file : GoStr) :
    (replaceFileStep reps dryRun st file).2.unwritable = st.2.unwritable := by
  unfold replaceFileStep
  cases hg : replaceTagsInFile st.2 file reps dryRun with
  | error e => rfl
  | ok g =>
    dsimp only
    rcases replaceTagsInFile_ok hg with h | ⟨_, c, _, _, hw⟩
    · rw [h]
    · exact writeFS_unwritable hw

theorem findFilesByTags_isOk (cfg : Config) (fs : FS) (tags : List GoStr)
    (root : GoStr) (hv : validatePath root = .ok ()) :
    ∃ l, findFilesByTags cfg fs tags root = .ok l := by
  unfold findFilesByTags
  rw [hv]
  exact ⟨_, rfl⟩

theorem repErrsFold (cfg : Config) (fs : FS) (root : GoStr)
    (hv : validatePath root = .ok ()) :
    ∀ (rs : List TagReplacement) (acc : List GoStr),
      rs.foldl (fun acc rep =>
        match findFilesByTags cfg fs [normalizeTag rep.1] root with
        | .ok _ => acc
        | .error e =>
          acc ++ [("Error finding files for tag ").data ++ rep.1 ++ (": ").data ++ e])
        acc = acc := by
  intro rs
  induction rs with
  | nil => intro acc; rfl
  | cons r rs ih =>
    intro acc
    simp only [List.foldl_cons]
    obtain ⟨l, hl⟩ := findFilesByTags_isOk cfg fs [normalizeTag r.1] root hv
    rw [hl]
    exact ih acc

theorem repErrs_nil (cfg : Config) (fs : FS) (reps : List TagReplacement)
    (root : GoStr) (hv : validatePath root = .ok ()) :
    repErrs cfg fs reps root = [] := by
  unfold repErrs
  exact repErrsFold cfg fs root hv reps []

theorem repCandFold_err (cfg : Config) (fs : FS) (root e : GoStr)
    (hv : validatePath root = .error e) :
    ∀ (rs : List TagReplacement) (acc : List GoStr),
      rs.foldl (fun acc rep =>
        match findFilesByTags cfg fs [normalizeTag rep.1] root with
        | .ok lists => lists.foldl (fun a pr => pr.2.foldl insertTag a) acc
        | .error _ => acc) acc = acc := by
  intro rs
  induction rs with
  | nil => intro acc; rfl
  | cons r rs ih =>
    intro acc
    simp only [List.foldl_cons]
    have hl : findFilesByTags cfg fs [normalizeTag r.1] root
        = .error (("invalid root path: ").data ++ e) := by
      unfold findFilesByTags
      rw [hv]
    rw [hl]
    exact ih acc

theorem replaceCandidates_err (cfg : Config) (fs : FS) (reps : List TagReplacement)
    (root e : GoStr) (hv : validatePath root = .error e) :
    replaceCandidates cfg fs reps root = [] := by
  unfold replaceCandidates
  exact repCandFold_err cfg fs root e hv reps []

theorem replaceFileStep_ok_eq (reps : List TagReplacement) (st : TagReplaceResult × FS)
    (file c : GoStr) (hr : readFS st.2 file = some c) (hw : file ∉ st.2.unwritable) :
    ∃ g : FS, replaceFileStep reps false st file
        = ({ st.1 with modifiedFiles := st.1.modifiedFiles ++ [file] }, g) ∧
      g.unwritable = st.2.unwritable ∧
      ∀ q, q ≠ file → readFS g q = readFS st.2 q := by
  have hok : ∃ g, replaceTagsInFile st.2 file reps false = .ok g := by
    unfold replaceTagsInFile
    rw [hr]
    dsimp only
    by_cases hc : applySubsts reps c ≠ c ∧ (false : Bool) = false
    · rw [if_pos hc]
      unfold writeFS
      rw [if_neg hw]
      exact ⟨_, rfl⟩
    · rw [if_neg hc]
      exact ⟨_, rfl⟩
  obtain ⟨g, hg⟩ := hok
  refine ⟨g, ?_, ?_, ?_⟩
  · unfold replaceFileStep
    rw [hg]
  · rcases replaceTagsInFile_ok hg with h | ⟨_, c2, _, _, hwr⟩
    · rw [h]
    · exact writeFS_unwritable hwr
  · intro q hq
    rcases replaceTagsInFile_ok hg with h | ⟨_, c2, _, _, hwr⟩
    · rw [h]
    · exact readFS_writeFS_ne hwr hq

theorem replaceFileStep_fail_eq (reps : List TagReplacement) (st : TagReplaceResult × FS)
    (file c : GoStr) (hr : readFS st.2 file = some c)
    (hch : applySubsts reps c ≠ c) (hw : file ∈ st.2.unwritable) :
    replaceFileStep reps false st file
      = ({ st.1 with failedFiles := st.1.failedFiles ++ [file],
                     errors := st.1.errors ++ [file ++ (": ").data ++ writeErr file] },
         st.2) := by
  have herr : replaceTagsInFile st.2 file reps false = .error (writeErr file) := by
    unfold replaceTagsInFile
    rw [hr]
    dsimp only
    rw [if_pos ⟨hch, rfl⟩]
    unfold writeFS
    rw [if_pos hw]
  unfold replaceFileStep
  rw [herr]

/-- C6 (amended): with `dryRun = false`, a three-candidate batch whose middle
candidate is readable, changed by the substitutions, but unwritable, while the
other two are readable and writable, reports exactly the two writable files as
modified and the unwritable one as failed, with a permission-denied error
naming it; the failure does not abort the remaining files. -/
theorem c6_batch_nonatomic (cfg : Config) (fs : FS) (reps : List TagReplacement)
    (root f1 f2 f3 c1 c2 c3 : GoStr)
    (hv : validatePath root = .ok ())
    (hc : replaceCandidates cfg fs reps root = [f1, f2, f3])
    (h1 : readFS fs f1 = some c1) (hw1 : f1 ∉ fs.unwritable)
    (h2 : readFS fs f2 = some c2) (hch2 : applySubsts reps c2 ≠ c2)
    (hw2 : f2 ∈ fs.unwritable)
    (h3 : readFS fs f3 = some c3) (hw3 : f3 ∉ fs.unwritable) :
    ∃ res, (replaceTagsBatch cfg fs reps root false).1 = .ok res ∧
      res.modifiedFiles = sortStrings [f1, f3] ∧
      res.failedFiles = [f2] ∧
      res.errors = [f2 ++ (": ").data ++ writeErr f2] := by
  have hnd := replaceCandidates_nodup cfg fs reps root
  rw [hc] at hnd
  have hnds : (f1 ≠ f2 ∧ f1 ≠ f3) ∧ f2 ≠ f3 := by
    simpa [List.nodup_cons] using hnd
  obtain ⟨g1, hs1, hu1, hf1⟩ := replaceFileStep_ok_eq reps
    (({ modifiedFiles := [], failedFiles := [], errors := [] } : TagReplaceResult), fs)
    f1 c1 h1 hw1
  have hs1a : replaceFileStep reps false
      (({ modifiedFiles := [], failedFiles := [], errors := [] } : TagReplaceResult), fs) f1
      = ({ modifiedFiles := [f1], failedFiles := [], errors := [] }, g1) :=
    hs1.trans rfl
  have hr2 : readFS g1 f2 = some c2 := by
    rw [hf1 f2 (Ne.symm hnds.1.1)]
    exact h2
  have hw2g : f2 ∈ g1.unwritable := by
    rw [hu1]
    exact hw2
  have hs2 := replaceFileStep_fail_eq reps
    (({ modifiedFiles := [f1], failedFiles := [], errors := [] } : TagReplaceResult), g1)
    f2 c2 hr2 hch2 hw2g
  have hs2a : replaceFileStep reps false
      (({ modifiedFiles := [f1], failedFiles := [], errors := [] } : TagReplaceResult), g1) f2
      = ({ modifiedFiles := [f1], failedFiles := [f2],
           errors := [f2 ++ (": ").data ++ writeErr f2] }, g1) :=
    hs2.trans rfl
  have hr3 : readFS g1 f3 = some c3 := by
    rw [hf1 f3 (Ne.symm hnds.1.2)]
    exact h3
  have hw3g : f3 ∉ g1.unwritable := by
    rw [hu1]
    exact hw3
  obtain ⟨g3, hs3, hu3, hf3⟩ := replaceFileStep_ok_eq reps
    (({ modifiedFiles := [f1], failedFiles := [f2],
        errors := [f2 ++ (": ").data ++ writeErr f2] } : TagReplaceResult), g1)
    f3 c3 hr3 hw3g
  have hs3a : replaceFileStep reps false
      (({ modifiedFiles := [f1], failedFiles := [f2],
          errors := [f2 ++ (": ").data ++ writeErr f2] } : TagReplaceResult), g1) f3
      = ({ modifiedFiles := [f1, f3], failedFiles := [f2],
           errors := [f2 ++ (": ").data ++ writeErr f2] }, g3) :=
    hs3.trans rfl
  unfold replaceTagsBatch
  rw [hv]
  dsimp only
  rw [repErrs_nil cfg fs reps root hv, hc]
  simp only [List.foldl_cons, List.foldl_nil]
  rw [hs1a, hs2a, hs3a]
  exact ⟨_, rfl, rfl, rfl, rfl⟩

/-- Concrete instance of the amended batch non-atomicity property: three
candidates, the middle one unwritable, `dryRun = false`. -/
theorem c6_batch_nonatomic_witness :
    ∃ res, (replaceTagsBatch defaultConfig
        ⟨[((("/r/a.md").data), (("#foo x").data)),
          ((("/r/b.md").data), (("#foo y").data)),
          ((("/r/c.md").data), (("#foo z").data))], [("/r/b.md").data]⟩
        [((("foo").data), (("bar").data))] (("/r").data) false).1 = .ok res ∧
      res.modifiedFiles = sortStrings [("/r/a.md").data, ("/r/c.md").data] ∧
      res.failedFiles = [("/r/b.md").data] ∧
      res.errors = [(("/r/b.md").data) ++ (": ").data ++ writeErr (("/r/b.md").data)] :=
  c6_batch_nonatomic defaultConfig
    ⟨[((("/r/a.md").data), (("#foo x").data)),
      ((("/r/b.md").data), (("#foo y").data)),
      ((("/r/c.md").data), (("#foo z").data))], [("/r/b.md").data]⟩
    [((("foo").data), (("bar").data))] (("/r").data)
    (("/r/a.md").data) (("/r/b.md").data) (("/r/c.md").data)
    (("#foo x").data) (("#foo y").data) (("#foo z").data)
    (by rfl) (by rfl) (by rfl) (by decide) (by rfl) (by decide) (by decide)
    (by rfl) (by decide)

/-- C6 counterexample: the same three-candidate batch with one unwritable
file, run with `dryRun = true` (an invocation the claim quantifies over),
reports all three files as modified and none as failed. -/
theorem c6_batch_nonatomic_counterexample :
    (replaceTagsBatch defaultConfig
        ⟨[((("/r/a.md").data), (("#foo x").data)),
          ((("/r/b.md").data), (("#foo y").data)),
          ((("/r/c.md").data), (("#foo z").data))], [("/r/b.md").data]⟩
        [((("foo").data), (("bar").data))] (("/r").data) true).1
      = .ok { modifiedFiles := [("/r/a.md").data, ("/r/b.md").data, ("/r/c.md").data],
              failedFiles := [], errors := [] } := by
  rfl

theorem replaceFileStep_modified_mono (reps : List TagReplacement) (dryRun : Bool)
    (st : TagReplaceResult × FS) (file x : GoStr)
    (hx : x ∈ st.1.modifiedFiles) :
    x ∈ (replaceFileStep reps dryRun st file).1.modifiedFiles := by
  unfold replaceFileStep
  cases replaceTagsInFile st.2 file reps dryRun with
  | error e => exact hx
  | ok g =>
    dsimp only
    exact List.mem_append_left _ hx

theorem repLoop_modified_mono (reps : List TagReplacement) (dryRun : Bool)
    (cands : List GoStr) : ∀ (st : TagReplaceResult × FS) (x : GoStr),
      x ∈ st.1.modifiedFiles →
      x ∈ (cands.foldl (replaceFileStep reps dryRun) st).1.modifiedFiles := by
  induction cands with
  | nil => intro st x hx; exact hx
  | cons p ps ih =>
    intro st x hx
    simp only [List.foldl_cons]
    exact ih _ x (replaceFileStep_modified_mono reps dryRun st p x hx)

theorem replaceTagsInFile_isOk {fs : FS} {p c : GoStr} (reps : List TagReplacement)
    (dryRun : Bool) (hr : readFS fs p = some c)
    (hok : dryRun = true ∨ applySubsts reps c = c ∨ p ∉ fs.unwritable) :
    ∃ g, replaceTagsInFile fs p reps dryRun = .ok g := by
  unfold replaceTagsInFile
  rw [hr]
  dsimp only
  by_cases hc : applySubsts reps c ≠ c ∧ dryRun = false
  · rw [if_pos hc]
    have hw : p ∉ fs.unwritable := by
      rcases hok with h | h | h
      · subst h; exact Bool.noConfusion hc.2
      · exact absurd h hc.1
      · exact h
    unfold writeFS
    rw [if_neg hw]
    exact ⟨_, rfl⟩
  · rw [if_neg hc]
    exact ⟨fs, rfl⟩

theorem replaceFileStep_self_modified (reps : List TagReplacement) (dryRun : Bool)
    (st : TagReplaceResult × FS) (file c : GoStr)
    (hr : readFS st.2 file = some c)
    (hok : dryRun = true ∨ applySubsts reps c = c ∨ file ∉ st.2.unwritable) :
    file ∈ (replaceFileStep reps dryRun st file).1.modifiedFiles := by
  obtain ⟨g, hg⟩ := replaceTagsInFile_isOk reps dryRun hr hok
  unfold replaceFileStep
  rw [hg]
  dsimp only
  exact List.mem_append_right _ (List.mem_singleton_self file)

theorem repLoop_modified (reps : List TagReplacement) (dryRun : Bool)
    (cands : List GoStr) : ∀ (st : TagReplaceResult × FS) (file c : GoStr),
      cands.Nodup → file ∈ cands → readFS st.2 file = some c →
      (dryRun = true ∨ applySubsts reps c = c ∨ file ∉ st.2.unwritable) →
      file ∈ (cands.foldl (replaceFileStep reps dryRun) st).1.modifiedFiles := by
  induction cands with
  | nil => intro st file c _ hmem _ _; exact absurd hmem (List.not_mem_nil file)
  | cons p ps ih =>
    intro st file c hnd hmem hr hok
    rcases List.nodup_cons.mp hnd with ⟨hp, hnd2⟩
    simp only [List.foldl_cons]
    rcases List.mem_cons.mp hmem with heq | hmem2
    · subst heq
      exact repLoop_modified_mono reps dryRun ps _ file
        (replaceFileStep_self_modified reps dryRun st file c hr hok)
    · have hne : file ≠ p := fun h => hp (h ▸ hmem2)
      refine ih _ file c hnd2 hmem2 ?_ ?_
      · rw [replaceFileStep_fs_ne reps dryRun st p file hne]
        exact hr
      · rcases hok with h | h | h
        · exact .inl h
        · exact .inr (.inl h)
        · refine .inr (.inr ?_)
          rw [replaceFileStep_unwritable reps dryRun st p]
          exact h

/-- C9 (amended): a readable candidate file of `ReplaceTagsBatch` is reported
in `ModifiedFiles` whenever its write is not attempted or succeeds — that is,
when `dryRun` is set, or the substitutions leave its content unchanged, or
the file is writable.  (A readable candidate whose changed content cannot be
written lands in `FailedFiles` instead, refuting the unconditional claim.) -/
theorem c9_modified_readable (cfg : Config) (fs : FS) (reps : List TagReplacement)
    (root : GoStr) (dryRun : Bool) (file c : GoStr)
    (hmem : file ∈ replaceCandidates cfg fs reps root)
    (hr : readFS fs file = some c)
    (hok : dryRun = true ∨ applySubsts reps c = c ∨ file ∉ fs.unwritable) :
    ∃ res, (replaceTagsBatch cfg fs reps root dryRun).1 = .ok res ∧
      file ∈ res.modifiedFiles := by
  cases hv : validatePath root with
  | error e =>
    rw [replaceCandidates_err cfg fs reps root e hv] at hmem
    exact absurd hmem (List.not_mem_nil file)
  | ok u =>
    cases u
    unfold replaceTagsBatch
    rw [hv]
    dsimp only
    refine ⟨_, rfl, ?_⟩
    rw [mem_sortStrings]
    exact repLoop_modified reps dryRun (replaceCandidates cfg fs reps root)
      _ file c (replaceCandidates_nodup cfg fs reps root) hmem hr hok

/-- Concrete instance: with `dryRun = true` a readable candidate is reported
as modified. -/
theorem c9_modified_readable_witness :
    ∃ res, (replaceTagsBatch defaultConfig
        ⟨[((("/r/b.md").data), (("#foo y").data))], [("/r/b.md").data]⟩
        [((("foo").data), (("bar").data))] (("/r").data) true).1 = .ok res ∧
      ("/r/b.md").data ∈ res.modifiedFiles :=
  c9_modified_readable defaultConfig
    ⟨[((("/r/b.md").data), (("#foo y").data))], [("/r/b.md").data]⟩
    [((("foo").data), (("bar").data))] (("/r").data) true
    (("/r/b.md").data) (("#foo y").data)
    (by decide) (by rfl) (.inl rfl)

/-- C9 counterexample: a readable candidate that is unwritable and whose
content the substitutions change is reported in `FailedFiles`, not
`ModifiedFiles`, when `dryRun = false`. -/
theorem c9_modified_readable_counterexample :
    readFS ⟨[((("/r/b.md").data), (("#foo y").data))], [("/r/b.md").data]⟩
        (("/r/b.md").data) = some (("#foo y").data) ∧
    ("/r/b.md").data ∈ replaceCandidates defaultConfig
        ⟨[((("/r/b.md").data), (("#foo y").data))], [("/r/b.md").data]⟩
        [((("foo").data), (("bar").data))] (("/r").data) ∧
    (replaceTagsBatch defaultConfig
        ⟨[((("/r/b.md").data), (("#foo y").data))], [("/r/b.md").data]⟩
        [((("foo").data), (("bar").data))] (("/r").data) false).1
      = .ok { modifiedFiles := [], failedFiles := [("/r/b.md").data],
              errors := [(("/r/b.md").data) ++ (": ").data
                ++ writeErr (("/r/b.md").data)] } :=
  ⟨rfl, by decide, rfl⟩


/-! Filter parity between extraction and validation. -/

theorem mem_insertTag {acc : List GoStr} {s t : GoStr} :
    t ∈ insertTag acc s ↔ t ∈ acc ∨ t = s := by
  unfold insertTag
  by_cases h : s ∈ acc
  · rw [if_pos h]
    constructor
    · exact fun h2 => .inl h2
    · rintro (h2 | rfl)
      · exact h2
      · exact h
  · rw [if_neg h]
    simp

theorem mem_condInsert_fold {β : Type} (g : β → GoStr) (C : β → Prop)
    [DecidablePred C] :
    ∀ (l : List β) (acc : List GoStr) (t : GoStr),
      t ∈ l.foldl (fun acc x => if C x then insertTag acc (g x) else acc) acc →
      t ∈ acc ∨ ∃ x, x ∈ l ∧ C x ∧ t = g x := by
  intro l
  induction l with
  | nil => intro acc t ht; exact .inl ht
  | cons x xs ih =>
    intro acc t ht
    simp only [List.foldl_cons] at ht
    rcases ih _ t ht with h | ⟨y, hy, hC, hg⟩
    · by_cases hc : C x
      · rw [if_pos hc] at h
        rcases mem_insertTag.mp h with h2 | h2
        · exact .inl h2
        · exact .inr ⟨x, List.mem_cons_self x xs, hc, h2⟩
      · rw [if_neg hc] at h
        exact .inl h
    · exact .inr ⟨y, List.mem_cons_of_mem x hy, hC, hg⟩

theorem condInsert_fold_valid {β : Type} (cfg : Config) (g : β → GoStr)
    (C : β → Prop) [DecidablePred C]
    (hCv : ∀ x, C x → isValidTag cfg (g x) = true)
    (l : List β) (acc : List GoStr)
    (hacc : ∀ x ∈ acc, isValidTag cfg x = true) :
    ∀ t ∈ l.foldl (fun acc x => if C x then insertTag acc (g x) else acc) acc,
      isValidTag cfg t = true := by
  intro t ht
  rcases mem_condInsert_fold g C l acc t ht with h | ⟨x, _, hC, hg⟩
  · exact hacc t h
  · subst hg
    exact hCv x hC

theorem extractTags_isValid (cfg : Config) (content t : GoStr)
    (ht : t ∈ extractTags cfg content) : isValidTag cfg t = true := by
  unfold extractTags at ht
  dsimp only at ht
  have hbase : ∀ x ∈ ([] : List GoStr), isValidTag cfg x = true :=
    fun x hx => absurd hx (List.not_mem_nil x)
  have hCv1 : ∀ m : GoStr, (isValidTag cfg (dropPre (("#").data) m) = true ∧
      checkHashtagBoundary content m = true) →
      isValidTag cfg (dropPre (("#").data) m) = true := fun m hm => hm.1
  have hCv2 : ∀ s : GoStr, isValidTag cfg (trimBoth isQuoteChar (trimSpace s)) = true →
      isValidTag cfg (trimBoth isQuoteChar (trimSpace s)) = true := fun s hs => hs
  have hCv3 : ∀ line : GoStr, isValidTag cfg
        (trimBoth isQuoteChar (trimSpace (dropPre ([('-')]) (trimSpace line)))) = true →
      isValidTag cfg
        (trimBoth isQuoteChar (trimSpace (dropPre ([('-')]) (trimSpace line)))) = true :=
    fun s hs => hs
  have hs1 : ∀ x ∈ (findHashtags content).foldl (fun acc m =>
      if isValidTag cfg (dropPre (("#").data) m) = true ∧
          checkHashtagBoundary content m = true
      then insertTag acc (dropPre (("#").data) m) else acc) [],
      isValidTag cfg x = true :=
    condInsert_fold_valid cfg (fun m => dropPre (("#").data) m)
      (fun m => isValidTag cfg (dropPre (("#").data) m) = true ∧
        checkHashtagBoundary content m = true)
      hCv1 (findHashtags content) [] hbase
  cases hyl : yamlListCapture content with
  | some capL =>
    rw [hyl] at ht
    cases hya : yamlArrayCapture content with
    | some capA =>
      rw [hya] at ht
      exact condInsert_fold_valid cfg
        (fun line => trimBoth isQuoteChar (trimSpace (dropPre ([('-')]) (trimSpace line))))
        (fun line => isValidTag cfg
          (trimBoth isQuoteChar (trimSpace (dropPre ([('-')]) (trimSpace line)))) = true)
        hCv3 (splitNL capL) _
        (condInsert_fold_valid cfg (fun s => trimBoth isQuoteChar (trimSpace s))
          (fun s => isValidTag cfg (trimBoth isQuoteChar (trimSpace s)) = true)
          hCv2 (splitOnChar (',') capA) _ hs1) t ht
    | none =>
      rw [hya] at ht
      exact condInsert_fold_valid cfg
        (fun line => trimBoth isQuoteChar (trimSpace (dropPre ([('-')]) (trimSpace line))))
        (fun line => isValidTag cfg
          (trimBoth isQuoteChar (trimSpace (dropPre ([('-')]) (trimSpace line)))) = true)
        hCv3 (splitNL capL) _ hs1 t ht
  | none =>
    rw [hyl] at ht
    cases hya : yamlArrayCapture content with
    | some capA =>
      rw [hya] at ht
      exact condInsert_fold_valid cfg (fun s => trimBoth isQuoteChar (trimSpace s))
        (fun s => isValidTag cfg (trimBoth isQuoteChar (trimSpace s)) = true)
        hCv2 (splitOnChar (',') capA) _ hs1 t ht
    | none =>
      rw [hya] at ht
      exact hs1 t ht

theorem dropWhile_all_false {p : Char → Bool} (t : GoStr)
    (h : ∀ c ∈ t, p c = false) : t.dropWhile p = t := by
  cases t with
  | nil => rfl
  | cons c cs =>
    rw [List.dropWhile_cons, h c (List.mem_cons_self c cs)]
    simp

theorem trimSpace_eq_self {t : GoStr} (h : ∀ c ∈ t, goIsSpace c = false) :
    trimSpace t = t := by
  unfold trimSpace trimLeftP trimRightP
  rw [dropWhile_all_false t h]
  rw [dropWhile_all_false t.reverse (fun c hc => h c (List.mem_reverse.mp hc))]
  exact List.reverse_reverse t

theorem tagChar_not_space {c : Char} (h : isTagChar c = true) :
    goIsSpace c = false := by
  unfold goIsSpace
  refine decide_eq_false ?_
  rintro (rfl | rfl | rfl | rfl | rfl | rfl | rfl | rfl) <;> exact absurd h (by decide)

theorem strStarts_hash_false {c : Char} (cs : GoStr) (h : isTagChar c = true) :
    strStarts (("#").data) (c :: cs) = false := by
  by_cases hc : c = ('#')
  · subst hc
    exact absurd h (by decide)
  · unfold strStarts
    refine decide_eq_false ?_
    intro he
    injection he with h2 h3
    exact hc h2

theorem validateTag_structural (cfg : Config) (c : Char) (cs : GoStr)
    (hvalid : isValidTag cfg (c :: cs) = true)
    (hhead : isAlphaA c = true)
    (hall : (c :: cs).all isTagChar = true)
    (hdd : goContains (c :: cs) (("--").data) = false) :
    (validateTag cfg (c :: cs)).isValid = true := by
  have hns : ∀ ch ∈ (c :: cs), goIsSpace ch = false := fun ch hch =>
    tagChar_not_space (List.all_eq_true.mp hall ch hch)
  have htrim : trimSpace (c :: cs) = c :: cs := trimSpace_eq_self hns
  have hctag : isTagChar c = true := List.all_eq_true.mp hall c (List.mem_cons_self c cs)
  have hdrop : dropPre (("#").data) (c :: cs) = c :: cs := by
    unfold dropPre
    rw [strStarts_hash_false cs hctag]
    simp
  unfold isValidTag at hvalid
  have hlen : ¬ ((c :: cs).length < cfg.minTagLength) := fun h => by
    rw [if_pos h] at hvalid
    exact Bool.noConfusion hvalid
  rw [if_neg hlen] at hvalid
  have hkw : cfg.excludeKeywords.any (fun kw => goContains (lowerStr (c :: cs)) kw)
      = false := by
    cases hb : cfg.excludeKeywords.any (fun kw => goContains (lowerStr (c :: cs)) kw) with
    | false => rfl
    | true =>
      rw [if_pos hb] at hvalid
      exact Bool.noConfusion hvalid
  rw [if_neg (fun h => Bool.noConfusion (hkw.symm.trans h))] at hvalid
  have hhex : isHexColor (c :: cs) = false := by
    cases hb : isHexColor (c :: cs) with
    | false => rfl
    | true =>
      rw [if_pos hb] at hvalid
      exact Bool.noConfusion hvalid
  rw [if_neg (fun h => Bool.noConfusion (hhex.symm.trans h))] at hvalid
  have hid : looksLikeID (c :: cs) = false := by
    cases hb : looksLikeID (c :: cs) with
    | false => rfl
    | true =>
      rw [if_pos hb] at hvalid
      exact Bool.noConfusion hvalid
  rw [if_neg (fun h => Bool.noConfusion (hid.symm.trans h))] at hvalid
  have hurl : isURLFragment (c :: cs) = false := by
    cases hb : isURLFragment (c :: cs) with
    | false => rfl
    | true =>
      rw [if_pos hb] at hvalid
      exact Bool.noConfusion hvalid
  rw [if_neg (fun h => Bool.noConfusion (hurl.symm.trans h))] at hvalid
  have hfrac := of_decide_eq_true hvalid
  have hfind : (cfg.excludeKeywords.find? fun kw => goContains (lowerStr (c :: cs)) kw)
      = none := by
    rw [List.find?_eq_none]
    intro x hx hpx
    exact Bool.noConfusion (hkw.symm.trans (List.any_eq_true.mpr ⟨x, hx, hpx⟩))
  unfold validateTag
  rw [htrim, hdrop]
  dsimp only
  rw [if_neg (List.cons_ne_nil c cs)]
  dsimp only
  refine (congrArg (fun b => !b) (decide_eq_false ?_)).trans rfl
  rintro (h | h | h | h | h | h | h | h | h)
  · exact hlen h
  · rw [hhead] at h
    exact Bool.noConfusion h
  · rw [hall] at h
    exact Bool.noConfusion h
  · rw [hdd] at h
    exact Bool.noConfusion h
  · rw [hhex] at h
    exact Bool.noConfusion h
  · rw [hid] at h
    exact Bool.noConfusion h
  · rw [hurl] at h
    exact Bool.noConfusion h
  · rw [hfind] at h
    exact Bool.noConfusion h
  · rw [decide_eq_true hfrac.2] at h
    exact Bool.noConfusion h

/-- C1 (amended): every tag the extractor accepts that moreover is nonempty,
consists only of letters, digits, hyphens and underscores, starts with a
letter, and contains no consecutive hyphens, is accepted by the validator.
(An extracted tag violating one of these — e.g. one with consecutive
hyphens, which the extractor does not screen for — is rejected by the
validator, refuting unconditional filter parity.) -/
theorem c1_filter_parity (cfg : Config) (content t : GoStr)
    (ht : t ∈ extractTags cfg content)
    (hne : t ≠ [])
    (hhead : isAlphaA t.headI = true)
    (hall : t.all isTagChar = true)
    (hdd : goContains t (("--").data) = false) :
    (validateTag cfg t).isValid = true := by
  have hvalid := extractTags_isValid cfg content t ht
  cases t with
  | nil => exact absurd rfl hne
  | cons c cs => exact validateTag_structural cfg c cs hvalid hhead hall hdd

/-- Concrete instance of filter parity on a structurally clean tag. -/
theorem c1_filter_parity_witness :
    (validateTag defaultConfig (("foo").data)).isValid = true :=
  c1_filter_parity defaultConfig (("#foo").data) (("foo").data)
    (by decide) (by decide) (by decide) (by decide) (by decide)

/-- C1 counterexample: the extractor accepts "ab--cd" from "#ab--cd"
(no hashtag-pattern or `isValidTag` check screens consecutive hyphens), but
the validator rejects it. -/
theorem c1_filter_parity_counterexample :
    ("ab--cd").data ∈ extractTags defaultConfig (("#ab--cd").data) ∧
    (validateTag defaultConfig (("ab--cd").data)).isValid = false :=
  ⟨by decide, by rfl⟩


/-! Line-splitting infrastructure for the frontmatter codec. -/

theorem splitNL_ne_nil (s : GoStr) : splitNL s ≠ [] := by
  induction s with
  | nil => simp [splitNL]
  | cons c r ih =>
    unfold splitNL
    dsimp only
    by_cases hc : c = ('\n')
    · simp [hc]
    · rw [if_neg hc]
      cases hr : splitNL r with
      | nil => simp
      | cons l ls => simp

theorem splitNL_no_newline {l : GoStr} (h : ('\n') ∉ l) : splitNL l = [l] := by
  induction l with
  | nil => rfl
  | cons c r ih =>
    have hc : c ≠ ('\n') := fun he => h (he ▸ List.mem_cons_self c r)
    have hr : ('\n') ∉ r := fun he => h (List.mem_cons_of_mem c he)
    unfold splitNL
    dsimp only
    rw [if_neg hc, ih hr]

theorem splitNL_cons_line {l : GoStr} (rest : GoStr) (h : ('\n') ∉ l) :
    splitNL (l ++ ('\n') :: rest) = l :: splitNL rest := by
  induction l with
  | nil =>
    simp only [List.nil_append]
    conv_lhs => unfold splitNL
    rw [if_pos rfl]
  | cons c r ih =>
    have hc : c ≠ ('\n') := fun he => h (he ▸ List.mem_cons_self c r)
    have hr : ('\n') ∉ r := fun he => h (List.mem_cons_of_mem c he)
    simp only [List.cons_append]
    conv_lhs => unfold splitNL
    rw [if_neg hc, ih hr]

theorem joinNL_cons_cons (l l2 : GoStr) (ls : List GoStr) :
    joinNL (l :: l2 :: ls) = l ++ ('\n') :: joinNL (l2 :: ls) := rfl

theorem joinNL_splitNL (s : GoStr) : joinNL (splitNL s) = s := by
  induction s with
  | nil => rfl
  | cons c r ih =>
    unfold splitNL
    dsimp only
    by_cases hc : c = ('\n')
    · rw [if_pos hc]
      subst hc
      cases hr : splitNL r with
      | nil => exact absurd hr (splitNL_ne_nil r)
      | cons l ls =>
        have hthis : joinNL (l :: ls) = r := by rw [← hr]; exact ih
        rw [joinNL_cons_cons, hthis]
        rfl
    · rw [if_neg hc]
      cases hr : splitNL r with
      | nil => exact absurd hr (splitNL_ne_nil r)
      | cons l ls =>
        dsimp only
        cases ls with
        | nil =>
          have hthis : joinNL [l] = r := by rw [← hr]; exact ih
          have hl : l = r := hthis
          rw [show joinNL [c :: l] = c :: l from rfl, hl]
        | cons l2 ls2 =>
          have hthis : joinNL (l :: l2 :: ls2) = r := by rw [← hr]; exact ih
          rw [joinNL_cons_cons, ← hthis, joinNL_cons_cons]
          simp

theorem splitNL_joinNL (ls : List GoStr) (hne : ls ≠ [])
    (h : ∀ l ∈ ls, ('\n') ∉ l) : splitNL (joinNL ls) = ls := by
  induction ls with
  | nil => exact absurd rfl hne
  | cons l ls ih =>
    cases ls with
    | nil => exact splitNL_no_newline (h l (List.mem_cons_self l []))
    | cons l2 ls2 =>
      rw [joinNL_cons_cons]
      rw [splitNL_cons_line _ (h l (List.mem_cons_self _ _))]
      rw [ih (by simp) (fun x hx => h x (List.mem_cons_of_mem l hx))]

theorem dropWhile_head_false {p : Char → Bool} {l : GoStr} {c : Char}
    (hh : l.head? = some c) (hc : p c = false) : l.dropWhile p = l := by
  cases l with
  | nil => rfl
  | cons a r =>
    injection hh with hh
    subst hh
    rw [List.dropWhile_cons, hc]
    simp

theorem trimSpace_fix {l : GoStr}
    (hh : ∀ c, l.head? = some c → goIsSpace c = false)
    (hl : ∀ c, l.getLast? = some c → goIsSpace c = false) : trimSpace l = l := by
  unfold trimSpace trimLeftP trimRightP
  cases l with
  | nil => rfl
  | cons a r =>
    rw [dropWhile_head_false (show (a :: r).head? = some a from rfl) (hh a rfl)]
    cases hrev : (a :: r).reverse with
    | nil => exact absurd hrev (by simp)
    | cons d s =>
      have hd : goIsSpace d = false := hl d (by rw [← List.head?_reverse, hrev]; rfl)
      rw [dropWhile_head_false (show (d :: s).head? = some d from rfl) hd,
        ← hrev, List.reverse_reverse]

theorem takeWhile_append_all {α : Type} {p : α → Bool} (xs ys : List α)
    (hxs : ∀ x ∈ xs, p x = true) :
    (xs ++ ys).takeWhile p = xs ++ ys.takeWhile p := by
  induction xs with
  | nil => rfl
  | cons x xs ih =>
    simp only [List.cons_append, List.takeWhile_cons,
      hxs x (List.mem_cons_self x xs), if_true]
    rw [ih (fun a ha => hxs a (List.mem_cons_of_mem _ ha))]

theorem takeWhile_head_false {α : Type} {p : α → Bool} {ys : List α}
    (h : ∀ y, ys.head? = some y → p y = false) : ys.takeWhile p = [] := by
  cases ys with
  | nil => rfl
  | cons y ys =>
    rw [List.takeWhile_cons, h y rfl]
    simp

theorem splitColon_entry {k : GoStr} (r : GoStr) (hk : (':') ∉ k) :
    splitColon (k ++ (':') :: r) = some (k, r) := by
  unfold splitColon
  dsimp only
  have htake : (k ++ (':') :: r).takeWhile (fun c => decide (¬ c = (':'))) = k := by
    have hp : ∀ x ∈ k, decide (¬ x = (':')) = true := by
      intro x hx
      simp only [decide_eq_true_eq]
      intro he
      rw [he] at hx
      exact hk hx
    rw [takeWhile_append_all k ((':') :: r) hp]
    have hq : ∀ y, ((':') :: r).head? = some y → decide (¬ y = (':')) = false := by
      intro y hy
      injection hy with hy
      subst hy
      simp
    rw [takeWhile_head_false hq]
    simp
  rw [htake]
  have hlen : ¬ (k.length = (k ++ (':') :: r).length) := by
    simp only [List.length_append, List.length_cons]
    omega
  rw [if_neg hlen]
  have hdrop : (k ++ (':') :: r).drop (k.length + 1) = r := by
    rw [show k.length + 1 = (k ++ [(':')]).length by simp]
    rw [show k ++ (':') :: r = (k ++ [(':')]) ++ r by simp]
    exact List.drop_left (k ++ [(':')]) r
  rw [hdrop]

theorem findIdx?_append_first {α : Type} {p : α → Bool} (xs : List α) (y : α)
    (ys : List α) (hxs : ∀ x ∈ xs, p x = false) (hy : p y = true) :
    ∀ i, (xs ++ y :: ys).findIdx? p i = some (i + xs.length) := by
  induction xs with
  | nil =>
    intro i
    simp only [List.nil_append]
    rw [List.findIdx?]
    rw [hy]
    simp
  | cons x xs ih =>
    intro i
    simp only [List.cons_append]
    rw [List.findIdx?]
    rw [hxs x (List.mem_cons_self x xs)]
    simp only [Bool.false_eq_true, if_false]
    rw [ih (fun a ha => hxs a (List.mem_cons_of_mem x ha)) (i + 1)]
    simp only [List.length_cons]
    congr 1
    omega


/-! Association-map and sorted-entry lemmas for the codec. -/

theorem lookupStr_mem {α : Type} {k : GoStr} {m : List (GoStr × α)} {v : α}
    (h : lookupStr k m = some v) : (k, v) ∈ m := by
  induction m with
  | nil => exact Option.noConfusion h
  | cons kv m ih =>
    obtain ⟨k2, v2⟩ := kv
    rw [lookupStr_cons] at h
    by_cases he : k2 = k
    · rw [if_pos he] at h
      injection h with h
      subst he
      subst h
      exact List.mem_cons_self _ _
    · rw [if_neg he] at h
      exact List.mem_cons_of_mem _ (ih h)

theorem lookupStr_isSome_iff {α : Type} (k : GoStr) (m : List (GoStr × α)) :
    (lookupStr k m).isSome = true ↔ k ∈ m.map Prod.fst := by
  induction m with
  | nil =>
    simp only [show lookupStr k ([] : List (GoStr × α)) = none from rfl, List.map_nil]
    constructor
    · intro h
      exact Bool.noConfusion h
    · intro h
      exact absurd h (List.not_mem_nil k)
  | cons kv m ih =>
    obtain ⟨k2, v2⟩ := kv
    rw [lookupStr_cons]
    by_cases he : k2 = k
    · subst he
      rw [if_pos rfl]
      simp only [Option.isSome_some, List.map_cons, List.mem_cons]
      constructor
      · intro _
        exact .inl trivial
      · intro _
        trivial
    · rw [if_neg he]
      simp only [List.map_cons, List.mem_cons]
      rw [ih]
      constructor
      · exact fun h => .inr h
      · rintro (h | h)
        · exact absurd h.symm he
        · exact h

theorem mem_sortedFm {d : Fm} {k : GoStr} {v : FmVal}
    (h : (k, v) ∈ sortedFm d) : lookupStr k d = some v := by
  unfold sortedFm at h
  obtain ⟨k2, hk2, hmap⟩ := List.mem_filterMap.mp h
  cases hl : lookupStr k2 d with
  | none =>
    rw [hl] at hmap
    exact Option.noConfusion hmap
  | some v2 =>
    rw [hl] at hmap
    simp only [Option.map_some'] at hmap
    injection hmap with hmap
    rw [Prod.mk.injEq] at hmap
    obtain ⟨h1, h2⟩ := hmap
    subst h1
    subst h2
    exact hl

theorem sortedFm_keys (d : Fm) :
    (sortedFm d).map Prod.fst = sortStrings (d.map Prod.fst) := by
  unfold sortedFm
  suffices h : ∀ L : List GoStr, (∀ k ∈ L, k ∈ d.map Prod.fst) →
      (L.filterMap fun k => (lookupStr k d).map fun v => (k, v)).map Prod.fst = L by
    exact h _ (fun k hk => (mem_sortStrings k _).mp hk)
  intro L
  induction L with
  | nil => intro _; rfl
  | cons k L ih =>
    intro hL
    have hk := hL k (List.mem_cons_self _ _)
    have hsome : (lookupStr k d).isSome = true := (lookupStr_isSome_iff k d).mpr hk
    cases hl : lookupStr k d with
    | none =>
      rw [hl] at hsome
      exact Bool.noConfusion hsome
    | some v =>
      rw [List.filterMap_cons, hl]
      simp only [Option.map_some']
      simp only [List.map_cons]
      rw [ih (fun a ha => hL a (List.mem_cons_of_mem _ ha))]

theorem lookup_sortedFm (d : Fm) (k : GoStr) :
    lookupStr k (sortedFm d) = lookupStr k d := by
  cases h : lookupStr k (sortedFm d) with
  | some v => exact (mem_sortedFm (lookupStr_mem h)).symm
  | none =>
    have h1 : ¬ ((lookupStr k (sortedFm d)).isSome = true) := by
      rw [h]
      simp
    rw [lookupStr_isSome_iff, sortedFm_keys, mem_sortStrings] at h1
    have h2 : ¬ ((lookupStr k d).isSome = true) := by
      rw [lookupStr_isSome_iff]
      exact h1
    cases h3 : lookupStr k d with
    | none => rfl
    | some v =>
      rw [h3] at h2
      simp at h2

theorem insertStr_perm (x : GoStr) (l : List GoStr) : (insertStr x l).Perm (x :: l) := by
  induction l with
  | nil => exact List.Perm.refl _
  | cons y ys ih =>
    unfold insertStr
    by_cases h : goStrLe x y = true
    · rw [if_pos h]
    · rw [if_neg h]
      exact (ih.cons y).trans (List.Perm.swap x y ys)

theorem sortStrings_perm (l : List GoStr) : (sortStrings l).Perm l := by
  induction l with
  | nil => exact List.Perm.refl _
  | cons x xs ih =>
    unfold sortStrings at *
    simp only [List.foldr_cons]
    exact (insertStr_perm x _).trans (ih.cons x)

theorem sortStrings_nodup {l : List GoStr} (h : l.Nodup) : (sortStrings l).Nodup :=
  ((sortStrings_perm l).nodup_iff).mpr h

theorem fmSafe_mem {d : Fm} (h : fmSafe d = true) {k : GoStr} {v : FmVal}
    (hmem : (k, v) ∈ d) : safeKey k = true ∧ safeVal v = true := by
  unfold fmSafe at h
  rw [Bool.and_eq_true] at h
  have h2 := List.all_eq_true.mp h.2 (k, v) hmem
  rw [Bool.and_eq_true] at h2
  exact h2

theorem fmSafe_nodup {d : Fm} (h : fmSafe d = true) : (d.map Prod.fst).Nodup := by
  unfold fmSafe at h
  rw [Bool.and_eq_true] at h
  exact of_decide_eq_true h.1

theorem sortedFm_safe {d : Fm} (h : fmSafe d = true) : fmSafe (sortedFm d) = true := by
  unfold fmSafe
  rw [Bool.and_eq_true]
  constructor
  · apply decide_eq_true
    rw [sortedFm_keys]
    exact sortStrings_nodup (fmSafe_nodup h)
  · rw [List.all_eq_true]
    intro kv hkv
    obtain ⟨k, v⟩ := kv
    obtain ⟨h1, h2⟩ := fmSafe_mem h (lookupStr_mem (mem_sortedFm hkv))
    rw [Bool.and_eq_true]
    exact ⟨h1, h2⟩

theorem mem_setStr {α : Type} {k : GoStr} {v : α} {m : List (GoStr × α)}
    {kv : GoStr × α} (h : kv ∈ setStr k v m) : kv = (k, v) ∨ kv ∈ m := by
  induction m with
  | nil =>
    unfold setStr at h
    rw [List.mem_singleton] at h
    exact .inl h
  | cons kv2 m ih =>
    obtain ⟨k2, v2⟩ := kv2
    unfold setStr at h
    by_cases he : k2 = k
    · rw [if_pos he] at h
      rcases List.mem_cons.mp h with h1 | h1
      · exact .inl h1
      · exact .inr (List.mem_cons_of_mem _ h1)
    · rw [if_neg he] at h
      rcases List.mem_cons.mp h with h1 | h1
      · exact .inr (h1 ▸ List.mem_cons_self _ _)
      · rcases ih h1 with h2 | h2
        · exact .inl h2
        · exact .inr (List.mem_cons_of_mem _ h2)

theorem keys_setStr {α : Type} (k : GoStr) (v : α) (m : List (GoStr × α)) :
    (setStr k v m).map Prod.fst
      = if k ∈ m.map Prod.fst then m.map Prod.fst else m.map Prod.fst ++ [k] := by
  induction m with
  | nil =>
    simp only [show setStr k v ([] : List (GoStr × α)) = [(k, v)] from rfl, List.map_nil,
      List.map_cons]
    rw [if_neg (List.not_mem_nil k)]
    rfl
  | cons kv m ih =>
    obtain ⟨k2, v2⟩ := kv
    unfold setStr
    by_cases he : k2 = k
    · subst he
      rw [if_pos rfl]
      simp only [List.map_cons]
      rw [if_pos (List.mem_cons_self _ _)]
    · rw [if_neg he]
      have he2 : ¬ k = k2 := fun h => he h.symm
      simp only [List.map_cons, List.mem_cons]
      rw [ih]
      by_cases hm : k ∈ m.map Prod.fst
      · simp [hm, he2]
      · simp [hm, he2]

theorem setStr_nodup {α : Type} {k : GoStr} (v : α) {m : List (GoStr × α)}
    (h : (m.map Prod.fst).Nodup) : ((setStr k v m).map Prod.fst).Nodup := by
  rw [keys_setStr]
  by_cases hm : k ∈ m.map Prod.fst
  · rw [if_pos hm]
    exact h
  · rw [if_neg hm]
    rw [List.nodup_append]
    refine ⟨h, List.nodup_singleton k, ?_⟩
    intro a ha hb
    rw [List.mem_singleton] at hb
    subst hb
    exact hm ha

theorem setStr_ne_nil {α : Type} (k : GoStr) (v : α) (m : List (GoStr × α)) :
    setStr k v m ≠ [] := by
  cases m with
  | nil => exact List.cons_ne_nil (k, v) []
  | cons kv m =>
    obtain ⟨k2, v2⟩ := kv
    unfold setStr
    by_cases he : k2 = k
    · rw [if_pos he]
      simp
    · rw [if_neg he]
      simp


/-! Trim fixpoints and codec-safety unpacking. -/

theorem safeKey_spec {k : GoStr} (h : safeKey k = true) :
    k ≠ [] ∧ (∀ c ∈ k, c ≠ (':') ∧ c ≠ ('\n') ∧ goIsSpace c = false) ∧
      k.head? ≠ some ('-') := by
  unfold safeKey at h
  rw [Bool.and_eq_true, Bool.and_eq_true] at h
  obtain ⟨⟨h1, h2⟩, h3⟩ := h
  refine ⟨of_decide_eq_true h1, ?_, of_decide_eq_true h3⟩
  intro c hc
  have h4 := List.all_eq_true.mp h2 c hc
  rw [Bool.and_eq_true, Bool.and_eq_true] at h4
  obtain ⟨⟨ha, hb⟩, hcn⟩ := h4
  refine ⟨of_decide_eq_true ha, of_decide_eq_true hb, ?_⟩
  cases hgs : goIsSpace c with
  | false => rfl
  | true => rw [hgs] at hcn; exact Bool.noConfusion hcn

theorem trimRightP_length_le (p : Char → Bool) (u : GoStr) :
    (trimRightP p u).length ≤ u.length := by
  unfold trimRightP
  calc (u.reverse.dropWhile p).reverse.length
      = (u.reverse.dropWhile p).length := by simp
    _ ≤ u.reverse.length := (List.dropWhile_suffix p).sublist.length_le
    _ = u.length := by simp

theorem trimLeftP_length_le (p : Char → Bool) (u : GoStr) :
    (trimLeftP p u).length ≤ u.length := by
  unfold trimLeftP
  exact (List.dropWhile_suffix p).sublist.length_le

theorem trimmed_head_not_space {v : GoStr} (hv : trimSpace v = v) :
    ∀ c, v.head? = some c → goIsSpace c = false := by
  intro c hc
  by_contra hsp
  rw [Bool.not_eq_false] at hsp
  cases v with
  | nil => exact Option.noConfusion hc
  | cons a w =>
    injection hc with hc
    subst hc
    have h1 : trimLeftP goIsSpace (a :: w) = List.dropWhile goIsSpace w := by
      show List.dropWhile goIsSpace (a :: w) = List.dropWhile goIsSpace w
      rw [List.dropWhile_cons, hsp]
      simp
    have hlen : (trimSpace (a :: w)).length < (a :: w).length := by
      unfold trimSpace
      rw [h1]
      calc (trimRightP goIsSpace (w.dropWhile goIsSpace)).length
          ≤ (w.dropWhile goIsSpace).length := trimRightP_length_le _ _
        _ ≤ w.length := (List.dropWhile_suffix goIsSpace).sublist.length_le
        _ < (a :: w).length := by simp
    rw [hv] at hlen
    omega

theorem trimRightP_fix {l : GoStr}
    (hl : ∀ c, l.getLast? = some c → goIsSpace c = false) :
    trimRightP goIsSpace l = l := by
  unfold trimRightP
  cases l with
  | nil => rfl
  | cons a r =>
    cases hrev : (a :: r).reverse with
    | nil => exact absurd hrev (by simp)
    | cons d s =>
      have hd : goIsSpace d = false := hl d (by rw [← List.head?_reverse, hrev]; rfl)
      rw [dropWhile_head_false (show (d :: s).head? = some d from rfl) hd,
        ← hrev, List.reverse_reverse]

theorem trimmed_last_not_space {v : GoStr} (hv : trimSpace v = v) :
    ∀ c, v.getLast? = some c → goIsSpace c = false := by
  intro c hc
  by_contra hsp
  rw [Bool.not_eq_false] at hsp
  have hvne : v ≠ [] := by
    intro h
    rw [h] at hc
    exact Option.noConfusion hc
  have hsuf : (trimLeftP goIsSpace v).Sublist v := (List.dropWhile_suffix _).sublist
  have hune : trimLeftP goIsSpace v ≠ [] := by
    intro h
    have h2 : trimSpace v = [] := by
      unfold trimSpace
      rw [h]
      rfl
    rw [hv] at h2
    exact hvne h2
  obtain ⟨pre, hpre⟩ := (List.dropWhile_suffix (l := v) goIsSpace)
  have hulast : (trimLeftP goIsSpace v).getLast? = some c := by
    have : (pre ++ trimLeftP goIsSpace v).getLast? = some c := by
      rw [show pre ++ trimLeftP goIsSpace v = v from hpre]
      exact hc
    rwa [List.getLast?_append_of_ne_nil pre hune] at this
  cases hur : (trimLeftP goIsSpace v).reverse with
  | nil =>
    rw [List.reverse_eq_nil_iff] at hur
    exact hune hur
  | cons c2 w =>
    have hc2 : c2 = c := by
      have h3 := hulast
      rw [← List.head?_reverse, hur] at h3
      exact Option.some.inj h3
    subst hc2
    have hlen : (trimRightP goIsSpace (trimLeftP goIsSpace v)).length
        < (trimLeftP goIsSpace v).length := by
      unfold trimRightP
      rw [hur, List.dropWhile_cons, hsp]
      simp only [if_true]
      calc (List.dropWhile goIsSpace w).reverse.length
          = (List.dropWhile goIsSpace w).length := by simp
        _ ≤ w.length := (List.dropWhile_suffix goIsSpace).sublist.length_le
        _ < (trimLeftP goIsSpace v).length := by
            rw [← List.length_reverse (trimLeftP goIsSpace v), hur]
            simp
    have h4 : trimSpace v = trimRightP goIsSpace (trimLeftP goIsSpace v) := rfl
    rw [← h4, hv] at hlen
    have h5 := hsuf.length_le
    omega

theorem trimLeft_trimmed {t : GoStr} (htr : trimSpace t = t) :
    List.dropWhile goIsSpace t = t := by
  cases t with
  | nil => rfl
  | cons c w =>
    exact dropWhile_head_false (show (c :: w).head? = some c from rfl)
      (trimmed_head_not_space htr c rfl)

theorem trimRight_trimmed {t : GoStr} (htr : trimSpace t = t) :
    trimRightP goIsSpace t = t :=
  trimRightP_fix (trimmed_last_not_space htr)

theorem trimSpace_space_val {v : GoStr} (htr : trimSpace v = v) :
    trimSpace ((' ') :: v) = v := by
  unfold trimSpace
  have h1 : trimLeftP goIsSpace ((' ') :: v) = List.dropWhile goIsSpace v := by
    show List.dropWhile goIsSpace ((' ') :: v) = List.dropWhile goIsSpace v
    rw [List.dropWhile_cons, show goIsSpace (' ') = true from rfl]
    simp
  rw [h1, trimLeft_trimmed htr]
  exact trimRight_trimmed htr


/-! Shape of the marshalled entry lines. -/

theorem entryLines_ne_nil (k : GoStr) (v : FmVal) : entryLines k v ≠ [] := by
  cases v with
  | str s => cases s <;> simp [entryLines]
  | list l => cases l <;> simp [entryLines]

theorem safeVal_str_spec {v : GoStr} (h : safeVal (.str v) = true) (hne : v ≠ []) :
    trimSpace v = v ∧ (('\n') ∉ v) ∧
      ¬ (strStarts (("[").data) v = true ∧ v.getLast? = some (']')) := by
  cases v with
  | nil => exact absurd rfl hne
  | cons c cs =>
    unfold safeVal at h
    rw [Bool.and_eq_true, Bool.and_eq_true] at h
    obtain ⟨⟨h1, h2⟩, h3⟩ := h
    refine ⟨of_decide_eq_true h1, of_decide_eq_true h2, ?_⟩
    rintro ⟨ha, hb⟩
    rw [ha, decide_eq_true hb] at h3
    simp at h3

theorem safeVal_list_spec {items : List GoStr} (h : safeVal (.list items) = true) :
    ∀ t ∈ items, t ≠ [] ∧ trimSpace t = t ∧ (('\n') ∉ t) ∧ unquote t = t := by
  unfold safeVal at h
  intro t ht
  have h2 := List.all_eq_true.mp h t ht
  rw [Bool.and_eq_true, Bool.and_eq_true, Bool.and_eq_true] at h2
  obtain ⟨⟨⟨ha, hb⟩, hc⟩, hd⟩ := h2
  exact ⟨of_decide_eq_true ha, of_decide_eq_true hb, of_decide_eq_true hc,
    of_decide_eq_true hd⟩

theorem entryLines_ne_delim {k : GoStr} {v : FmVal} :
    ∀ l ∈ entryLines k v, l ≠ ("---").data := by
  have hcol : ∀ (r : GoStr), k ++ (':') :: r ≠ ("---").data := by
    intro r he
    have hm : (':') ∈ ("---").data := by
      rw [← he]
      exact List.mem_append_right _ (List.mem_cons_self _ _)
    exact absurd hm (by decide)
  cases v with
  | str s =>
    cases s with
    | nil =>
      intro l hl
      rw [show entryLines k (.str []) = [k ++ [(':')]] from rfl, List.mem_singleton] at hl
      subst hl
      exact hcol []
    | cons c cs =>
      intro l hl
      rw [show entryLines k (.str (c :: cs)) = [k ++ (": ").data ++ (c :: cs)] from rfl,
        List.mem_singleton] at hl
      subst hl
      rw [show k ++ (": ").data ++ (c :: cs) = k ++ (':') :: ((' ') :: c :: cs) from by
        rw [List.append_assoc]
        rfl]
      exact hcol _
  | list items =>
    cases items with
    | nil =>
      intro l hl
      rw [show entryLines k (.list []) = [k ++ (": []").data] from rfl,
        List.mem_singleton] at hl
      subst hl
      rw [show k ++ (": []").data
          = k ++ (':') :: ((' ') :: ('[') :: (']') :: []) from rfl]
      exact hcol _
    | cons t ts =>
      intro l hl
      rw [show entryLines k (.list (t :: ts))
          = (k ++ [(':')]) :: (t :: ts).map (fun t => ("    - ").data ++ t) from rfl] at hl
      rcases List.mem_cons.mp hl with h | h
      · subst h
        exact hcol []
      · obtain ⟨t2, ht2, hback⟩ := List.mem_map.mp h
        subst hback
        intro he
        have h2 : ((("    - ").data) ++ t2).head? = (("---").data).head? := by rw [he]
        rw [show ((("    - ").data) ++ t2).head? = some (' ') from rfl] at h2
        rw [show (("---").data).head? = some ('-') from rfl] at h2
        exact absurd (Option.some.inj h2) (by decide)

theorem entryLines_no_newline {k : GoStr} {v : FmVal} (hk : safeKey k = true)
    (hv : safeVal v = true) : ∀ l ∈ entryLines k v, ('\n') ∉ l := by
  obtain ⟨hk1, hk2, hk3⟩ := safeKey_spec hk
  have hknl : ('\n') ∉ k := fun hm => (hk2 _ hm).2.1 rfl
  cases v with
  | str s =>
    cases s with
    | nil =>
      intro l hl
      rw [show entryLines k (.str []) = [k ++ [(':')]] from rfl, List.mem_singleton] at hl
      subst hl
      intro hm
      rcases List.mem_append.mp hm with h | h
      · exact hknl h
      · rw [List.mem_singleton] at h
        exact absurd h (by decide)
    | cons c cs =>
      obtain ⟨_, hnl, _⟩ := safeVal_str_spec hv (by simp)
      intro l hl
      rw [show entryLines k (.str (c :: cs)) = [k ++ (": ").data ++ (c :: cs)] from rfl,
        List.mem_singleton] at hl
      subst hl
      intro hm
      rcases List.mem_append.mp hm with h | h
      · rcases List.mem_append.mp h with h2 | h2
        · exact hknl h2
        · exact absurd h2 (by decide)
      · exact hnl h
  | list items =>
    cases items with
    | nil =>
      intro l hl
      rw [show entryLines k (.list []) = [k ++ (": []").data] from rfl,
        List.mem_singleton] at hl
      subst hl
      intro hm
      rcases List.mem_append.mp hm with h | h
      · exact hknl h
      · exact absurd h (by decide)
    | cons t ts =>
      have hit := safeVal_list_spec hv
      intro l hl
      rw [show entryLines k (.list (t :: ts))
          = (k ++ [(':')]) :: (t :: ts).map (fun t => ("    - ").data ++ t) from rfl] at hl
      rcases List.mem_cons.mp hl with h | h
      · subst h
        intro hm
        rcases List.mem_append.mp hm with h2 | h2
        · exact hknl h2
        · rw [List.mem_singleton] at h2
          exact absurd h2 (by decide)
      · obtain ⟨t2, ht2, hback⟩ := List.mem_map.mp h
        subst hback
        intro hm
        rcases List.mem_append.mp hm with h2 | h2
        · exact absurd h2 (by decide)
        · exact (hit t2 ht2).2.2.1 h2

theorem trimSpace_itemline {t : GoStr} (ht : t ≠ []) (htr : trimSpace t = t) :
    trimSpace ((("    - ").data) ++ t) = ('-') :: (' ') :: t := by
  unfold trimSpace
  have hsp : ∀ u : GoStr, List.dropWhile goIsSpace ((' ') :: u)
      = List.dropWhile goIsSpace u := by
    intro u
    rw [List.dropWhile_cons, show goIsSpace (' ') = true from rfl]
    simp
  have h1 : trimLeftP goIsSpace ((("    - ").data) ++ t) = ('-') :: (' ') :: t := by
    show List.dropWhile goIsSpace
        ((' ') :: (' ') :: (' ') :: (' ') :: ('-') :: (' ') :: t) = ('-') :: (' ') :: t
    rw [hsp, hsp, hsp, hsp]
    rw [List.dropWhile_cons, show goIsSpace ('-') = false from rfl]
    simp
  rw [h1]
  apply trimRightP_fix
  intro c hc
  rw [show ('-') :: (' ') :: t = [('-'), (' ')] ++ t from rfl,
    List.getLast?_append_of_ne_nil _ ht] at hc
  exact trimmed_last_not_space htr c hc

theorem itemLine_is_dash {t : GoStr} (ht : t ≠ []) (htr : trimSpace t = t) :
    isDashItemLine ((("    - ").data) ++ t) = true := by
  unfold isDashItemLine
  rw [trimSpace_itemline ht htr]
  apply decide_eq_true
  exact ⟨by simp, rfl⟩

theorem itemOf_item {t : GoStr} (ht : t ≠ []) (htr : trimSpace t = t)
    (hq : unquote t = t) : itemOf ((("    - ").data) ++ t) = t := by
  unfold itemOf
  rw [trimSpace_itemline ht htr]
  rw [show dropPre ([('-')]) (('-') :: (' ') :: t) = (' ') :: t from by
    unfold dropPre
    rw [if_pos (show strStarts ([('-')]) (('-') :: (' ') :: t) = true from rfl)]
    rfl]
  rw [trimSpace_space_val htr]
  exact hq

theorem keyline_not_dash {k : GoStr} (r : GoStr) (hk : safeKey k = true)
    (hr : ∀ c, ((':') :: r).getLast? = some c → goIsSpace c = false) :
    isDashItemLine (k ++ (':') :: r) = false := by
  obtain ⟨hk1, hk2, hk3⟩ := safeKey_spec hk
  cases k with
  | nil => exact absurd rfl hk1
  | cons kc kr =>
    have hh : ∀ c, ((kc :: kr) ++ (':') :: r).head? = some c → goIsSpace c = false := by
      intro c hc
      injection hc with hc
      subst hc
      exact (hk2 _ (List.mem_cons_self _ _)).2.2
    have hl : ∀ c, ((kc :: kr) ++ (':') :: r).getLast? = some c → goIsSpace c = false := by
      intro c hc
      rw [show (kc :: kr) ++ (':') :: r = (kc :: kr) ++ ((':') :: r) from rfl,
        List.getLast?_append_of_ne_nil _ (List.cons_ne_nil _ _)] at hc
      exact hr c hc
    have htr := trimSpace_fix hh hl
    unfold isDashItemLine
    rw [htr]
    apply decide_eq_false
    rintro ⟨_, hs⟩
    have h2 := of_decide_eq_true hs
    have h3 : kc = ('-') := by
      have h4 := congrArg (fun l => l.head?) h2
      simpa using h4
    exact hk3 (by rw [show (kc :: kr).head? = some kc from rfl, h3])

theorem entryLines_head_not_dash {k : GoStr} {v : FmVal} (hk : safeKey k = true)
    (hv : safeVal v = true) :
    ∀ l, (entryLines k v).head? = some l → isDashItemLine l = false := by
  have hcolon : ∀ c, ((':') :: ([] : GoStr)).getLast? = some c → goIsSpace c = false := by
    intro c hc
    have h2 : (':') = c := Option.some.inj hc
    rw [← h2]
    rfl
  cases v with
  | str s =>
    cases s with
    | nil =>
      intro l hl
      injection hl with hl
      subst hl
      exact keyline_not_dash [] hk hcolon
    | cons c cs =>
      intro l hl
      injection hl with hl
      subst hl
      obtain ⟨htr, _, _⟩ := safeVal_str_spec hv (by simp)
      rw [show k ++ (": ").data ++ (c :: cs) = k ++ (':') :: ((' ') :: c :: cs) from by
        rw [List.append_assoc]
        rfl]
      apply keyline_not_dash _ hk
      intro c2 hc2
      rw [show (':') :: ((' ') :: c :: cs) = [(':'), (' ')] ++ (c :: cs) from rfl,
        List.getLast?_append_of_ne_nil _ (List.cons_ne_nil _ _)] at hc2
      exact trimmed_last_not_space htr c2 hc2
  | list items =>
    cases items with
    | nil =>
      intro l hl
      injection hl with hl
      subst hl
      rw [show k ++ (": []").data
          = k ++ (':') :: ((' ') :: ('[') :: (']') :: []) from rfl]
      apply keyline_not_dash _ hk
      intro c hc
      have h2 : (']') = c := Option.some.inj hc
      rw [← h2]
      rfl
    | cons t ts =>
      intro l hl
      injection hl with hl
      subst hl
      exact keyline_not_dash [] hk hcolon

theorem fmLines_head_not_dash (E : Fm)
    (hsafe : ∀ kv ∈ E, safeKey kv.1 = true ∧ safeVal kv.2 = true) :
    ∀ l, (fmLines E).head? = some l → isDashItemLine l = false := by
  cases E with
  | nil =>
    intro l hl
    rw [show fmLines [] = [] from rfl] at hl
    exact Option.noConfusion hl
  | cons kv E =>
    obtain ⟨k, v⟩ := kv
    intro l hl
    obtain ⟨hk, hv⟩ := hsafe (k, v) (List.mem_cons_self _ _)
    rw [show fmLines ((k, v) :: E) = entryLines k v ++ fmLines E from rfl] at hl
    cases hel : entryLines k v with
    | nil => exact absurd hel (entryLines_ne_nil k v)
    | cons l0 ls0 =>
      rw [hel] at hl
      simp only [List.cons_append, List.head?_cons] at hl
      injection hl with hl
      have h2 := entryLines_head_not_dash hk hv l0 (by rw [hel]; rfl)
      rw [← hl]
      exact h2

theorem foldr_items_eq (items : List GoStr) :
    items.foldr (fun t acc => ("    - ").data ++ t ++ ('\n') :: acc) []
      = (items.map (fun t => ((("    - ").data) ++ t) ++ [('\n')])).flatten := by
  induction items with
  | nil => rfl
  | cons t ts ih =>
    simp only [List.foldr_cons, List.map_cons, List.flatten_cons, ih]
    simp

theorem fmEntryStr_eq_lines (k : GoStr) (v : FmVal) :
    fmEntryStr k v = ((entryLines k v).map (fun l => l ++ [('\n')])).flatten := by
  cases v with
  | str s =>
    cases s with
    | nil => simp [fmEntryStr, entryLines]
    | cons c cs => simp [fmEntryStr, entryLines]
  | list l =>
    cases l with
    | nil => simp [fmEntryStr, entryLines]
    | cons t ts =>
      show k ++ [(':'), ('\n')] ++ (t :: ts).foldr
          (fun t acc => ("    - ").data ++ t ++ ('\n') :: acc) [] = _
      rw [foldr_items_eq]
      simp only [entryLines, List.map_cons, List.flatten_cons, List.map_map]
      simp [Function.comp_def, List.cons_append, List.append_assoc]

theorem marshal_eq_fold (d : Fm) :
    yamlMarshalModel d = ((sortedFm d).map (fun kv => fmEntryStr kv.1 kv.2)).flatten := by
  unfold yamlMarshalModel sortedFm
  suffices h : ∀ (L : List GoStr) (acc : GoStr),
      L.foldl (fun acc k => match lookupStr k d with
        | some v => acc ++ fmEntryStr k v
        | none => acc) acc
      = acc ++ ((L.filterMap fun k => (lookupStr k d).map fun v => (k, v)).map
          (fun kv => fmEntryStr kv.1 kv.2)).flatten by
    have h2 := h (sortStrings (d.map Prod.fst)) []
    simpa using h2
  intro L
  induction L with
  | nil => intro acc; simp
  | cons k L ih =>
    intro acc
    simp only [List.foldl_cons, List.filterMap_cons]
    cases hl : lookupStr k d with
    | none =>
      dsimp only
      exact ih acc
    | some v =>
      dsimp only
      rw [ih]
      simp [List.append_assoc]

theorem entriesText_eq (E : Fm) :
    (E.map (fun kv => fmEntryStr kv.1 kv.2)).flatten
      = ((fmLines E).map (fun l => l ++ [('\n')])).flatten := by
  induction E with
  | nil => rfl
  | cons kv E ih =>
    rw [show fmLines (kv :: E) = entryLines kv.1 kv.2 ++ fmLines E from rfl]
    simp only [List.map_cons, List.flatten_cons, List.map_append, List.flatten_append]
    rw [fmEntryStr_eq_lines, ih]

theorem splitNL_lines (L : List GoStr) (hL : ∀ l ∈ L, ('\n') ∉ l) (rest : GoStr) :
    splitNL (((L.map (fun l => l ++ [('\n')])).flatten) ++ rest) = L ++ splitNL rest := by
  induction L with
  | nil => simp
  | cons l L ih =>
    simp only [List.map_cons, List.flatten_cons, List.append_assoc]
    show splitNL (l ++ ('\n') :: (((L.map (fun l => l ++ [('\n')])).flatten) ++ rest))
        = l :: L ++ splitNL rest
    rw [splitNL_cons_line _ (hL l (List.mem_cons_self _ _))]
    rw [ih (fun x hx => hL x (List.mem_cons_of_mem _ hx))]
    rfl


/-! The modelled parser re-reads marshalled entry lines verbatim. -/

theorem colon_last_not_space :
    ∀ c, ((':') :: ([] : GoStr)).getLast? = some c → goIsSpace c = false := by
  intro c hc
  have h2 : (':') = c := Option.some.inj hc
  rw [← h2]
  rfl

theorem keyline_trim_fix {k : GoStr} (r : GoStr) (hk : safeKey k = true)
    (hr : ∀ c, ((':') :: r).getLast? = some c → goIsSpace c = false) :
    trimSpace (k ++ (':') :: r) = k ++ (':') :: r := by
  obtain ⟨hk1, hk2, hk3⟩ := safeKey_spec hk
  cases k with
  | nil => exact absurd rfl hk1
  | cons kc kr =>
    apply trimSpace_fix
    · intro c hc
      injection hc with hc
      subst hc
      exact (hk2 _ (List.mem_cons_self _ _)).2.2
    · intro c hc
      rw [show (kc :: kr) ++ (':') :: r = (kc :: kr) ++ ((':') :: r) from rfl,
        List.getLast?_append_of_ne_nil _ (List.cons_ne_nil _ _)] at hc
      exact hr c hc

theorem parseAux_entries :
    ∀ (E : Fm) (fuel : Nat) (acc : Fm),
      (∀ kv ∈ E, safeKey kv.1 = true ∧ safeVal kv.2 = true) →
      (E.map Prod.fst).Nodup →
      (∀ k2 ∈ E.map Prod.fst, lookupStr k2 acc = none) →
      (fmLines E).length < fuel →
      yamlLinesParseAux fuel (fmLines E) acc = .ok (acc ++ E) := by
  intro E
  induction E with
  | nil =>
    intro fuel acc _ _ _ _
    rw [show fmLines [] = [] from rfl, List.append_nil]
    cases fuel <;> rfl
  | cons kv E ih =>
    obtain ⟨k, v⟩ := kv
    intro fuel acc hsafe hnd hacc hfuel
    obtain ⟨hk, hv⟩ := hsafe (k, v) (List.mem_cons_self _ _)
    obtain ⟨hk1, hk2, hk3⟩ := safeKey_spec hk
    have hsafeE : ∀ kv ∈ E, safeKey kv.1 = true ∧ safeVal kv.2 = true :=
      fun kv hkv => hsafe kv (List.mem_cons_of_mem _ hkv)
    have hndE : (E.map Prod.fst).Nodup := (List.nodup_cons.mp hnd).2
    have hknotin : k ∉ E.map Prod.fst := by
      rw [List.map_cons] at hnd
      exact (List.nodup_cons.mp hnd).1
    have hktrim : trimSpace k = k := by
      apply trimSpace_fix
      · intro c hc
        cases k with
        | nil => exact Option.noConfusion hc
        | cons a b =>
          injection hc with hc
          subst hc
          exact (hk2 _ (List.mem_cons_self _ _)).2.2
      · intro c hc
        have h2 : c ∈ k := by
          rcases List.mem_getLast?_eq_getLast (show c ∈ k.getLast? from by rw [hc]; rfl)
            with ⟨hne, hcl⟩
          rw [hcl]
          exact List.getLast_mem hne
        exact (hk2 c h2).2.2
    have hkcolon : (':') ∉ k := fun hm => (hk2 _ hm).1 rfl
    have hacck : lookupStr k acc = none := hacc k (List.mem_cons_self _ _)
    have hfirstrest : ∀ l2, (fmLines E).head? = some l2 → isDashItemLine l2 = false :=
      fmLines_head_not_dash E hsafeE
    have haccE : ∀ val : FmVal, ∀ k2 ∈ E.map Prod.fst,
        lookupStr k2 (acc ++ [(k, val)]) = none := by
      intro val k2 hk2m
      have hne : ¬ (k = k2) := fun he => hknotin (he ▸ hk2m)
      rw [lookupStr_append, hacc k2 (List.mem_cons_of_mem _ hk2m), Option.none_or,
        lookupStr_cons, if_neg hne]
      rfl
    cases fuel with
    | zero => exact absurd hfuel (Nat.not_lt_zero _)
    | succ f =>
    cases v with
    | str s =>
      cases s with
      | nil =>
        rw [show fmLines ((k, FmVal.str []) :: E) = (k ++ (':') :: []) :: fmLines E
          from rfl]
        rw [yamlLinesParseAux]
        have htl := keyline_trim_fix [] hk colon_last_not_space
        rw [if_neg (show ¬ (trimSpace (k ++ (':') :: []) = []) from by
          rw [htl]; simp)]
        rw [splitColon_entry [] hkcolon]
        dsimp only
        rw [hktrim]
        rw [if_neg hk1]
        rw [hacck]
        simp only [Option.isSome_none, Bool.false_eq_true, if_false]
        rw [show trimSpace ([] : GoStr) = [] from rfl]
        rw [if_pos rfl]
        rw [takeWhile_head_false hfirstrest]
        rw [if_pos rfl]
        have hfl : (fmLines E).length < f := by
          have h2 : fmLines ((k, FmVal.str []) :: E)
              = (k ++ (':') :: []) :: fmLines E := rfl
          rw [h2] at hfuel
          simp only [List.length_cons] at hfuel
          omega
        rw [ih f (acc ++ [(k, FmVal.str [])]) hsafeE hndE (haccE _) hfl]
        rw [List.append_assoc, List.singleton_append]
      | cons c cs =>
        obtain ⟨htrv, hnlv, hbr⟩ := safeVal_str_spec hv (by simp)
        have hlast : ∀ c2, ((':') :: ((' ') :: c :: cs)).getLast? = some c2 →
            goIsSpace c2 = false := by
          intro c2 hc2
          rw [show (':') :: ((' ') :: c :: cs) = [(':'), (' ')] ++ (c :: cs) from rfl,
            List.getLast?_append_of_ne_nil _ (List.cons_ne_nil _ _)] at hc2
          exact trimmed_last_not_space htrv c2 hc2
        rw [show fmLines ((k, FmVal.str (c :: cs)) :: E)
            = (k ++ (':') :: ((' ') :: c :: cs)) :: fmLines E from by
          show (k ++ (": ").data ++ (c :: cs)) :: fmLines E = _
          rw [List.append_assoc]
          rfl]
        rw [yamlLinesParseAux]
        have htl := keyline_trim_fix ((' ') :: c :: cs) hk hlast
        rw [if_neg (show ¬ (trimSpace (k ++ (':') :: ((' ') :: c :: cs)) = []) from by
          rw [htl]; simp)]
        rw [splitColon_entry ((' ') :: c :: cs) hkcolon]
        dsimp only
        rw [hktrim]
        rw [if_neg hk1]
        rw [hacck]
        simp only [Option.isSome_none, Bool.false_eq_true, if_false]
        rw [trimSpace_space_val htrv]
        rw [if_neg (show ¬ ((c :: cs) = []) from by simp)]
        rw [if_neg hbr]
        have hfl : (fmLines E).length < f := by
          have h2 : fmLines ((k, FmVal.str (c :: cs)) :: E)
              = (k ++ (": ").data ++ (c :: cs)) :: fmLines E := rfl
          rw [h2] at hfuel
          simp only [List.length_cons] at hfuel
          omega
        rw [ih f (acc ++ [(k, FmVal.str (c :: cs))]) hsafeE hndE (haccE _) hfl]
        rw [List.append_assoc, List.singleton_append]
    | list items =>
      cases items with
      | nil =>
        have hlast : ∀ c2,
            ((':') :: ((' ') :: ('[') :: (']') :: [])).getLast? = some c2 →
            goIsSpace c2 = false := by
          intro c2 hc2
          have h2 : (']') = c2 := Option.some.inj hc2
          rw [← h2]
          rfl
        rw [show fmLines ((k, FmVal.list []) :: E)
            = (k ++ (':') :: ((' ') :: ('[') :: (']') :: [])) :: fmLines E from rfl]
        rw [yamlLinesParseAux]
        have htl := keyline_trim_fix ((' ') :: ('[') :: (']') :: []) hk hlast
        rw [if_neg (show
            ¬ (trimSpace (k ++ (':') :: ((' ') :: ('[') :: (']') :: [])) = []) from by
          rw [htl]; simp)]
        rw [splitColon_entry ((' ') :: ('[') :: (']') :: []) hkcolon]
        dsimp only
        rw [hktrim]
        rw [if_neg hk1]
        rw [hacck]
        simp only [Option.isSome_none, Bool.false_eq_true, if_false]
        rw [show trimSpace ((' ') :: ('[') :: (']') :: []) = ('[') :: (']') :: []
          from rfl]
        rw [if_neg (show ¬ ((('[') :: (']') :: []) = ([] : GoStr)) from by simp)]
        rw [if_pos (show strStarts ([('[')]) (('[') :: (']') :: []) = true
            ∧ (('[') :: (']') :: ([] : GoStr)).getLast? = some (']') from ⟨rfl, rfl⟩)]
        rw [show trimSpace (((('[') :: (']') :: ([] : GoStr)).drop 1).dropLast) = []
          from rfl]
        rw [if_pos rfl]
        have hfl : (fmLines E).length < f := by
          have h2 : fmLines ((k, FmVal.list []) :: E)
              = (k ++ (": []").data) :: fmLines E := rfl
          rw [h2] at hfuel
          simp only [List.length_cons] at hfuel
          omega
        rw [ih f (acc ++ [(k, FmVal.list [])]) hsafeE hndE (haccE _) hfl]
        rw [List.append_assoc, List.singleton_append]
      | cons t ts =>
        have hit := safeVal_list_spec hv
        have hdashall : ∀ l2 ∈ (t :: ts).map (fun t => ("    - ").data ++ t),
            isDashItemLine l2 = true := by
          intro l2 hl2
          obtain ⟨t2, ht2, hback⟩ := List.mem_map.mp hl2
          subst hback
          obtain ⟨hne, htr, _, _⟩ := hit t2 ht2
          exact itemLine_is_dash hne htr
        rw [show fmLines ((k, FmVal.list (t :: ts)) :: E)
            = (k ++ (':') :: []) ::
              ((t :: ts).map (fun t => ("    - ").data ++ t) ++ fmLines E) from rfl]
        rw [yamlLinesParseAux]
        have htl := keyline_trim_fix [] hk colon_last_not_space
        rw [if_neg (show ¬ (trimSpace (k ++ (':') :: []) = []) from by
          rw [htl]; simp)]
        rw [splitColon_entry [] hkcolon]
        dsimp only
        rw [hktrim]
        rw [if_neg hk1]
        rw [hacck]
        simp only [Option.isSome_none, Bool.false_eq_true, if_false]
        rw [show trimSpace ([] : GoStr) = [] from rfl]
        rw [if_pos rfl]
        rw [takeWhile_append_all _ _ hdashall]
        rw [takeWhile_head_false hfirstrest, List.append_nil]
        rw [if_neg (show ¬ (((t :: ts).map (fun t => ("    - ").data ++ t)) = []) from
          by simp)]
        have hitems : (((t :: ts).map (fun t => ("    - ").data ++ t)).map itemOf)
            = t :: ts := by
          rw [List.map_map]
          have h2 : ∀ x ∈ t :: ts, (itemOf ∘ fun t => ("    - ").data ++ t) x = x := by
            intro x hx
            obtain ⟨hne, htr, _, hq⟩ := hit x hx
            exact itemOf_item hne htr hq
          rw [List.map_congr_left h2, List.map_id']
        rw [hitems]
        rw [show (((t :: ts).map (fun t => ("    - ").data ++ t) ++ fmLines E).drop
            ((t :: ts).map (fun t => ("    - ").data ++ t)).length) = fmLines E from
          List.drop_left _ _]
        have hfl : (fmLines E).length < f := by
          have h2 : fmLines ((k, FmVal.list (t :: ts)) :: E)
              = (k ++ (':') :: []) ::
                ((t :: ts).map (fun t => ("    - ").data ++ t) ++ fmLines E) := rfl
          rw [h2] at hfuel
          simp only [List.length_cons, List.length_append, List.length_map] at hfuel
          omega
        rw [ih f (acc ++ [(k, FmVal.list (t :: ts))]) hsafeE hndE (haccE _) hfl]
        rw [List.append_assoc, List.singleton_append]


/-! The frontmatter serializer round-trips through the parser. -/

theorem fmLines_no_newline (E : Fm)
    (hsafeE : ∀ kv ∈ E, safeKey kv.1 = true ∧ safeVal kv.2 = true) :
    ∀ l ∈ fmLines E, ('\n') ∉ l := by
  intro l hl
  unfold fmLines at hl
  obtain ⟨L, hL, hlL⟩ := List.mem_flatten.mp hl
  obtain ⟨kv, hkv, hback⟩ := List.mem_map.mp hL
  subst hback
  obtain ⟨hk, hv⟩ := hsafeE kv hkv
  exact entryLines_no_newline hk hv l hlL

theorem fmLines_ne_delim (E : Fm) : ∀ l ∈ fmLines E, l ≠ ("---").data := by
  intro l hl
  unfold fmLines at hl
  obtain ⟨L, hL, hlL⟩ := List.mem_flatten.mp hl
  obtain ⟨kv, hkv, hback⟩ := List.mem_map.mp hL
  subst hback
  exact entryLines_ne_delim l hlL

theorem fmLines_ne_nil {E : Fm} (hE : E ≠ []) : fmLines E ≠ [] := by
  cases E with
  | nil => exact absurd rfl hE
  | cons kv E2 =>
    rw [show fmLines (kv :: E2) = entryLines kv.1 kv.2 ++ fmLines E2 from rfl]
    intro h
    rcases List.append_eq_nil.mp h with ⟨h1, _⟩
    exact entryLines_ne_nil _ _ h1

theorem entryLines_head (k : GoStr) (v : FmVal) :
    ∃ r, (entryLines k v).head? = some (k ++ (':') :: r) := by
  cases v with
  | str s =>
    cases s with
    | nil => exact ⟨[], rfl⟩
    | cons c cs =>
      refine ⟨(' ') :: c :: cs, ?_⟩
      show some (k ++ (": ").data ++ (c :: cs)) = some (k ++ (':') :: ((' ') :: c :: cs))
      rw [List.append_assoc]
      rfl
  | list l =>
    cases l with
    | nil =>
      refine ⟨(' ') :: ('[') :: (']') :: [], ?_⟩
      rfl
    | cons t ts => exact ⟨[], rfl⟩

theorem joinNL_fmLines_ne_nil {E : Fm} (hE : E ≠ [])
    (hsafeE : ∀ kv ∈ E, safeKey kv.1 = true ∧ safeVal kv.2 = true) :
    joinNL (fmLines E) ≠ [] := by
  cases E with
  | nil => exact absurd rfl hE
  | cons kv E2 =>
    obtain ⟨k, v⟩ := kv
    obtain ⟨hk, hv⟩ := hsafeE (k, v) (List.mem_cons_self _ _)
    obtain ⟨hk1, _, _⟩ := safeKey_spec hk
    obtain ⟨r, hr⟩ := entryLines_head k v
    cases hel : entryLines k v with
    | nil => exact absurd hel (entryLines_ne_nil k v)
    | cons l0 ls0 =>
      rw [show fmLines ((k, v) :: E2) = entryLines k v ++ fmLines E2 from rfl, hel]
      rw [List.cons_append]
      have hl0 : l0 ≠ [] := by
        rw [hel] at hr
        simp only [List.head?_cons] at hr
        injection hr with hr
        rw [hr]
        cases k with
        | nil => exact absurd rfl hk1
        | cons a b => simp
      cases hx : ls0 ++ fmLines E2 with
      | nil => exact hl0
      | cons y ys =>
        rw [joinNL_cons_cons]
        intro hcontra
        rcases List.append_eq_nil.mp hcontra with ⟨h1, _⟩
        exact hl0 h1

theorem parseFrontmatter_roundtrip (d : Fm) (body : GoStr)
    (hsafe : fmSafe d = true) (hne : d ≠ []) :
    parseFrontmatter (serializeFrontmatter d ++ body) = .ok (sortedFm d, body) := by
  have hsafeE : ∀ kv ∈ sortedFm d, safeKey kv.1 = true ∧ safeVal kv.2 = true := by
    intro kv hkv
    obtain ⟨k, v⟩ := kv
    exact fmSafe_mem hsafe (lookupStr_mem (mem_sortedFm hkv))
  have hndE : ((sortedFm d).map Prod.fst).Nodup := by
    rw [sortedFm_keys]
    exact sortStrings_nodup (fmSafe_nodup hsafe)
  have hEne : sortedFm d ≠ [] := by
    intro hE
    cases d with
    | nil => exact hne rfl
    | cons kv d2 =>
      have hk : kv.1 ∈ (sortedFm (kv :: d2)).map Prod.fst := by
        rw [sortedFm_keys, mem_sortStrings]
        exact List.mem_map_of_mem Prod.fst (List.mem_cons_self _ _)
      rw [hE] at hk
      exact absurd hk (List.not_mem_nil _)
  have hnlE := fmLines_no_newline (sortedFm d) hsafeE
  have hcontent : serializeFrontmatter d ++ body
      = ("---").data ++ ('\n') ::
        ((((fmLines (sortedFm d)).map (fun l => l ++ [('\n')])).flatten)
          ++ (("---").data ++ ('\n') :: body)) := by
    unfold serializeFrontmatter
    rw [if_neg hne]
    rw [marshal_eq_fold, entriesText_eq]
    simp [List.append_assoc]
  have hsplit : splitNL (serializeFrontmatter d ++ body)
      = ("---").data :: ((fmLines (sortedFm d)) ++ ("---").data :: splitNL body) := by
    rw [hcontent]
    rw [splitNL_cons_line _ (by decide)]
    rw [splitNL_lines _ hnlE _]
    rw [splitNL_cons_line _ (by decide)]
  unfold parseFrontmatter
  dsimp only
  rw [hsplit]
  have hflen : 1 ≤ (fmLines (sortedFm d)).length :=
    List.length_pos.mpr (fmLines_ne_nil hEne)
  have hblen : 1 ≤ (splitNL body).length := List.length_pos.mpr (splitNL_ne_nil body)
  rw [if_neg (show ¬ (((("---").data) :: ((fmLines (sortedFm d))
      ++ ("---").data :: splitNL body)).length < 3 ∨
      ((("---").data) :: ((fmLines (sortedFm d))
        ++ ("---").data :: splitNL body)).head? ≠ some (("---").data)) from by
    rintro (h | h)
    · simp only [List.length_cons, List.length_append] at h
      omega
    · exact h rfl)]
  rw [show ((("---").data) :: ((fmLines (sortedFm d))
      ++ ("---").data :: splitNL body)).drop 1
      = (fmLines (sortedFm d)) ++ ("---").data :: splitNL body from rfl]
  rw [findIdx?_append_first (fmLines (sortedFm d)) (("---").data) (splitNL body)
    (fun x hx => decide_eq_false (fmLines_ne_delim (sortedFm d) x hx))
    (decide_eq_true rfl) 0]
  dsimp only
  rw [Nat.zero_add]
  rw [List.take_left]
  rw [show ((("---").data) :: ((fmLines (sortedFm d))
      ++ ("---").data :: splitNL body)).drop ((fmLines (sortedFm d)).length + 2)
      = splitNL body from by
    rw [List.drop_succ_cons, List.drop_append, List.drop_succ_cons, List.drop_zero]]
  rw [joinNL_splitNL]
  rw [if_neg (joinNL_fmLines_ne_nil hEne hsafeE)]
  rw [show yamlUnmarshalModel (joinNL (fmLines (sortedFm d)))
      = .ok (sortedFm d) from by
    unfold yamlUnmarshalModel
    rw [splitNL_joinNL _ (fmLines_ne_nil hEne) hnlE]
    rw [parseAux_entries (sortedFm d) ((fmLines (sortedFm d)).length + 1) []
      hsafeE hndE (fun k2 _ => rfl) (by omega)]
    rw [List.nil_append]]


/-! Add-phase characterizations and the idempotence of adds. -/

theorem addPhase_nop (adds : List GoStr) :
    ∀ st : List GoStr × List GoStr × List GoStr,
      (∀ a ∈ adds, lowerStr a ∈ st.2.1) → adds.foldl addPhaseStep st = st := by
  induction adds with
  | nil => intro st _; rfl
  | cons a rest ih =>
    intro st h
    simp only [List.foldl_cons]
    rw [show addPhaseStep st a = st from by
      unfold addPhaseStep
      rw [if_pos (h a (List.mem_cons_self _ _))]]
    exact ih st (fun x hx => h x (List.mem_cons_of_mem _ hx))

theorem addPhase_22_extend (adds : List GoStr) :
    ∀ st : List GoStr × List GoStr × List GoStr,
      ∃ suf, (adds.foldl addPhaseStep st).2.2 = st.2.2 ++ suf := by
  induction adds with
  | nil => intro st; exact ⟨[], by simp⟩
  | cons a rest ih =>
    intro st
    simp only [List.foldl_cons]
    by_cases hmem : lowerStr a ∈ st.2.1
    · rw [show addPhaseStep st a = st from by
        unfold addPhaseStep
        rw [if_pos hmem]]
      exact ih st
    · obtain ⟨suf, hsuf⟩ := ih (addPhaseStep st a)
      have hstep : (addPhaseStep st a).2.2 = st.2.2 ++ [a] := by
        unfold addPhaseStep
        rw [if_neg hmem]
      rw [hstep] at hsuf
      exact ⟨[a] ++ suf, by rw [hsuf, List.append_assoc]⟩

theorem addPhase_all_in (adds : List GoStr) :
    ∀ st, (adds.foldl addPhaseStep st).2.2 = st.2.2 →
      ∀ a ∈ adds, lowerStr a ∈ st.2.1 := by
  induction adds with
  | nil => intro st _ a ha; exact absurd ha (List.not_mem_nil a)
  | cons b rest ih =>
    intro st hfix a ha
    by_cases hmem : lowerStr b ∈ st.2.1
    · have hstep : addPhaseStep st b = st := by
        unfold addPhaseStep
        rw [if_pos hmem]
      rcases List.mem_cons.mp ha with h1 | h1
      · subst h1
        exact hmem
      · have hfix2 : (rest.foldl addPhaseStep st).2.2 = st.2.2 := by
          have h2 := hfix
          rw [List.foldl_cons, hstep] at h2
          exact h2
        exact ih st hfix2 a h1
    · exfalso
      have hstep : (addPhaseStep st b).2.2 = st.2.2 ++ [b] := by
        unfold addPhaseStep
        rw [if_neg hmem]
      obtain ⟨suf, hsuf⟩ := addPhase_22_extend rest (addPhaseStep st b)
      rw [List.foldl_cons] at hfix
      rw [hsuf, hstep] at hfix
      have h2 := congrArg List.length hfix
      simp at h2

theorem addPhase_1_sub (adds : List GoStr) :
    ∀ st (x : GoStr), x ∈ (adds.foldl addPhaseStep st).1 → x ∈ st.1 ∨ x ∈ adds := by
  induction adds with
  | nil => intro st x hx; exact .inl hx
  | cons a rest ih =>
    intro st x hx
    simp only [List.foldl_cons] at hx
    rcases ih _ x hx with h1 | h1
    · unfold addPhaseStep at h1
      by_cases hmem : lowerStr a ∈ st.2.1
      · rw [if_pos hmem] at h1
        exact .inl h1
      · rw [if_neg hmem] at h1
        dsimp only at h1
        rcases List.mem_append.mp h1 with h2 | h2
        · exact .inl h2
        · rw [List.mem_singleton] at h2
          subst h2
          exact .inr (List.mem_cons_self _ _)
    · exact .inr (List.mem_cons_of_mem _ h1)

theorem updateFrontmatterTags_nop (d : Fm) (adds : List GoStr)
    (h : ∀ a ∈ adds, lowerStr a ∈ (currentTagsOf d).map lowerStr) :
    (updateFrontmatterTags d adds []).2.1 = [] ∧
    (updateFrontmatterTags d adds []).2.2 = [] := by
  unfold updateFrontmatterTags
  dsimp only
  rw [addPhase_nop adds (currentTagsOf d, (currentTagsOf d).map lowerStr, []) h]
  rw [removePhase_empty]
  exact ⟨rfl, rfl⟩

theorem processFile_nop (root : GoStr) (RA : List GoStr) (r : TagUpdateResult) (f : FS)
    (p : GoStr) (d : Fm) (b : GoStr)
    (hmig : detectTopOfFileHashtags b = [])
    (h : ∀ a ∈ RA.map normalizeTag, lowerStr a ∈ (currentTagsOf d).map lowerStr) :
    processFile root RA [] false r f p d b = (r, f) := by
  unfold processFile
  dsimp only
  rw [hmig]
  rw [List.append_nil, List.map_nil]
  obtain ⟨h1, h2⟩ := updateFrontmatterTags_nop d (RA.map normalizeTag) h
  rw [h1, h2]
  rfl

theorem processFile_dowrite (root : GoStr) (RA : List GoStr) (r : TagUpdateResult)
    (fs : FS) (p : GoStr) (d : Fm) (b : GoStr)
    (hmig : detectTopOfFileHashtags b = [])
    (hw : goJoin root (goClean p) ∉ fs.unwritable)
    (hadd : (updateFrontmatterTags d (RA.map normalizeTag) []).2.1 ≠ []) :
    ∃ r1, processFile root RA [] false r fs p d b
      = (r1, ⟨setStr (goJoin root (goClean p))
          (serializeFrontmatter (updateFrontmatterTags d (RA.map normalizeTag) []).1 ++ b)
          fs.files, fs.unwritable⟩) := by
  unfold processFile
  dsimp only
  rw [hmig]
  rw [List.append_nil, List.map_nil]
  have hf : ¬ (([] : List GoStr) ≠ []) := fun hc => hc rfl
  rw [if_neg hf]
  rw [if_neg hf]
  rw [if_pos (Or.inl hadd)]
  rw [if_pos (show (([] : List GoStr) ≠ []) ∨
      ((updateFrontmatterTags d (RA.map normalizeTag) []).2.1 ≠ [] ∨
       (updateFrontmatterTags d (RA.map normalizeTag) []).2.2 ≠ []) from
    Or.inr (Or.inl hadd))]
  rw [if_neg (show ¬ ((false : Bool) = true) from Bool.false_ne_true)]
  rw [show removeHashtagsFromBody b [] = b from rfl]
  rw [show writeFS fs (goJoin root (goClean p))
      (serializeFrontmatter (updateFrontmatterTags d (RA.map normalizeTag) []).1 ++ b)
      = .ok ⟨setStr (goJoin root (goClean p))
          (serializeFrontmatter (updateFrontmatterTags d (RA.map normalizeTag) []).1 ++ b)
          fs.files, fs.unwritable⟩ from by
    unfold writeFS
    rw [if_neg hw]]
  exact ⟨_, rfl⟩


theorem updateFileStep_clean (root : GoStr) (RA : List GoStr)
    (st : TagUpdateResult × FS) (p : GoStr) (d : Fm) (c b : GoStr)
    (hrel : goIsAbs (goClean p) = false)
    (hdd : goContains (goClean p) (("..").data) = false)
    (hvp : validatePath (goJoin root (goClean p)) = .ok ())
    (hread : readFS st.2 (goJoin root (goClean p)) = some c)
    (hparse : parseFrontmatter c = .ok (d, b)) :
    updateFileStep root RA [] false st p
      = processFile root RA [] false st.1 st.2 p d b := by
  obtain ⟨r, f⟩ := st
  unfold updateFileStep
  dsimp only
  rw [if_neg (show ¬ (goIsAbs (goClean p) = true ∨
      goContains (goClean p) (("..").data) = true) from by
    rintro (h | h)
    · rw [hrel] at h
      exact Bool.noConfusion h
    · rw [hdd] at h
      exact Bool.noConfusion h)]
  rw [hvp, hread]
  dsimp only
  rw [hparse]

theorem resolveTagConflicts_add_only (A : List GoStr) (hA0 : A ≠ []) :
    resolveTagConflicts A [] = .ok (sortStrings (A.map normalizeTag), []) := by
  unfold resolveTagConflicts
  dsimp only
  simp only [List.map_nil]
  have hfa : ∀ l : List GoStr,
      (l.filter fun a => !(([] : List GoStr).any fun r => foldEq a r)) = l :=
    fun l => List.filter_eq_self.mpr fun a _ => rfl
  rw [hfa]
  rw [show (([] : List GoStr).filter fun r =>
      !((A.map normalizeTag).any fun a => foldEq r a)) = [] from rfl]
  rw [if_neg (show ¬ (A.map normalizeTag = [] ∧ ([] : List GoStr) = []) from by
    rintro ⟨h1, _⟩
    exact hA0 (List.map_eq_nil_iff.mp h1))]
  rfl

theorem updateTags_single_step (A : List GoStr) (root p : GoStr) (fs : FS)
    (RA : List GoStr)
    (hv : validatePath root = .ok ())
    (hres : (if A ≠ [] ∨ ([] : List GoStr) ≠ [] then resolveTagConflicts A []
             else .ok ([], [])) = .ok (RA, [])) :
    updateTags A [] root [p] fs false
      = (.ok (updateFileStep root RA [] false (emptyUpd, fs) p).1,
         (updateFileStep root RA [] false (emptyUpd, fs) p).2) := by
  unfold updateTags
  rw [hv]
  rw [hres]
  dsimp only
  simp only [List.foldl_cons, List.foldl_nil]

theorem tagChar_not_quote {c : Char} (h : isTagChar c = true) : isQuoteChar c = false := by
  cases hq : isQuoteChar c with
  | false => rfl
  | true =>
    have h2 := of_decide_eq_true hq
    rcases h2 with h2 | h2 <;> (subst h2; exact absurd h (by decide))

theorem normalizeTag_fix {t : GoStr} (h : frontmatterSafeTag t = true) :
    normalizeTag t = t := by
  unfold frontmatterSafeTag at h
  rw [Bool.and_eq_true] at h
  obtain ⟨h1, hall⟩ := h
  have hne := of_decide_eq_true h1
  cases t with
  | nil => exact absurd rfl hne
  | cons c cs =>
    unfold normalizeTag
    rw [trimSpace_eq_self (fun x hx => tagChar_not_space (List.all_eq_true.mp hall x hx))]
    unfold dropPre
    rw [strStarts_hash_false cs (List.all_eq_true.mp hall c (List.mem_cons_self _ _))]
    simp

theorem safeItem_of_tag {t : GoStr} (h : frontmatterSafeTag t = true) :
    t ≠ [] ∧ trimSpace t = t ∧ (('\n') ∉ t) ∧ unquote t = t := by
  unfold frontmatterSafeTag at h
  rw [Bool.and_eq_true] at h
  obtain ⟨h1, hall⟩ := h
  have hne := of_decide_eq_true h1
  have htr : trimSpace t = t :=
    trimSpace_eq_self (fun x hx => tagChar_not_space (List.all_eq_true.mp hall x hx))
  refine ⟨hne, htr, ?_, ?_⟩
  · intro hm
    have h2 := List.all_eq_true.mp hall _ hm
    exact absurd h2 (by decide)
  · cases t with
    | nil => rfl
    | cons c cs =>
      have hq : ¬ (isQuoteChar c = true ∧ cs.getLast? = some c) := by
        rintro ⟨hqq, _⟩
        rw [tagChar_not_quote
          (List.all_eq_true.mp hall c (List.mem_cons_self _ _))] at hqq
        exact Bool.noConfusion hqq
      show (if isQuoteChar c ∧ cs.getLast? = some c then cs.dropLast else c :: cs)
        = c :: cs
      exact if_neg hq

theorem currentTagsOf_safe {d : Fm} (hsafe : fmSafe d = true) :
    ∀ t ∈ currentTagsOf d, t ≠ [] ∧ trimSpace t = t ∧ (('\n') ∉ t) ∧ unquote t = t := by
  intro t ht
  unfold currentTagsOf at ht
  cases hl : lookupStr (("tags").data) d with
  | none =>
    rw [hl] at ht
    exact absurd ht (List.not_mem_nil t)
  | some v =>
    rw [hl] at ht
    cases v with
    | str s => exact absurd ht (List.not_mem_nil t)
    | list items =>
      dsimp only at ht
      obtain ⟨t0, ht0, hback⟩ := List.mem_map.mp ht
      have hsv := (fmSafe_mem hsafe (lookupStr_mem hl)).2
      obtain ⟨hne0, htr0, hnl0, hq0⟩ := safeVal_list_spec hsv t0 ht0
      subst hback
      rw [htr0]
      exact ⟨hne0, htr0, hnl0, hq0⟩

theorem fmSafe_setTags {d : Fm} (hsafe : fmSafe d = true) {items : List GoStr}
    (hitems : ∀ t ∈ items, t ≠ [] ∧ trimSpace t = t ∧ (('\n') ∉ t) ∧ unquote t = t) :
    fmSafe (setStr (("tags").data) (.list items) d) = true := by
  unfold fmSafe
  rw [Bool.and_eq_true]
  constructor
  · exact decide_eq_true (setStr_nodup _ (fmSafe_nodup hsafe))
  · rw [List.all_eq_true]
    intro kv hkv
    rcases mem_setStr hkv with h1 | h1
    · subst h1
      rw [Bool.and_eq_true]
      refine ⟨?_, ?_⟩
      · show safeKey (("tags").data) = true
        decide
      show safeVal (.list items) = true
      unfold safeVal
      rw [List.all_eq_true]
      intro t ht
      obtain ⟨ha, hb, hc, hd⟩ := hitems t ht
      rw [Bool.and_eq_true, Bool.and_eq_true, Bool.and_eq_true]
      exact ⟨⟨⟨decide_eq_true ha, decide_eq_true hb⟩, decide_eq_true hc⟩,
        decide_eq_true hd⟩
    · obtain ⟨k2, v2⟩ := kv
      obtain ⟨ha, hb⟩ := fmSafe_mem hsafe h1
      rw [Bool.and_eq_true]
      exact ⟨ha, hb⟩

/-- C8: invoking `UpdateTags` with the same add set twice in a row produces a
second run that adds nothing — its result's per-tag added counts are empty —
and leaves the file system exactly as the first run left it, because an add
is skipped whenever the tag is already present case-insensitively in the
file's current tag list.  Scope: a single readable, writable file whose body
carries no top-of-file hashtags, metadata the modelled YAML codec
round-trips, and add tags that normalization leaves trimmed words over the
tag alphabet. -/
theorem c8_idempotent_adds (A : List GoStr) (root p : GoStr) (fs : FS) (d : Fm)
    (content body0 : GoStr)
    (hv : validatePath root = .ok ())
    (hrel : goIsAbs (goClean p) = false)
    (hdd : goContains (goClean p) (("..").data) = false)
    (hvp : validatePath (goJoin root (goClean p)) = .ok ())
    (hread : readFS fs (goJoin root (goClean p)) = some content)
    (hparse : parseFrontmatter content = .ok (d, body0))
    (hmig : detectTopOfFileHashtags body0 = [])
    (hsafe : fmSafe d = true)
    (hA : ∀ a ∈ A, frontmatterSafeTag (normalizeTag a) = true)
    (hw : goJoin root (goClean p) ∉ fs.unwritable) :
    ∃ r1 fs1 r2, updateTags A [] root [p] fs false = (.ok r1, fs1) ∧
      updateTags A [] root [p] fs1 false = (.ok r2, fs1) ∧
      r2.tagsAdded = [] := by
  have hresolve : ∃ RA : List GoStr,
      (if A ≠ [] ∨ ([] : List GoStr) ≠ [] then resolveTagConflicts A []
       else .ok ([], [])) = .ok (RA, []) ∧
      ∀ x ∈ RA, frontmatterSafeTag x = true := by
    by_cases hA0 : A = []
    · subst hA0
      refine ⟨[], ?_, fun x hx => absurd hx (List.not_mem_nil x)⟩
      rw [if_neg (show ¬ (([] : List GoStr) ≠ [] ∨ ([] : List GoStr) ≠ []) from by
        rintro (h | h) <;> exact h rfl)]
    · refine ⟨sortStrings (A.map normalizeTag), ?_, ?_⟩
      · rw [if_pos (Or.inl hA0)]
        exact resolveTagConflicts_add_only A hA0
      · intro x hx
        rw [mem_sortStrings] at hx
        obtain ⟨a, ha, hback⟩ := List.mem_map.mp hx
        subst hback
        exact hA a ha
  obtain ⟨RA, hres, hRAsafe⟩ := hresolve
  have hRAmap : RA.map normalizeTag = RA := by
    have h2 : ∀ x ∈ RA, normalizeTag x = x := fun x hx => normalizeTag_fix (hRAsafe x hx)
    rw [List.map_congr_left h2, List.map_id']
  by_cases hadd : (updateFrontmatterTags d (RA.map normalizeTag) []).2.1 = []
  · -- no tag is new: neither call changes anything
    have hin : ∀ a ∈ RA.map normalizeTag,
        lowerStr a ∈ (currentTagsOf d).map lowerStr :=
      addPhase_all_in (RA.map normalizeTag)
        (currentTagsOf d, (currentTagsOf d).map lowerStr, []) hadd
    have hstep1 : updateFileStep root RA [] false (emptyUpd, fs) p = (emptyUpd, fs) := by
      rw [updateFileStep_clean root RA (emptyUpd, fs) p d content body0 hrel hdd hvp
        hread hparse]
      exact processFile_nop root RA emptyUpd fs p d body0 hmig hin
    refine ⟨emptyUpd, fs, emptyUpd, ?_, ?_, rfl⟩
    · rw [updateTags_single_step A root p fs RA hv hres, hstep1]
    · rw [updateTags_single_step A root p fs RA hv hres, hstep1]
  · -- some tag is new: the first call writes, the second is a no-op
    obtain ⟨r1, hpw⟩ := processFile_dowrite root RA emptyUpd fs p d body0 hmig hw hadd
    have hstep1 : updateFileStep root RA [] false (emptyUpd, fs) p
        = (r1, ⟨setStr (goJoin root (goClean p))
            (serializeFrontmatter
              (updateFrontmatterTags d (RA.map normalizeTag) []).1 ++ body0)
            fs.files, fs.unwritable⟩) := by
      rw [updateFileStep_clean root RA (emptyUpd, fs) p d content body0 hrel hdd hvp
        hread hparse]
      exact hpw
    have hdata : (updateFrontmatterTags d (RA.map normalizeTag) []).1
        = setStr (("tags").data)
            (.list (sortStrings ((RA.map normalizeTag).foldl addPhaseStep
              (currentTagsOf d, (currentTagsOf d).map lowerStr, [])).1)) d := by
      unfold updateFrontmatterTags
      dsimp only
      rw [removePhase_empty]
      rw [if_pos (Or.inr (show ((RA.map normalizeTag).foldl addPhaseStep
          (currentTagsOf d, (currentTagsOf d).map lowerStr, [])).2.2 ≠ [] from hadd))]
      rw [List.nil_append]
    have hstA : ∀ t ∈ sortStrings ((RA.map normalizeTag).foldl addPhaseStep
        (currentTagsOf d, (currentTagsOf d).map lowerStr, [])).1,
        t ≠ [] ∧ trimSpace t = t ∧ (('\n') ∉ t) ∧ unquote t = t := by
      intro t ht
      rw [mem_sortStrings] at ht
      rcases addPhase_1_sub (RA.map normalizeTag) _ t ht with h1 | h1
      · exact currentTagsOf_safe hsafe t h1
      · rw [hRAmap] at h1
        exact safeItem_of_tag (hRAsafe t h1)
    have hsafe1 : fmSafe (updateFrontmatterTags d (RA.map normalizeTag) []).1 = true := by
      rw [hdata]
      exact fmSafe_setTags hsafe hstA
    have hne1 : (updateFrontmatterTags d (RA.map normalizeTag) []).1 ≠ [] := by
      rw [hdata]
      exact setStr_ne_nil _ _ _
    have hread1 : readFS ⟨setStr (goJoin root (goClean p))
        (serializeFrontmatter
          (updateFrontmatterTags d (RA.map normalizeTag) []).1 ++ body0)
        fs.files, fs.unwritable⟩ (goJoin root (goClean p))
        = some (serializeFrontmatter
            (updateFrontmatterTags d (RA.map normalizeTag) []).1 ++ body0) :=
      lookupStr_setStr_self _ _ _
    have hparse1 : parseFrontmatter (serializeFrontmatter
        (updateFrontmatterTags d (RA.map normalizeTag) []).1 ++ body0)
        = .ok (sortedFm (updateFrontmatterTags d (RA.map normalizeTag) []).1, body0) :=
      parseFrontmatter_roundtrip _ body0 hsafe1 hne1
    have hcontain : ∀ a ∈ RA.map normalizeTag,
        lowerStr a ∈ (currentTagsOf
          (sortedFm (updateFrontmatterTags d (RA.map normalizeTag) []).1)).map
          lowerStr := by
      intro a ha
      have hcur : currentTagsOf
          (sortedFm (updateFrontmatterTags d (RA.map normalizeTag) []).1)
          = (sortStrings ((RA.map normalizeTag).foldl addPhaseStep
              (currentTagsOf d, (currentTagsOf d).map lowerStr, [])).1).map trimSpace := by
        unfold currentTagsOf
        rw [lookup_sortedFm, hdata, lookupStr_setStr_self]
        rfl
      have hmapid : (sortStrings ((RA.map normalizeTag).foldl addPhaseStep
          (currentTagsOf d, (currentTagsOf d).map lowerStr, [])).1).map trimSpace
          = sortStrings ((RA.map normalizeTag).foldl addPhaseStep
              (currentTagsOf d, (currentTagsOf d).map lowerStr, [])).1 := by
        have h2 : ∀ x ∈ sortStrings ((RA.map normalizeTag).foldl addPhaseStep
            (currentTagsOf d, (currentTagsOf d).map lowerStr, [])).1,
            trimSpace x = x := fun x hx => (hstA x hx).2.1
        rw [List.map_congr_left h2, List.map_id']
      rw [hcur, hmapid]
      have hmem := addPhase_mem (RA.map normalizeTag)
        (currentTagsOf d, (currentTagsOf d).map lowerStr, []) a ha
      have hinv := addPhase_set_inv (RA.map normalizeTag)
        (currentTagsOf d, (currentTagsOf d).map lowerStr, []) rfl
      rw [hinv] at hmem
      obtain ⟨t0, ht0, hlow⟩ := List.mem_map.mp hmem
      exact List.mem_map.mpr ⟨t0, (mem_sortStrings t0 _).mpr ht0, hlow⟩
    have hstep2 : updateFileStep root RA [] false
        (emptyUpd, ⟨setStr (goJoin root (goClean p))
          (serializeFrontmatter
            (updateFrontmatterTags d (RA.map normalizeTag) []).1 ++ body0)
          fs.files, fs.unwritable⟩) p
        = (emptyUpd, ⟨setStr (goJoin root (goClean p))
            (serializeFrontmatter
              (updateFrontmatterTags d (RA.map normalizeTag) []).1 ++ body0)
            fs.files, fs.unwritable⟩) := by
      rw [updateFileStep_clean root RA _ p
        (sortedFm (updateFrontmatterTags d (RA.map normalizeTag) []).1)
        (serializeFrontmatter
          (updateFrontmatterTags d (RA.map normalizeTag) []).1 ++ body0)
        body0 hrel hdd hvp hread1 hparse1]
      exact processFile_nop root RA emptyUpd _ p _ body0 hmig hcontain
    refine ⟨r1, ⟨setStr (goJoin root (goClean p))
        (serializeFrontmatter
          (updateFrontmatterTags d (RA.map normalizeTag) []).1 ++ body0)
        fs.files, fs.unwritable⟩, emptyUpd, ?_, ?_, rfl⟩
    · rw [updateTags_single_step A root p fs RA hv hres, hstep1]
    · rw [updateTags_single_step A root p _ RA hv hres, hstep2]

/-- Concrete instance: adding "tag1" to a file without frontmatter, twice. -/
theorem c8_idempotent_adds_witness :
    ∃ r1 fs1 r2,
      updateTags [("tag1").data] [] (("/r").data) [("n.md").data]
        ⟨[((("/r/n.md").data), (("hello").data))], []⟩ false = (.ok r1, fs1) ∧
      updateTags [("tag1").data] [] (("/r").data) [("n.md").data] fs1 false
        = (.ok r2, fs1) ∧
      r2.tagsAdded = [] :=
  c8_idempotent_adds [("tag1").data] (("/r").data) (("n.md").data)
    ⟨[((("/r/n.md").data), (("hello").data))], []⟩ [] (("hello").data) (("hello").data)
    (by rfl) (by rfl) (by rfl) (by rfl) (by rfl) (by rfl) (by rfl) (by rfl)
    (by decide) (by decide)

end TagMgr
